import Mathlib

/-!
The IPC worker of the library OS (`shim_ipc_worker.c`).

A shallow embedding of the message framer `receive_ipc_messages`, of the dispatch
step with its automatic replies, of the response callback, of the connection
registry, and of the loop of `ipc_worker_main` with its wait-set, its exit and
accept branches and its per-connection part.

Bytes are natural numbers, a message is the list of its bytes, and the stream
behind a connection handle is the list of the results its reads will produce.
Everything the unit only declares (the header layout, the callback bodies of other
units, the PAL read primitive, `send_ipc_message`, `malloc`) is a field of `Env`
or a definition marked as modelled.
-/

namespace IpcWorker

/-! ## Wire header -/

/-- Layout of `struct shim_ipc_msg`, whose declaration (`shim_ipc.h`) is not part of
this unit: the minimal message size and the offset of every field the worker reads.
`total_size` and `seq` are 64-bit fields; `msgOff` is the offset of the payload
`msg[]`, which is also the size of the fixed header. -/
structure Layout where
  IPC_MSG_MINIMAL_SIZE : Nat
  codeOff : Nat
  codeWidth : Nat
  sizeOff : Nat
  srcOff : Nat
  idWidth : Nat
  seqOff : Nat
  msgOff : Nat
deriving DecidableEq, Repr

/-- The header fields, and the `retval` of a response, lie inside the first
`IPC_MSG_MINIMAL_SIZE` bytes, and that size is not zero. -/
def Layout.WF (L : Layout) : Prop :=
  0 < L.IPC_MSG_MINIMAL_SIZE ∧
  L.codeOff + L.codeWidth ≤ L.IPC_MSG_MINIMAL_SIZE ∧
  L.sizeOff + 8 ≤ L.IPC_MSG_MINIMAL_SIZE ∧
  L.srcOff + L.idWidth ≤ L.IPC_MSG_MINIMAL_SIZE ∧
  L.seqOff + 8 ≤ L.IPC_MSG_MINIMAL_SIZE ∧
  L.msgOff + 4 ≤ L.IPC_MSG_MINIMAL_SIZE

instance (L : Layout) : Decidable L.WF := by
  unfold Layout.WF; infer_instance

/-- `READAHEAD_SIZE`: `0x20 + IPC_MSG_MINIMAL_SIZE`. -/
def Layout.READAHEAD_SIZE (L : Layout) : Nat := 0x20 + L.IPC_MSG_MINIMAL_SIZE

/-- `sizeof(buf)`: the scratch buffer holds `IPC_MSG_MINIMAL_SIZE + READAHEAD_SIZE`
bytes. -/
def Layout.bufSize (L : Layout) : Nat := L.IPC_MSG_MINIMAL_SIZE + L.READAHEAD_SIZE

/-- Value of a little-endian byte string. -/
def leNat : List Nat → Nat
  | [] => 0
  | b :: bs => b % 256 + 256 * leNat bs

/-- Read of a `w`-byte field at offset `off` of an object that holds the bytes `bs`:
`none` when the field is not wholly inside the object. -/
def readField (bs : List Nat) (off w : Nat) : Option Nat :=
  if off + w ≤ bs.length then some (leNat ((bs.drop off).take w)) else none

/-- A 32-bit pattern read as a C `int`. -/
def toInt32 (v : Nat) : Int :=
  if v % 2 ^ 32 < 2 ^ 31 then (v % 2 ^ 32 : Nat) else ((v % 2 ^ 32 : Nat) : Int) - 2 ^ 32

/-! ## The stream behind a connection handle -/

/-- What the next read on the handle will meet: a chunk of bytes that has arrived,
one of the two retriable conditions (`-PAL_ERROR_INTERRUPTED`, `-PAL_ERROR_TRYAGAIN`),
or another negative PAL error. -/
inductive ReadEv
  | data (bs : List Nat)
  | transient
  | fail (pal : Int)
deriving DecidableEq, Repr

/-- A stream: the pending read results, and whether the peer has closed its end
(then every read past the pending results is a zero-length read; otherwise such a
read never returns). -/
structure Stream where
  pending : List ReadEv
  closed : Bool
deriving DecidableEq, Repr

/-- Result of one `DkStreamRead`. -/
inductive ReadRes
  | bytes (bs : List Nat)
  | transient
  | fail (pal : Int)
  | block
deriving DecidableEq, Repr

/-- Modelled from the spec: the raw stream read primitive `DkStreamRead` of the PAL,
asked for at most `req` bytes. It hands over the chunk at the head of the stream, or
its first `req` bytes when the chunk is longer. -/
def DkStreamRead (s : Stream) (req : Nat) : ReadRes × Stream :=
  match s.pending with
  | [] => if s.closed then (.bytes [], s) else (.block, s)
  | .data bs :: rest =>
    if bs.length ≤ req then (.bytes bs, ⟨rest, s.closed⟩)
    else (.bytes (bs.take req), ⟨.data (bs.drop req) :: rest, s.closed⟩)
  | .transient :: rest => (.transient, ⟨rest, s.closed⟩)
  | .fail pal :: rest => (.fail pal, ⟨rest, s.closed⟩)

/-- All the bytes the stream still holds. -/
def bytesOf : List ReadEv → List Nat
  | [] => []
  | .data bs :: rest => bs ++ bytesOf rest
  | _ :: rest => bytesOf rest

/-! ## Outgoing messages, the environment, the trace -/

/-- A message built by `init_ipc_msg` for sending: kind, total size, destination,
sequence number, and the `retval` of a response payload when there is one. -/
structure OutMsg where
  code : Nat
  size : Nat
  dst : Nat
  seq : Nat
  retval : Option Int
deriving DecidableEq, Repr

/-- What the unit takes from the rest of the library OS. `external` is the part of
the table `ipc_callbacks` filled with callbacks of other units (by message code,
`none` for a slot left empty); `malloc_ok n` tells whether `malloc(n)` succeeds;
`leader_vmid` is `g_process_ipc_ids.leader_vmid`; `PAL_WAIT_READ` and
`PAL_WAIT_ERROR` are the event flags of the PAL. -/
structure Env where
  L : Layout
  RESPONSE_CALLBACK : Int
  ENOMEM : Int
  ENODATA : Int
  pal_to_unix_errno : Int → Int
  IPC_MSG_RESP : Nat
  IPC_MSG_CONNBACK : Nat
  IPC_MSG_DUMMY : Nat
  ARRAY_SIZE : Nat
  external : Nat → Option (List Nat → Nat → Int)
  malloc_ok : Nat → Bool
  send_ipc_message : OutMsg → Nat → Int
  get_ipc_msg_size : Nat → Nat
  sizeof_shim_ipc_resp : Nat
  leader_vmid : Nat
  PAL_WAIT_READ : Nat
  PAL_WAIT_ERROR : Nat

/-- How a run of worker code ends: it returns a value, an `assert` fails, it reads
outside an object or reads bytes never written (`undef`), a read never returns
(`blocked`), or the loop budget of the model is used up (`diverge`). -/
inductive Status
  | ret (v : Int)
  | assertFail
  | undef
  | blocked
  | diverge
deriving DecidableEq, Repr

/-- Observable steps of the worker. -/
inductive Event
  | streamRead (req : Nat) (res : ReadRes)
  | readExact (req : Nat)
  | dispatch (msg : List Nat)
  | callback (code : Nat) (ret : Int)
  | unknownType (code : Nat)
  | response (dest : Nat) (ret : Int) (seq : Nat)
  | send (m : OutMsg) (dest : Nat)
  | resolve (src : Nat) (seq : Nat) (retval : Int)
deriving DecidableEq, Repr

/-! ## `read_exact` -/

/-- Result of `read_exact`: all the bytes, a negative return value, or a read that
never returns. -/
inductive ExactRes
  | ok (bs : List Nat) (s : Stream)
  | err (ret : Int) (s : Stream)
  | blocked (s : Stream)
  | diverge (s : Stream)
deriving DecidableEq, Repr

/-- Loop of `read_exact`: `need` bytes are still missing, `acc` holds those read. -/
def read_exact_loop (E : Env) : Nat → Stream → Nat → List Nat → ExactRes
  | 0, s, _, _ => .diverge s
  | n + 1, s, need, acc =>
    if 0 < need then
      match DkStreamRead s need with
      | (.transient, s1) => read_exact_loop E n s1 need acc
      | (.fail pal, s1) => .err (E.pal_to_unix_errno pal) s1
      | (.block, s1) => .blocked s1
      | (.bytes bs, s1) =>
        if bs.length = 0 then .err (-E.ENODATA) s1
        else read_exact_loop E n s1 (need - bs.length) (acc ++ bs)
    else .ok acc s

/-- Modelled from the spec: `read_exact` (defined in another unit), the precise read
of exactly the missing bytes. It repeats `DkStreamRead` until `size` bytes are read,
retries the two retriable conditions, and fails with `-ENODATA` on a zero-length
read. Every read consumes a pending result or completes the request, so the loop
budget `pending.length + 1` is never used up. -/
def read_exact (E : Env) (s : Stream) (size : Nat) : ExactRes :=
  read_exact_loop E (s.pending.length + 1) s size []

/-! ## The callbacks of this unit and the table -/

/-- A callback: given the message and the peer, how it ends and what it did. -/
abbrev Handler := List Nat → Nat → Status × List Event

/-- Code of `ipc_resp_callback`: hand `(src, msg->seq, resp->retval)` to the response
correlator and return 0. -/
def ipc_resp_callback (E : Env) (msg : List Nat) (src : Nat) : Status × List Event :=
  match readField msg E.L.srcOff E.L.idWidth with
  | none => (.undef, [])
  | some msrc =>
    if src ≠ msrc then (.assertFail, [])
    else
      match readField msg E.L.seqOff 8, readField msg E.L.msgOff 4 with
      | some seq, some rv => (.ret 0, [.resolve src seq (toInt32 rv)])
      | _, _ => (.undef, [])

/-- Code of `ipc_connect_back_callback`: send a dummy message with the sequence
number of the request back to `src` and return the result of the send. -/
def ipc_connect_back_callback (E : Env) (orig_msg : List Nat) (src : Nat) :
    Status × List Event :=
  let total_msg_size := E.get_ipc_msg_size 0
  match readField orig_msg E.L.seqOff 8 with
  | none => (.undef, [])
  | some seq =>
    let msg : OutMsg := ⟨E.IPC_MSG_DUMMY, total_msg_size, src, seq, none⟩
    (.ret (E.send_ipc_message msg src), [.send msg src])

/-- The table `ipc_callbacks`, read at index `code`. -/
def ipc_callbacks (E : Env) (code : Nat) : Option Handler :=
  if code = E.IPC_MSG_RESP then some (ipc_resp_callback E)
  else if code = E.IPC_MSG_CONNBACK then some (ipc_connect_back_callback E)
  else (E.external code).map (fun f msg src => (.ret (f msg src), []))

/-- Code of `send_ipc_response`. -/
def send_ipc_response (E : Env) (dest : Nat) (ret : Int) (seq : Nat) : Int × List Event :=
  let ret1 := if ret = E.RESPONSE_CALLBACK then 0 else ret
  let total_msg_size := E.get_ipc_msg_size E.sizeof_shim_ipc_resp
  let resp_msg : OutMsg := ⟨E.IPC_MSG_RESP, total_msg_size, dest, seq, some ret1⟩
  (E.send_ipc_message resp_msg dest, [.send resp_msg dest])

/-! ## `receive_ipc_messages` -/

/-- Result of the header loop: the buffer now holds at least a header, or the
function ends. -/
inductive HdrRes
  | done (s : Stream) (buf : List Nat) (tr : List Event)
  | exit (st : Status) (s : Stream) (tr : List Event)
deriving DecidableEq, Repr

/-- The loop `while (size < IPC_MSG_MINIMAL_SIZE)`; `buf` holds the `size` bytes
buffered so far. -/
def recvHeaderLoop (E : Env) : Nat → Stream → List Nat → HdrRes
  | 0, s, _ => .exit .diverge s []
  | n + 1, s, buf =>
    if buf.length < E.L.IPC_MSG_MINIMAL_SIZE then
      let tmp_size := E.L.bufSize - buf.length
      match DkStreamRead s tmp_size with
      | (.transient, s1) =>
        match recvHeaderLoop E n s1 buf with
        | .done s2 b tr => .done s2 b (.streamRead tmp_size .transient :: tr)
        | .exit st s2 tr => .exit st s2 (.streamRead tmp_size .transient :: tr)
      | (.fail pal, s1) =>
        .exit (.ret (E.pal_to_unix_errno pal)) s1 [.streamRead tmp_size (.fail pal)]
      | (.block, s1) => .exit .blocked s1 [.streamRead tmp_size .block]
      | (.bytes bs, s1) =>
        if bs.length = 0 then
          if buf.length = 0 then .exit (.ret 1) s1 [.streamRead tmp_size (.bytes bs)]
          else .exit (.ret (-E.ENODATA)) s1 [.streamRead tmp_size (.bytes bs)]
        else
          match recvHeaderLoop E n s1 (buf ++ bs) with
          | .done s2 b tr => .done s2 b (.streamRead tmp_size (.bytes bs) :: tr)
          | .exit st s2 tr => .exit st s2 (.streamRead tmp_size (.bytes bs) :: tr)
    else .done s buf []

/-- The header loop with its budget: every pass consumes a pending read result or
fills the buffer, so `pending.length + 1` passes are enough. -/
def recvHeader (E : Env) (s : Stream) (buf : List Nat) : HdrRes :=
  recvHeaderLoop E (s.pending.length + 1) s buf

/-- The dispatch step, from `assert(conn->vmid == msg->src)` to the end of the
`if ... else` on the callback table: `none` when the loop goes on, the way the
function ends otherwise. The `assert` is taken as checked; a header field read from a
message too short to hold it is `undef`. The log lines are left out. -/
def dispatch (E : Env) (vmid : Nat) (msg : List Nat) : Option Status × List Event :=
  match readField msg E.L.srcOff E.L.idWidth with
  | none => (some .undef, [])
  | some src =>
    if vmid ≠ src then (some .assertFail, [])
    else
      match readField msg E.L.codeOff E.L.codeWidth with
      | none => (some .undef, [])
      | some code =>
        if code < E.ARRAY_SIZE then
          match ipc_callbacks E code with
          | none => (none, [.unknownType code])
          | some h =>
            match h msg vmid with
            | (.ret ret, evs) =>
              if ret < 0 ∨ ret = E.RESPONSE_CALLBACK then
                match readField msg E.L.seqOff 8 with
                | none => (some .undef, evs ++ [.callback code ret])
                | some seq =>
                  if seq ≠ 0 then
                    let r := send_ipc_response E vmid ret seq
                    if r.1 < 0 then
                      (some (.ret r.1), evs ++ [.callback code ret, .response vmid ret seq] ++ r.2)
                    else (none, evs ++ [.callback code ret, .response vmid ret seq] ++ r.2)
                  else (none, evs ++ [.callback code ret])
              else (none, evs ++ [.callback code ret])
            | (st, evs) => (some st, evs)
        else (none, [.unknownType code])

/-- Result of a run: how it ended, what is left of the stream, what was done. -/
structure Out where
  status : Status
  stream : Stream
  trace : List Event
deriving DecidableEq, Repr

/-- The same run, after the events `evs`. -/
def Out.after (evs : List Event) (o : Out) : Out := ⟨o.status, o.stream, evs ++ o.trace⟩

/-- One pass of the body of the `do ... while` loop: the function ends, or the pass
is over with `buf` buffered. -/
inductive Pass
  | final (o : Out)
  | next (s : Stream) (buf : List Nat) (tr : List Event)
deriving DecidableEq, Repr

/-- Dispatch of the assembled message `msg`, with `rest` left in the buffer. -/
def passDispatch (E : Env) (vmid : Nat) (s : Stream) (msg rest : List Nat)
    (tr : List Event) : Pass :=
  match dispatch E vmid msg with
  | (some st, evs) => .final ⟨st, s, tr ++ .dispatch msg :: evs⟩
  | (none, evs) => .next s rest (tr ++ .dispatch msg :: evs)

/-- Body of the `do ... while` loop of `receive_ipc_messages`, entered with `buf`
buffered: header loop, `size` field, `malloc`, the two ways to assemble the message,
dispatch. After `read_exact` only a negative value makes the function return; any
other failure value would let it go on with bytes never written (`undef`). -/
def recvPass (E : Env) (vmid : Nat) (s : Stream) (buf : List Nat) : Pass :=
  match recvHeader E s buf with
  | .exit st s1 tr => .final ⟨st, s1, tr⟩
  | .done s1 buf1 tr =>
    match readField buf1 E.L.sizeOff 8 with
    | none => .final ⟨.undef, s1, tr⟩
    | some msg_size =>
      if E.malloc_ok msg_size = false then .final ⟨.ret (-E.ENOMEM), s1, tr⟩
      else if msg_size ≤ buf1.length then
        passDispatch E vmid s1 (buf1.take msg_size) (buf1.drop msg_size) tr
      else
        match read_exact E s1 (msg_size - buf1.length) with
        | .ok bs s2 =>
          passDispatch E vmid s2 (buf1 ++ bs) [] (tr ++ [.readExact (msg_size - buf1.length)])
        | .err ret s2 =>
          if ret < 0 then .final ⟨.ret ret, s2, tr ++ [.readExact (msg_size - buf1.length)]⟩
          else .final ⟨.undef, s2, tr ++ [.readExact (msg_size - buf1.length)]⟩
        | .blocked s2 => .final ⟨.blocked, s2, tr ++ [.readExact (msg_size - buf1.length)]⟩
        | .diverge s2 => .final ⟨.diverge, s2, tr ++ [.readExact (msg_size - buf1.length)]⟩

/-- The `do ... while (size > 0)` loop, entered with `buf` buffered, for at most the
given number of passes. -/
def recvLoop (E : Env) (vmid : Nat) : Nat → Stream → List Nat → Out
  | 0, s, _ => ⟨.diverge, s, []⟩
  | fuel + 1, s, buf =>
    match recvPass E vmid s buf with
    | .final o => o
    | .next s1 buf1 tr =>
      if 0 < buf1.length then (recvLoop E vmid fuel s1 buf1).after tr
      else ⟨.ret 0, s1, tr⟩

/-- Code of `receive_ipc_messages` on the connection of peer `vmid` whose handle reads
from `s`: the loop starts with an empty buffer (`size = 0`). -/
def receive_ipc_messages (E : Env) (fuel : Nat) (vmid : Nat) (s : Stream) : Out :=
  recvLoop E vmid fuel s []

/-- The messages a trace hands to the dispatch step, in order. -/
def dispatched : List Event → List (List Nat)
  | [] => []
  | .dispatch m :: tr => m :: dispatched tr
  | _ :: tr => dispatched tr

/-- The calls of `send_ipc_response` in a trace, in order: `(dest, ret, seq)`. -/
def responses : List Event → List (Nat × Int × Nat)
  | [] => []
  | .response d r q :: tr => (d, r, q) :: responses tr
  | _ :: tr => responses tr

/-! ## The connection registry and the per-connection part of `ipc_worker_main` -/

/-- A `struct shim_ipc_connection`: the address of the allocated object, its stream
handle and the id of the peer. -/
structure Conn where
  addr : Nat
  handle : Nat
  vmid : Nat
deriving DecidableEq, Repr

/-- What the worker does outside `receive_ipc_messages`. -/
inductive WEvent
  | receive (c : Conn) (o : Out)
  | disconnect_callbacks (c : Conn)
  | ipc_leader_died_callback
  | ipc_child_disconnect_callback (vmid : Nat)
  | remove_outgoing_ipc_connection (vmid : Nat)
  | del_ipc_connection (c : Conn)
  | DkObjectClose (handle : Nat)
  | free (addr : Nat)
  | DkStreamWaitForClient (handle : Nat)
  | add_ipc_connection (c : Conn)
  | DkThreadExit
  | DkProcessExit
deriving DecidableEq, Repr

/-- State of the worker: the list `g_ipc_connections`, the counter
`g_ipc_connections_cnt` (a `size_t`), the stream behind every handle, and what the
worker has done so far. -/
structure Worker where
  g_ipc_connections : List Conn
  g_ipc_connections_cnt : Nat
  streams : Nat → Stream
  log : List WEvent

/-- Code of `disconnect_callbacks`. -/
def disconnect_callbacks (E : Env) (w : Worker) (conn : Conn) : Worker :=
  ⟨w.g_ipc_connections, w.g_ipc_connections_cnt, w.streams,
    w.log ++ WEvent.disconnect_callbacks conn ::
      ((if E.leader_vmid = conn.vmid then [WEvent.ipc_leader_died_callback] else []) ++
        [WEvent.ipc_child_disconnect_callback conn.vmid,
          WEvent.remove_outgoing_ipc_connection conn.vmid])⟩

/-- Code of `del_ipc_connection`: unlink the object from the list, decrement the
counter, close the handle, free the object. -/
def del_ipc_connection (w : Worker) (conn : Conn) : Worker :=
  ⟨w.g_ipc_connections.erase conn, (w.g_ipc_connections_cnt + 2 ^ 64 - 1) % 2 ^ 64, w.streams,
    w.log ++ [WEvent.del_ipc_connection conn, WEvent.DkObjectClose conn.handle,
      WEvent.free conn.addr]⟩

/-- How an iteration of the `while (1)` loop of `ipc_worker_main` ends: the loop goes
on, the thread exits, the process exits (`out_die`), or a call did not return. -/
inductive LoopEnd
  | next
  | threadExit
  | die
  | stuck (st : Status)
deriving DecidableEq, Repr

/-- Body of the loop `for (i = reserved_slots; i < items_cnt; i++)` for the slot that
holds `conn`, with `ev` in `ret_events[i]`: `none` when the `for` loop goes on. -/
def connSlot (E : Env) (fuel : Nat) (w : Worker) (conn : Conn) (ev : Nat) :
    Option Status × Worker :=
  if ev &&& E.PAL_WAIT_READ ≠ 0 then
    let o := receive_ipc_messages E fuel conn.vmid (w.streams conn.handle)
    let w1 : Worker := ⟨w.g_ipc_connections, w.g_ipc_connections_cnt,
      Function.update w.streams conn.handle o.stream, w.log ++ [WEvent.receive conn o]⟩
    match o.status with
    | .ret ret =>
      if ret = 1 then (none, del_ipc_connection (disconnect_callbacks E w1 conn) conn)
      else
        let ev1 := if ret < 0 then E.PAL_WAIT_ERROR else ev
        if ev1 = E.PAL_WAIT_ERROR then
          (none, del_ipc_connection (disconnect_callbacks E w1 conn) conn)
        else (none, w1)
    | st => (some st, w1)
  else if ev = E.PAL_WAIT_ERROR then
    (none, del_ipc_connection (disconnect_callbacks E w conn) conn)
  else (none, w)

/-- The loop `for (i = reserved_slots; i < items_cnt; i++)` over the slots gathered
before the wait, each with its connection and its returned events; after the last
slot the `while (1)` loop starts its next iteration. -/
def connLoop (E : Env) (fuel : Nat) : Worker → List (Conn × Nat) → LoopEnd × Worker
  | w, [] => (.next, w)
  | w, (conn, ev) :: rest =>
    match connSlot E fuel w conn ev with
    | (some st, w1) => (.stuck st, w1)
    | (none, w1) => connLoop E fuel w1 rest

/-! ## Streams of framed messages, successive calls -/

def AllData (p : List ReadEv) : Prop := ∀ e ∈ p, ∃ bs, e = ReadEv.data bs ∧ bs ≠ []

def OnlyReads (tr : List Event) : Prop := ∀ e ∈ tr, ∃ req res, e = Event.streamRead req res

/-- A message as the sender frames it: the `size` field of its header holds its real
length, which is at least `IPC_MSG_MINIMAL_SIZE`. -/
def Framed (L : Layout) (m : List Nat) : Prop :=
  readField m L.sizeOff 8 = some m.length ∧ L.IPC_MSG_MINIMAL_SIZE ≤ m.length

instance (L : Layout) (m : List Nat) : Decidable (Framed L m) := by
  unfold Framed; infer_instance

/-- The dispatch step of `m` on the connection of peer `vmid` lets the loop go on. -/
def Continues (E : Env) (vmid : Nat) (m : List Nat) : Prop := (dispatch E vmid m).1 = none

/-- A trace of stream reads only. -/
def OnlyIO (tr : List Event) : Prop :=
  ∀ e ∈ tr, (∃ req res, e = Event.streamRead req res) ∨ ∃ req, e = Event.readExact req

/-- The bytes `tail` are the beginning, and not the whole, of a framed message. -/
def Partial (L : Layout) (tail : List Nat) : Prop :=
  tail ≠ [] ∧ ∃ rest, rest ≠ [] ∧ Framed L (tail ++ rest)

/-- The handle is signalled readable: a read result is pending or the peer has closed. -/
def readable (s : Stream) : Bool := !s.pending.isEmpty || s.closed

/-- The successive calls of `receive_ipc_messages` the main loop makes on one
connection: one call whenever the handle is readable, until a call does not return 0
(the main loop then removes the connection). At most `calls` calls are made. -/
def recvCalls (E : Env) (fuel : Nat) (vmid : Nat) : Nat → Stream → List Out
  | 0, _ => []
  | calls + 1, s =>
    if readable s then
      if (receive_ipc_messages E fuel vmid s).status = Status.ret 0 then
        receive_ipc_messages E fuel vmid s ::
          recvCalls E fuel vmid calls (receive_ipc_messages E fuel vmid s).stream
      else [receive_ipc_messages E fuel vmid s]
    else []

/-- All the messages a list of calls hands to the dispatch step, in order. -/
def dispatchedBy : List Out → List (List Nat)
  | [] => []
  | o :: os => dispatched o.trace ++ dispatchedBy os

/-- What `recvLoop` has done when `ms` and then `tail` were to come. -/
def LoopPost (E : Env) (ms : List (List Nat)) (tail : List Nat) (closed : Bool) (o : Out) :
    Prop :=
  ∃ k, k ≤ ms.length ∧ dispatched o.trace = ms.take k ∧
    ((o.status = Status.ret 0 ∧ 0 < k ∧
        bytesOf o.stream.pending = (ms.drop k).flatten ++ tail ∧
        AllData o.stream.pending ∧ o.stream.closed = closed) ∨
      (o.status = Status.ret (-E.ENODATA) ∧ k = ms.length ∧ tail ≠ [] ∧ 0 < E.ENODATA ∧
        o.stream.pending = []))

/-! ## A concrete environment for worked examples -/

/-- The `w` low bytes of `v`, little end first. -/
def leBytes : Nat → Nat → List Nat
  | 0, _ => []
  | w + 1, v => v % 256 :: leBytes w (v / 256)

/-- Modelled from the spec: the wire header in the field order the spec gives (kind,
total size as a 64-bit value, source peer, destination peer, 64-bit sequence number),
packed, with a one-byte kind and 32-bit peer ids, and a minimal message size of 48
bytes; the declaration itself (`shim_ipc.h`) is not part of this unit. -/
def packedLayout : Layout := ⟨48, 0, 1, 1, 9, 4, 17, 25⟩

/-- The bytes of a message with the given header fields and payload, in
`packedLayout`. -/
def mkMsg (code size src dst seq : Nat) (payload : List Nat) : List Nat :=
  leBytes 1 code ++ leBytes 8 size ++ leBytes 4 src ++ leBytes 4 dst ++ leBytes 8 seq ++ payload

/-- An environment for worked examples: `RESPONSE_CALLBACK` is 1, the table has 23
slots with the codes 2 to 22 filled by a callback that returns the `int` found at the
start of the payload, allocation and sending succeed, the leader is peer 1. -/
def sampleEnv : Env where
  L := packedLayout
  RESPONSE_CALLBACK := 1
  ENOMEM := 12
  ENODATA := 61
  pal_to_unix_errno := fun e => if e < 0 then e else -22
  IPC_MSG_RESP := 0
  IPC_MSG_CONNBACK := 1
  IPC_MSG_DUMMY := 2
  ARRAY_SIZE := 23
  external := fun code =>
    if 2 ≤ code ∧ code < 23 then some (fun msg _ => toInt32 (leNat ((msg.drop 25).take 4)))
    else none
  malloc_ok := fun _ => true
  send_ipc_message := fun _ _ => 0
  get_ipc_msg_size := fun p => max (25 + p) 48
  sizeof_shim_ipc_resp := 4
  leader_vmid := 1
  PAL_WAIT_READ := 2
  PAL_WAIT_ERROR := 8

/-- A 48-byte request from peer 7 with sequence number 42 whose callback returns -5. -/
def msgA : List Nat := mkMsg 2 48 7 9 42 (leBytes 4 (2 ^ 32 - 5) ++ List.replicate 19 0)

/-- A 60-byte message from peer 7 with sequence number 0 whose callback returns 1. -/
def msgB : List Nat := mkMsg 5 60 7 9 0 (leBytes 4 1 ++ List.replicate 31 3)

/-- A 48-byte request from peer 7 with sequence number 42 whose callback returns 0. -/
def msgZ : List Nat := mkMsg 2 48 7 9 42 (List.replicate 23 0)

/-- A 48-byte request from peer 7 with sequence number 42 whose callback returns
`RESPONSE_CALLBACK`. -/
def msgR : List Nat := mkMsg 5 48 7 9 42 (leBytes 4 1 ++ List.replicate 19 0)

/-- A 48-byte connect-back request from peer 7 with sequence number 42. -/
def msgC : List Nat := mkMsg 1 48 7 9 42 (List.replicate 23 0)

/-- A 48-byte message from peer 7 with sequence number 42 and the kind 200, which is
outside the table. -/
def msgU : List Nat := mkMsg 200 48 7 9 42 (List.replicate 23 0)

/-- A 30-byte message from peer 7 whose header declares those 30 bytes, fewer than
`IPC_MSG_MINIMAL_SIZE`. -/
def shortMsg : List Nat := mkMsg 2 30 7 9 0 [0, 0, 0, 0, 0]

/-- The trace of one pass of the loop. -/
def Pass.trace : Pass → List Event
  | .final o => o.trace
  | .next _ _ tr => tr

/-- The message is as long as the `size` field of its own header says (when it is
long enough to hold that field). -/
def DeclaredSize (L : Layout) (m : List Nat) : Prop :=
  L.sizeOff + 8 ≤ m.length → readField m L.sizeOff 8 = some m.length

/-- The error constants are positive and `pal_to_unix_errno` yields negative values,
so that no error return is mistaken for 0. -/
def Env.ErrorsNegative (E : Env) : Prop :=
  0 < E.ENOMEM ∧ 0 < E.ENODATA ∧ ∀ c, E.pal_to_unix_errno c < 0

/-! ## The per-connection pass: what is recorded and what it closes -/

/-- What closing the connection `c` adds to the log: `disconnect_callbacks` with the
callbacks it makes, then `del_ipc_connection` with the close and the free. -/
def closeLog (E : Env) (c : Conn) : List WEvent :=
  WEvent.disconnect_callbacks c ::
    ((if E.leader_vmid = c.vmid then [WEvent.ipc_leader_died_callback] else []) ++
      [WEvent.ipc_child_disconnect_callback c.vmid,
        WEvent.remove_outgoing_ipc_connection c.vmid]) ++
    [WEvent.del_ipc_connection c, WEvent.DkObjectClose c.handle, WEvent.free c.addr]

/-- The calls of `disconnect_callbacks` and `del_ipc_connection` for the connection
`c` in a log, in order. -/
def marks (c : Conn) (log : List WEvent) : List WEvent :=
  log.filter (fun e =>
    decide (e = WEvent.disconnect_callbacks c ∨ e = WEvent.del_ipc_connection c))

/-- The slot of connection `c` with returned events `ev` ends with the connection
closed: its `receive_ipc_messages` call returns 1 or a negative value, or the
returned events are exactly `PAL_WAIT_ERROR`. -/
def slotCloses (E : Env) (fuel : Nat) (w : Worker) (c : Conn) (ev : Nat) : Prop :=
  if ev &&& E.PAL_WAIT_READ ≠ 0 then
    match (receive_ipc_messages E fuel c.vmid (w.streams c.handle)).status with
    | .ret v => v = 1 ∨ v < 0 ∨ ev = E.PAL_WAIT_ERROR
    | _ => False
  else ev = E.PAL_WAIT_ERROR

/-- A 48-byte message from peer 8 with sequence number 0 whose callback returns 0. -/
def msgP : List Nat := mkMsg 2 48 8 9 0 (List.replicate 23 0)

/-- The connection of peer 7, on handle 11. -/
def connA : Conn := ⟨4096, 11, 7⟩

/-- The connection of peer 8, on handle 12. -/
def connB : Conn := ⟨8192, 12, 8⟩

/-- A worker with the two connections `connA` and `connB`: peer 7 has closed its end
with nothing pending, peer 8 has sent `msgP`. -/
def sampleWorker : Worker :=
  ⟨[connB, connA], 2,
    fun h => if h = 11 then ⟨[], true⟩ else if h = 12 then ⟨[ReadEv.data msgP], false⟩
      else ⟨[], false⟩,
    []⟩

/-- The trace of the header loop. -/
def HdrRes.trace : HdrRes → List Event
  | .done _ _ tr => tr
  | .exit _ _ tr => tr

/-! ## A reply that cannot be sent -/

instance (E : Env) (vmid : Nat) (m : List Nat) : Decidable (Continues E vmid m) := by
  unfold Continues; infer_instance

/-- The environment of the worked examples, except that every send fails with -32. -/
def failingEnv : Env := { sampleEnv with send_ipc_message := fun _ _ => -32 }

/-! ## The rest of `ipc_worker_main`: registry, wait-set, exit and accept branches -/

/-- The worker `w` after recording `evs`. -/
def Worker.logged (w : Worker) (evs : List WEvent) : Worker :=
  ⟨w.g_ipc_connections, w.g_ipc_connections_cnt, w.streams, w.log ++ evs⟩

/-- Code of `add_ipc_connection`; `mem` is what `malloc(sizeof(*conn))` returns
(`none` for `NULL`). `LISTP_ADD`, whose definition (`list.h`) is not part of this
unit, is taken to insert at the head of the list. -/
def add_ipc_connection (E : Env) (w : Worker) (mem : Option Nat) (handle id : Nat) :
    Int × Worker :=
  match mem with
  | none => (-E.ENOMEM, w)
  | some a =>
    (0, ⟨⟨a, handle, id⟩ :: w.g_ipc_connections, (w.g_ipc_connections_cnt + 1) % 2 ^ 64,
      w.streams, w.log ++ [WEvent.add_ipc_connection ⟨a, handle, id⟩]⟩)

/-- An entry of the array `handles`: the handle of the exit event, the listening
handle `g_self_ipc_handle`, or the handle of a connection. -/
inductive WaitHandle
  | exit_event
  | self_ipc
  | conn (handle : Nat)
deriving DecidableEq, Repr

/-- What `DkStreamsWaitEvents` does: it fills `ret_events` and returns, it is
interrupted (`-PAL_ERROR_INTERRUPTED`), or it fails with another PAL error. -/
inductive WaitRes
  | events (ret_events : List Nat)
  | interrupted
  | failed (pal : Int)
deriving DecidableEq, Repr

/-- What the environment does during one iteration of the main loop: whether the
four arrays can be allocated, the result of the wait, the handle
`DkStreamWaitForClient` yields (`none` when it fails), and what `malloc` returns for a
new connection object. -/
structure IterEnv where
  arrays_ok : Bool
  wait : WaitRes
  accepted : Option Nat
  conn_mem : Option Nat
deriving DecidableEq, Repr

/-- State of `ipc_worker_main`: the worker and the local `prev_items_cnt`. -/
structure MainState where
  w : Worker
  prev_items_cnt : Nat

/-- The arrays `connections` and `handles` as filled before the wait (two reserved
slots, then one slot per list entry), for arrays of `items_cnt` entries: `none` when
the list does not have `items_cnt - 2` entries, since then the fill index passes the
end of the arrays or slots are left unwritten. -/
def gather (w : Worker) (items_cnt : Nat) : Option (List (Option Conn) × List WaitHandle) :=
  if w.g_ipc_connections.length + 2 = items_cnt then
    some (none :: none :: w.g_ipc_connections.map some,
      WaitHandle.exit_event :: WaitHandle.self_ipc ::
        w.g_ipc_connections.map (fun c => WaitHandle.conn c.handle))
  else none

/-- The slots `i, i + 1, ...` of the per-connection loop: `connections[i]` with
`ret_events[i]` (0 where the wait wrote nothing, the array being cleared first). -/
def slotsFrom : Nat → List Conn → List Nat → List (Conn × Nat)
  | _, [], _ => []
  | i, c :: cs, ret_events => (c, ret_events.getD i 0) :: slotsFrom (i + 1) cs ret_events

/-- The branch `if (ret_events[1])` of the main loop, with `ev1` in `ret_events[1]`:
`none` when the iteration goes on to the per-connection loop. The test
`ret_events[1] & ~PAL_WAIT_READ` is written `ev1 &&& PAL_WAIT_READ ≠ ev1`; the id is
read with `read_exact` into the `IDTYPE` variable `new_id`. -/
def acceptBranch (E : Env) (env : IterEnv) (w : Worker) (ev1 : Nat) :
    Option LoopEnd × Worker :=
  if ev1 ≠ 0 then
    if ev1 &&& E.PAL_WAIT_READ ≠ ev1 then (some .die, w.logged [WEvent.DkProcessExit])
    else
      match env.accepted with
      | none => (some .die, w.logged [WEvent.DkProcessExit])
      | some new_handle =>
        match read_exact E (w.streams new_handle) E.L.idWidth with
        | .ok bs s2 =>
          let w1 : Worker := ⟨w.g_ipc_connections, w.g_ipc_connections_cnt,
            Function.update w.streams new_handle s2,
            w.log ++ [WEvent.DkStreamWaitForClient new_handle]⟩
          let r := add_ipc_connection E w1 env.conn_mem new_handle (leNat bs)
          if r.1 < 0 then (some .die, r.2.logged [WEvent.DkProcessExit]) else (none, r.2)
        | .err ret s2 =>
          let w1 : Worker := ⟨w.g_ipc_connections, w.g_ipc_connections_cnt,
            Function.update w.streams new_handle s2,
            w.log ++ [WEvent.DkStreamWaitForClient new_handle]⟩
          if ret < 0 then (none, w1.logged [WEvent.DkObjectClose new_handle])
          else (some (.stuck .undef), w1)
        | .blocked s2 =>
          (some (.stuck .blocked), ⟨w.g_ipc_connections, w.g_ipc_connections_cnt,
            Function.update w.streams new_handle s2,
            w.log ++ [WEvent.DkStreamWaitForClient new_handle]⟩)
        | .diverge s2 =>
          (some (.stuck .diverge), ⟨w.g_ipc_connections, w.g_ipc_connections_cnt,
            Function.update w.streams new_handle s2,
            w.log ++ [WEvent.DkStreamWaitForClient new_handle]⟩)
  else (none, w)

/-- One iteration of the `while (1)` loop of `ipc_worker_main`: arrays, wait-set,
wait, exit branch, accept branch, per-connection loop. -/
def ipc_worker_iter (E : Env) (fuel : Nat) (env : IterEnv) (st : MainState) :
    LoopEnd × MainState :=
  let items_cnt := (st.w.g_ipc_connections_cnt + 2) % 2 ^ 64
  if items_cnt ≠ st.prev_items_cnt ∧ env.arrays_ok = false then
    (.die, ⟨st.w.logged [WEvent.DkProcessExit], st.prev_items_cnt⟩)
  else
    match gather st.w items_cnt with
    | none => (.stuck .undef, ⟨st.w, items_cnt⟩)
    | some _ =>
      match env.wait with
      | .interrupted => (.next, ⟨st.w, items_cnt⟩)
      | .failed _ => (.die, ⟨st.w.logged [WEvent.DkProcessExit], items_cnt⟩)
      | .events ret_events =>
        if ret_events.getD 0 0 ≠ 0 then
          if ret_events.getD 0 0 &&& E.PAL_WAIT_READ ≠ ret_events.getD 0 0 then
            (.die, ⟨st.w.logged [WEvent.DkProcessExit], items_cnt⟩)
          else (.threadExit, ⟨st.w.logged [WEvent.DkThreadExit], items_cnt⟩)
        else
          match acceptBranch E env st.w (ret_events.getD 1 0) with
          | (some e, w1) => (e, ⟨w1, items_cnt⟩)
          | (none, w1) =>
            ((connLoop E fuel w1 (slotsFrom 2 st.w.g_ipc_connections ret_events)).1,
              ⟨(connLoop E fuel w1 (slotsFrom 2 st.w.g_ipc_connections ret_events)).2,
                items_cnt⟩)

/-- The loop `while (1)` of `ipc_worker_main`, run for the iterations whose
environment is given; it stops at the first iteration that does not end with the loop
going on. -/
def ipc_worker_main (E : Env) (fuel : Nat) : List IterEnv → MainState → LoopEnd × MainState
  | [], st => (.next, st)
  | env :: rest, st =>
    match ipc_worker_iter E fuel env st with
    | (.next, st1) => ipc_worker_main E fuel rest st1
    | r => r

/-- The worker at the start of `ipc_worker_main`: empty registry, counter 0, nothing
done yet. -/
def Worker.start (streams : Nat → Stream) : MainState := ⟨⟨[], 0, streams, []⟩, 0⟩

/-! ## Reachable registries -/

/-- A step on the registry: a successful `add_ipc_connection` (with the address
`malloc` returned) or a `del_ipc_connection`. -/
inductive RegOp
  | add (addr handle id : Nat)
  | del (c : Conn)
deriving DecidableEq, Repr

/-- The worker after the registry steps `ops`. -/
def applyOps (E : Env) : Worker → List RegOp → Worker
  | w, [] => w
  | w, .add a h id :: ops => applyOps E (add_ipc_connection E w (some a) h id).2 ops
  | w, .del c :: ops => applyOps E (del_ipc_connection w c) ops

/-- The steps can happen: `malloc` returns the address of no live object and succeeds
only while fewer than `2 ^ 64 - 3` objects are live; only a registered connection is
deleted. -/
def ValidOps (E : Env) : Worker → List RegOp → Prop
  | _, [] => True
  | w, .add a h id :: ops =>
    (∀ c ∈ w.g_ipc_connections, c.addr ≠ a) ∧ w.g_ipc_connections.length + 3 < 2 ^ 64 ∧
      ValidOps E (add_ipc_connection E w (some a) h id).2 ops
  | w, .del c :: ops => c ∈ w.g_ipc_connections ∧ ValidOps E (del_ipc_connection w c) ops

/-- The registry is consistent: the connection objects have pairwise distinct
addresses, the counter is the number of list entries, and `items_cnt` does not wrap. -/
def RegInv (w : Worker) : Prop :=
  (w.g_ipc_connections.map Conn.addr).Nodup ∧
    w.g_ipc_connections_cnt = w.g_ipc_connections.length ∧
    w.g_ipc_connections.length + 2 < 2 ^ 64

/-- In this iteration `malloc` behaves: the address it returns for a new connection
is that of no live object, and it succeeds only while fewer than `2 ^ 64 - 3` objects
are live. -/
def IterFresh (env : IterEnv) (st : MainState) : Prop :=
  ∀ a, env.conn_mem = some a →
    (∀ c ∈ st.w.g_ipc_connections, c.addr ≠ a) ∧ st.w.g_ipc_connections.length + 3 < 2 ^ 64

/-- In every iteration of the run `malloc` behaves. -/
def FreshRun (E : Env) (fuel : Nat) : List IterEnv → MainState → Prop
  | [], _ => True
  | env :: rest, st =>
    IterFresh env st ∧ FreshRun E fuel rest (ipc_worker_iter E fuel env st).2

/-- Two peers that both send the identification value 7, on the handles 11 and 12. -/
def twoPeers : Nat → Stream := fun h =>
  if h = 11 then ⟨[ReadEv.data [7, 0, 0, 0]], false⟩
  else if h = 12 then ⟨[ReadEv.data [7, 0, 0, 0]], false⟩
  else ⟨[], false⟩

/-- Two iterations in which the listening handle is signalled and a connection is
accepted: on handle 11 with the object at 4096, then on handle 12 with the object at
8192. -/
def twoAccepts : List IterEnv :=
  [⟨true, .events [0, 2], some 11, some 4096⟩, ⟨true, .events [0, 2, 0], some 12, some 8192⟩]


/-- Every handle is closed by its peer with nothing sent. -/
def silentPeers : Nat → Stream := fun _ => ⟨[], true⟩

/-- An iteration in which only the listening handle is signalled and the connection
accepted on handle 11 would get the object at 4096. -/
def oneAccept : IterEnv := ⟨true, .events [0, 2], some 11, some 4096⟩

/-- An iteration in which the exit event, the listening handle and the slot of a
connection are all signalled for read. -/
def exitAndMore : IterEnv := ⟨true, .events [2, 2, 2], some 13, some 12288⟩

/-! ## The response callback -/

/-- A `struct shim_ipc_msg_with_ack` as far as `set_request_retval` uses it: the
thread that waits for the response, and the field `retval`. -/
structure MsgWithAck where
  thread : Nat
  retval : Int
deriving DecidableEq, Repr

/-- The conversion `(int)(intptr_t)data` of the pointer-sized callback argument: its
low 32 bits read as an `int`. -/
def intOfData (data : Int) : Int := toInt32 (data % 2 ^ 32).toNat

/-- Code of `set_request_retval`, called by the response correlator with the pending
request it found (`none` for `NULL`) and the `retval` of the response, passed as
`(void*)(intptr_t)resp->retval`: the request after the call, and the threads woken
by `thread_wakeup`. -/
def set_request_retval (req_msg : Option MsgWithAck) (data : Int) :
    Option MsgWithAck × List Nat :=
  match req_msg with
  | none => (none, [])
  | some r => (some ⟨r.thread, intOfData data⟩, [r.thread])

/-- A 48-byte response from peer 7 with sequence number 42 and `retval` -11. -/
def msgResp : List Nat := mkMsg 0 48 7 9 42 (leBytes 4 (2 ^ 32 - 11) ++ List.replicate 19 0)

/-! ## Retried reads -/

/-- The pending read results without the two retriable conditions. -/
def dropTransient : List ReadEv → List ReadEv
  | [] => []
  | .transient :: rest => dropTransient rest
  | .data bs :: rest => .data bs :: dropTransient rest
  | .fail pal :: rest => .fail pal :: dropTransient rest

/-- The stream without the retriable conditions. -/
def Stream.settled (s : Stream) : Stream := ⟨dropTransient s.pending, s.closed⟩

/-- A stream read that met a retriable condition. -/
def isRetry : Event → Bool
  | .streamRead _ .transient => true
  | _ => false

/-- The trace without the reads that met a retriable condition. -/
def quiet (tr : List Event) : List Event := tr.filter (fun e => !isRetry e)

/-- The result of the header loop, retried reads left out. -/
def HdrRes.settled : HdrRes → HdrRes
  | .done s buf tr => .done s.settled buf (quiet tr)
  | .exit st s tr => .exit st s.settled (quiet tr)

/-- The result of the header loop after the event `e`. -/
def HdrRes.pre (e : Event) : HdrRes → HdrRes
  | .done s buf tr => .done s buf (e :: tr)
  | .exit st s tr => .exit st s (e :: tr)

/-- The result of `read_exact`, retried reads left out. -/
def ExactRes.settled : ExactRes → ExactRes
  | .ok bs s => .ok bs s.settled
  | .err ret s => .err ret s.settled
  | .blocked s => .blocked s.settled
  | .diverge s => .diverge s.settled

/-- The result of a run, retried reads left out. -/
def Out.settled (o : Out) : Out := ⟨o.status, o.stream.settled, quiet o.trace⟩

/-- The result of a pass, retried reads left out. -/
def Pass.settled : Pass → Pass
  | .final o => .final o.settled
  | .next s buf tr => .next s.settled buf (quiet tr)

/-- The message `msgA` arriving in two chunks, then the peer closes. -/
def calmStream : Stream := ⟨[.data (msgA.take 20), .data (msgA.drop 20)], true⟩

/-- The same arrival, with reads that meet a retriable condition before, between and
after the chunks. -/
def bumpyStream : Stream :=
  ⟨[.transient, .data (msgA.take 20), .transient, .transient, .data (msgA.drop 20),
    .transient], true⟩

/-! ## Termination -/

/-- A 48-byte message from peer 7 whose header declares a total size of 0. -/
def zeroMsg : List Nat := mkMsg 2 0 7 9 0 (List.replicate 23 0)

/-! ## The scratch buffer -/

/-- What the checks on the scratch buffer track along a trace: the buffered byte
count `size`, and the length asked of `read_exact` while the message under assembly
waits for its missing part. -/
structure BufState where
  size : Nat
  missing : Option Nat
deriving DecidableEq, Repr

/-- One step of the checks, for a buffer of `cap` bytes; `none` when a check fails.
A header read happens with `size ≤ cap`, asks for a strictly positive length that
fits in the free space, and adds what it returns, which is at most what was asked.
`read_exact` is asked for a strictly positive length `msg_size - size`. A message
completed by `read_exact` has `size` bytes copied from the buffer and the rest read,
and leaves the buffer empty; a message sliced from the buffer has at most `size`
bytes, and `size - msg_size` bytes are moved to the front. -/
def bufStep (cap : Nat) (st : BufState) : Event → Option BufState
  | .streamRead req res =>
    if st.size ≤ cap ∧ 0 < req ∧ st.size + req ≤ cap then
      match res with
      | .bytes bs => if bs.length ≤ req then some ⟨st.size + bs.length, st.missing⟩ else none
      | _ => some st
    else none
  | .readExact n => if st.size ≤ cap ∧ 0 < n then some ⟨st.size, some n⟩ else none
  | .dispatch m =>
    match st.missing with
    | some n => if m.length = st.size + n then some ⟨0, none⟩ else none
    | none =>
      if m.length ≤ st.size ∧ st.size ≤ cap then some ⟨st.size - m.length, none⟩ else none
  | _ => some st

/-- The checks along a whole trace. -/
def bufRun (cap : Nat) : BufState → List Event → Option BufState
  | st, [] => some st
  | st, e :: tr =>
    match bufStep cap st e with
    | some st1 => bufRun cap st1 tr
    | none => none

/-- An event that does not touch the scratch buffer. -/
def inert : Event → Bool
  | .streamRead _ _ => false
  | .readExact _ => false
  | .dispatch _ => false
  | _ => true
/-! ## Lemmas on the framer -/

theorem allData_tail {e : ReadEv} {rest : List ReadEv} (h : AllData (e :: rest)) : AllData rest :=
  fun x hx => h x (List.mem_cons_of_mem _ hx)

theorem allData_map (chunks : List (List Nat)) (h : ∀ c ∈ chunks, c ≠ []) :
    AllData (chunks.map ReadEv.data) := by
  intro e he
  obtain ⟨c, hc, rfl⟩ := List.mem_map.mp he
  exact ⟨c, rfl, h c hc⟩

theorem bytesOf_map (chunks : List (List Nat)) : bytesOf (chunks.map ReadEv.data) = chunks.flatten := by
  induction chunks with
  | nil => rfl
  | cons c cs ih => simp [bytesOf, ih]

theorem bytesOf_nil_of_allData : ∀ (p : List ReadEv), AllData p → bytesOf p = [] → p = []
  | [], _, _ => rfl
  | e :: rest, hd, hb => by
    obtain ⟨bs, rfl, hbs⟩ := hd e (List.mem_cons_self _ _)
    simp [bytesOf, hbs] at hb

theorem DkStreamRead_whole (bs : List Nat) (rest : List ReadEv) (c : Bool) (req : Nat)
    (h : bs.length ≤ req) :
    DkStreamRead ⟨ReadEv.data bs :: rest, c⟩ req = (ReadRes.bytes bs, ⟨rest, c⟩) := by
  simp [DkStreamRead, h]

theorem DkStreamRead_split (bs : List Nat) (rest : List ReadEv) (c : Bool) (req : Nat)
    (h : req < bs.length) :
    DkStreamRead ⟨ReadEv.data bs :: rest, c⟩ req =
      (ReadRes.bytes (bs.take req), ⟨ReadEv.data (bs.drop req) :: rest, c⟩) := by
  simp [DkStreamRead, Nat.not_le.mpr h]

theorem recvHeaderLoop_done (E : Env) (n : Nat) (s : Stream) (buf : List Nat)
    (h : E.L.IPC_MSG_MINIMAL_SIZE ≤ buf.length) :
    recvHeaderLoop E (n + 1) s buf = HdrRes.done s buf [] := by
  simp [recvHeaderLoop, Nat.not_lt.mpr h]

theorem onlyReads_cons (req : Nat) (res : ReadRes) {tr : List Event} (h : OnlyReads tr) :
    OnlyReads (Event.streamRead req res :: tr) := by
  intro e he
  rcases List.mem_cons.mp he with rfl | he
  · exact ⟨req, res, rfl⟩
  · exact h e he

theorem recvHeaderLoop_fill (E : Env) : ∀ (n : Nat) (s : Stream) (buf : List Nat),
    AllData s.pending → s.pending.length < n →
    E.L.IPC_MSG_MINIMAL_SIZE ≤ (buf ++ bytesOf s.pending).length →
    ∃ s1 buf1 tr, recvHeaderLoop E n s buf = HdrRes.done s1 buf1 tr ∧
      E.L.IPC_MSG_MINIMAL_SIZE ≤ buf1.length ∧
      buf1 ++ bytesOf s1.pending = buf ++ bytesOf s.pending ∧
      AllData s1.pending ∧ s1.closed = s.closed ∧ OnlyReads tr := by
  intro n
  induction n with
  | zero => intro s buf _ h; omega
  | succ n ih =>
    intro s buf hd hlen hmin
    by_cases hb : buf.length < E.L.IPC_MSG_MINIMAL_SIZE
    · obtain ⟨p, c⟩ := s
      cases p with
      | nil => simp [bytesOf] at hmin; omega
      | cons e rest =>
        obtain ⟨bs, rfl, hbs⟩ := hd _ (List.mem_cons_self _ _)
        have hd1 : AllData rest := allData_tail hd
        have hbl : bs.length ≠ 0 := by
          intro h0; exact hbs (List.length_eq_zero.mp h0)
        by_cases hle : bs.length ≤ E.L.bufSize - buf.length
        · obtain ⟨s1, buf1, tr, heq, h1, h2, h3, h4, h5⟩ :=
            ih ⟨rest, c⟩ (buf ++ bs) hd1 (by simpa using hlen) (by simpa [bytesOf] using hmin)
          refine ⟨s1, buf1, Event.streamRead (E.L.bufSize - buf.length) (ReadRes.bytes bs) :: tr,
            ?_, h1, ?_, h3, h4, onlyReads_cons _ _ h5⟩
          · simp only [recvHeaderLoop, if_pos hb, DkStreamRead_whole _ _ _ _ hle, if_neg hbl, heq]
          · simpa [bytesOf] using h2
        · have hlt : E.L.bufSize - buf.length < bs.length := Nat.not_le.mp hle
          have hcap : E.L.IPC_MSG_MINIMAL_SIZE ≤ E.L.bufSize := by
            simp [Layout.bufSize]
          have hn : 0 < n := by
            simp at hlen; omega
          obtain ⟨k, rfl⟩ : ∃ k, n = k + 1 := ⟨n - 1, by omega⟩
          have htl : (bs.take (E.L.bufSize - buf.length)).length = E.L.bufSize - buf.length := by
            simp; omega
          have hfull : E.L.IPC_MSG_MINIMAL_SIZE ≤ (buf ++ bs.take (E.L.bufSize - buf.length)).length := by
            simp only [List.length_append, htl]; omega
          refine ⟨⟨ReadEv.data (bs.drop (E.L.bufSize - buf.length)) :: rest, c⟩,
            buf ++ bs.take (E.L.bufSize - buf.length),
            [Event.streamRead (E.L.bufSize - buf.length)
              (ReadRes.bytes (bs.take (E.L.bufSize - buf.length)))], ?_, hfull, ?_, ?_, rfl,
            onlyReads_cons _ _ (by intro e he; simp at he)⟩
          · have hz : (bs.take (E.L.bufSize - buf.length)).length ≠ 0 := by
              rw [htl]; omega
            rw [recvHeaderLoop]
            simp only [if_pos hb, DkStreamRead_split _ _ _ _ hlt, if_neg hz,
              recvHeaderLoop_done E k _ _ hfull]
          · simp only [bytesOf, List.append_assoc]
            rw [← List.append_assoc (bs.take _), List.take_append_drop]
          · intro e he
            rcases List.mem_cons.mp he with rfl | he
            · refine ⟨_, rfl, ?_⟩
              intro h0
              have := congrArg List.length h0
              simp at this; omega
            · exact hd1 e he
    · exact ⟨s, buf, [], recvHeaderLoop_done E n s buf (Nat.not_lt.mp hb),
        Nat.not_lt.mp hb, rfl, hd, rfl, by intro e he; simp at he⟩

theorem recvHeaderLoop_eof (E : Env) : ∀ (n : Nat) (s : Stream) (buf : List Nat),
    AllData s.pending → s.closed = true → s.pending.length < n →
    (buf ++ bytesOf s.pending).length < E.L.IPC_MSG_MINIMAL_SIZE →
    ∃ s1 tr, recvHeaderLoop E n s buf =
        HdrRes.exit (if (buf ++ bytesOf s.pending).length = 0 then Status.ret 1
          else Status.ret (-E.ENODATA)) s1 tr ∧
      OnlyReads tr ∧ s1.pending = [] := by
  intro n
  induction n with
  | zero => intro s buf _ _ h; omega
  | succ n ih =>
    intro s buf hd hc hlen hmin
    have hb : buf.length < E.L.IPC_MSG_MINIMAL_SIZE := by
      simp only [List.length_append] at hmin; omega
    obtain ⟨p, c⟩ := s
    cases hc
    cases p with
    | nil =>
      refine ⟨⟨[], true⟩, [Event.streamRead (E.L.bufSize - buf.length) (ReadRes.bytes [])], ?_,
        onlyReads_cons _ _ (by intro e he; simp at he), rfl⟩
      by_cases h0 : buf.length = 0
      · simp [recvHeaderLoop, hb, DkStreamRead, bytesOf, h0]
        omega
      · simp [recvHeaderLoop, hb, DkStreamRead, bytesOf, h0]
    | cons e rest =>
      obtain ⟨bs, rfl, hbs⟩ := hd _ (List.mem_cons_self _ _)
      have hd1 : AllData rest := allData_tail hd
      have hbl : bs.length ≠ 0 := by
        intro h0; exact hbs (List.length_eq_zero.mp h0)
      have hle : bs.length ≤ E.L.bufSize - buf.length := by
        simp only [bytesOf, List.length_append] at hmin
        simp only [Layout.bufSize]; omega
      obtain ⟨s1, tr, heq, h1, h2⟩ :=
        ih ⟨rest, true⟩ (buf ++ bs) hd1 rfl (by simpa using hlen)
          (by simpa [bytesOf, Nat.add_assoc] using hmin)
      refine ⟨s1, Event.streamRead (E.L.bufSize - buf.length) (ReadRes.bytes bs) :: tr, ?_,
        onlyReads_cons _ _ h1, h2⟩
      simp only [recvHeaderLoop, if_pos hb, DkStreamRead_whole _ _ _ _ hle, if_neg hbl, heq]
      simp [bytesOf]

theorem read_exact_loop_zero (E : Env) (n : Nat) (s : Stream) (acc : List Nat) :
    read_exact_loop E (n + 1) s 0 acc = ExactRes.ok acc s := by
  simp [read_exact_loop]

theorem read_exact_loop_ok (E : Env) : ∀ (n : Nat) (s : Stream) (need : Nat) (acc : List Nat),
    AllData s.pending → s.pending.length < n → need ≤ (bytesOf s.pending).length →
    ∃ s2, read_exact_loop E n s need acc =
        ExactRes.ok (acc ++ (bytesOf s.pending).take need) s2 ∧
      bytesOf s2.pending = (bytesOf s.pending).drop need ∧
      AllData s2.pending ∧ s2.closed = s.closed := by
  intro n
  induction n with
  | zero => intro s need acc _ h; omega
  | succ n ih =>
    intro s need acc hd hlen hneed
    by_cases hpos : 0 < need
    · obtain ⟨p, c⟩ := s
      cases p with
      | nil => simp [bytesOf] at hneed; omega
      | cons e rest =>
        obtain ⟨bs, rfl, hbs⟩ := hd _ (List.mem_cons_self _ _)
        have hd1 : AllData rest := allData_tail hd
        have hbl : bs.length ≠ 0 := by
          intro h0; exact hbs (List.length_eq_zero.mp h0)
        by_cases hle : bs.length ≤ need
        · obtain ⟨s2, heq, h1, h2, h3⟩ :=
            ih ⟨rest, c⟩ (need - bs.length) (acc ++ bs) hd1 (by simpa using hlen)
              (by simp only [bytesOf, List.length_append] at hneed ⊢; omega)
          refine ⟨s2, ?_, ?_, h2, h3⟩
          · simp only [read_exact_loop, if_pos hpos, DkStreamRead_whole _ _ _ _ hle, if_neg hbl, heq]
            simp [bytesOf, List.take_append_eq_append_take, List.take_of_length_le hle]
          · simp only [h1, bytesOf]
            simp [List.drop_append_eq_append_drop, List.drop_of_length_le hle]
        · have hlt : need < bs.length := Nat.not_le.mp hle
          have hn : 0 < n := by
            simp at hlen; omega
          obtain ⟨k, rfl⟩ : ∃ k, n = k + 1 := ⟨n - 1, by omega⟩
          have htl : (bs.take need).length = need := by
            simp; omega
          have hz : (bs.take need).length ≠ 0 := by
            rw [htl]; omega
          refine ⟨⟨ReadEv.data (bs.drop need) :: rest, c⟩, ?_, ?_, ?_, rfl⟩
          · rw [read_exact_loop]
            have hz2 : need ≠ 0 := by omega
            simp only [if_pos hpos, DkStreamRead_split _ _ _ _ hlt, if_neg hz, if_neg hz2, htl,
              Nat.sub_self, read_exact_loop_zero]
            simp [bytesOf, List.take_append_of_le_length (Nat.le_of_lt hlt)]
          · simp [bytesOf, List.drop_append_of_le_length (Nat.le_of_lt hlt)]
          · intro e he
            rcases List.mem_cons.mp he with rfl | he
            · refine ⟨_, rfl, ?_⟩
              intro h0
              have := congrArg List.length h0
              simp at this; omega
            · exact hd1 e he
    · have h0 : need = 0 := by omega
      subst h0
      exact ⟨s, by simp [read_exact_loop], by simp, hd, rfl⟩

theorem read_exact_loop_eof (E : Env) : ∀ (n : Nat) (s : Stream) (need : Nat) (acc : List Nat),
    AllData s.pending → s.closed = true → s.pending.length < n →
    (bytesOf s.pending).length < need →
    ∃ s2, read_exact_loop E n s need acc = ExactRes.err (-E.ENODATA) s2 ∧ s2.pending = [] := by
  intro n
  induction n with
  | zero => intro s need acc _ _ h; omega
  | succ n ih =>
    intro s need acc hd hc hlen hneed
    have hpos : 0 < need := by omega
    obtain ⟨p, c⟩ := s
    cases hc
    cases p with
    | nil => exact ⟨⟨[], true⟩, by simp [read_exact_loop, hpos, DkStreamRead], rfl⟩
    | cons e rest =>
      obtain ⟨bs, rfl, hbs⟩ := hd _ (List.mem_cons_self _ _)
      have hd1 : AllData rest := allData_tail hd
      have hbl : bs.length ≠ 0 := by
        intro h0; exact hbs (List.length_eq_zero.mp h0)
      have hle : bs.length ≤ need := by
        simp only [bytesOf, List.length_append] at hneed; omega
      obtain ⟨s2, heq, hnil⟩ :=
        ih ⟨rest, true⟩ (need - bs.length) (acc ++ bs) hd1 rfl (by simpa using hlen)
          (by simp only [bytesOf, List.length_append] at hneed ⊢; omega)
      exact ⟨s2, by
        simp only [read_exact_loop, if_pos hpos, DkStreamRead_whole _ _ _ _ hle, if_neg hbl, heq],
        hnil⟩

theorem split_whole {b x m y : List Nat} (h : b ++ x = m ++ y) (hle : m.length ≤ b.length) :
    b.take m.length = m ∧ b.drop m.length ++ x = y := by
  constructor
  · have := congrArg (List.take m.length) h
    rwa [List.take_append_of_le_length hle, List.take_left] at this
  · have := congrArg (List.drop m.length) h
    rwa [List.drop_append_of_le_length hle, List.drop_left] at this

theorem split_short {b x m y : List Nat} (h : b ++ x = m ++ y) (hlt : b.length < m.length) :
    m.length - b.length ≤ x.length ∧ b ++ x.take (m.length - b.length) = m ∧
      x.drop (m.length - b.length) = y := by
  refine ⟨?_, ?_, ?_⟩
  · have := congrArg List.length h
    simp only [List.length_append] at this; omega
  · have := congrArg (List.take m.length) h
    rwa [List.take_append_eq_append_take, List.take_of_length_le (Nat.le_of_lt hlt),
      List.take_left] at this
  · have := congrArg (List.drop m.length) h
    rwa [List.drop_append_eq_append_drop, List.drop_of_length_le (Nat.le_of_lt hlt),
      List.drop_left, List.nil_append] at this

theorem readField_append (l r : List Nat) (off w : Nat) (h : off + w ≤ l.length) :
    readField (l ++ r) off w = readField l off w := by
  have h1 : off + w ≤ (l ++ r).length := by
    simp only [List.length_append]; omega
  have h2 : off ≤ l.length := by omega
  have h3 : w ≤ (l.drop off).length := by
    simp only [List.length_drop]; omega
  simp only [readField, if_pos h, if_pos h1, List.drop_append_of_le_length h2,
    List.take_append_of_le_length h3]

theorem readField_agree {b x m y : List Nat} (h : b ++ x = m ++ y) (off w : Nat)
    (hb : off + w ≤ b.length) (hm : off + w ≤ m.length) :
    readField b off w = readField m off w := by
  rw [← readField_append b x off w hb, h, readField_append m y off w hm]

theorem readField_isSome (l : List Nat) (off w : Nat) (h : off + w ≤ l.length) :
    ∃ v, readField l off w = some v := by
  exact ⟨leNat ((l.drop off).take w), by simp only [readField, if_pos h]⟩

theorem dispatched_append (a b : List Event) :
    dispatched (a ++ b) = dispatched a ++ dispatched b := by
  induction a with
  | nil => rfl
  | cons e a ih => cases e <;> simp [dispatched, ih]

theorem dispatched_onlyReads {tr : List Event} (h : OnlyReads tr) : dispatched tr = [] := by
  induction tr with
  | nil => rfl
  | cons e tr ih =>
    obtain ⟨req, res, rfl⟩ := h e (List.mem_cons_self _ _)
    simpa [dispatched] using ih (fun x hx => h x (List.mem_cons_of_mem _ hx))

theorem dispatched_callbacks (E : Env) (code : Nat) (h : Handler) (m : List Nat) (vmid : Nat)
    (hh : ipc_callbacks E code = some h) : dispatched (h m vmid).2 = [] := by
  unfold ipc_callbacks at hh
  split at hh
  · cases hh
    unfold ipc_resp_callback
    split
    · rfl
    · split
      · rfl
      · split <;> rfl
  · split at hh
    · cases hh
      unfold ipc_connect_back_callback
      split <;> rfl
    · obtain ⟨f, _, rfl⟩ := Option.map_eq_some'.mp hh
      rfl

theorem dispatched_dispatch (E : Env) (vmid : Nat) (m : List Nat) :
    dispatched (dispatch E vmid m).2 = [] := by
  unfold dispatch
  split
  · rfl
  · split
    · rfl
    · split
      · rfl
      · split
        · split
          · rfl
          · rename_i h hh
            have hq := dispatched_callbacks E _ h m vmid hh
            split
            · rename_i ret evs heq
              rw [heq] at hq
              simp only at hq
              split
              · split
                · simp [dispatched_append, hq, dispatched]
                · split
                  · dsimp only
                    split <;> simp [dispatched_append, hq, dispatched, send_ipc_response]
                  · simp [dispatched_append, hq, dispatched]
              · simp [dispatched_append, hq, dispatched]
            · rename_i st evs _ heq
              rw [heq] at hq
              exact hq
        · rfl

theorem callbacks_return (E : Env) (code : Nat) (h : Handler) (m : List Nat) (vmid : Nat)
    (hL : E.L.WF) (hmin : E.L.IPC_MSG_MINIMAL_SIZE ≤ m.length)
    (hsrc : readField m E.L.srcOff E.L.idWidth = some vmid)
    (hh : ipc_callbacks E code = some h) : ∃ r evs, h m vmid = (Status.ret r, evs) := by
  obtain ⟨_, _, _, _, hq, hr⟩ := hL
  obtain ⟨seq, hseq⟩ := readField_isSome m E.L.seqOff 8 (by omega)
  obtain ⟨rv, hrv⟩ := readField_isSome m E.L.msgOff 4 (by omega)
  unfold ipc_callbacks at hh
  split at hh
  · cases hh
    exact ⟨0, [Event.resolve vmid seq (toInt32 rv)], by simp [ipc_resp_callback, hsrc, hseq, hrv]⟩
  · split at hh
    · cases hh
      refine ⟨E.send_ipc_message ⟨E.IPC_MSG_DUMMY, E.get_ipc_msg_size 0, vmid, seq, none⟩ vmid,
        [Event.send ⟨E.IPC_MSG_DUMMY, E.get_ipc_msg_size 0, vmid, seq, none⟩ vmid], ?_⟩
      simp only [ipc_connect_back_callback, hseq]
    · obtain ⟨f, _, rfl⟩ := Option.map_eq_some'.mp hh
      exact ⟨_, _, rfl⟩

theorem dispatch_continues (E : Env) (vmid : Nat) (m : List Nat) (hL : E.L.WF)
    (hsend : ∀ o d, 0 ≤ E.send_ipc_message o d)
    (hmin : E.L.IPC_MSG_MINIMAL_SIZE ≤ m.length)
    (hsrc : readField m E.L.srcOff E.L.idWidth = some vmid) : Continues E vmid m := by
  have hL1 := hL
  obtain ⟨_, hc, _, _, hq, hr⟩ := hL1
  obtain ⟨code, hcode⟩ := readField_isSome m E.L.codeOff E.L.codeWidth (by omega)
  obtain ⟨seq, hseq⟩ := readField_isSome m E.L.seqOff 8 (by omega)
  unfold Continues dispatch
  simp only [hsrc, hcode, hseq, ne_eq, not_true_eq_false, if_false]
  split
  · split
    · rfl
    · rename_i h hh
      obtain ⟨r, evs, hret⟩ := callbacks_return E code h m vmid hL hmin hsrc hh
      simp only [hret]
      split
      · split
        · have h0 : ¬ (send_ipc_response E vmid r seq).1 < 0 := by
            simp only [send_ipc_response]
            exact Int.not_lt.mpr (hsend _ _)
          simp only [if_neg h0]
        · rfl
      · rfl
  · rfl

theorem onlyIO_of_onlyReads {tr : List Event} (h : OnlyReads tr) : OnlyIO tr :=
  fun e he => Or.inl (h e he)

theorem onlyIO_snoc {tr : List Event} (h : OnlyReads tr) (req : Nat) :
    OnlyIO (tr ++ [Event.readExact req]) := by
  intro e he
  rcases List.mem_append.mp he with he | he
  · exact Or.inl (h e he)
  · exact Or.inr ⟨req, by simpa using he⟩

theorem dispatched_onlyIO {tr : List Event} (h : OnlyIO tr) : dispatched tr = [] := by
  induction tr with
  | nil => rfl
  | cons e tr ih =>
    have ht := ih (fun x hx => h x (List.mem_cons_of_mem _ hx))
    rcases h e (List.mem_cons_self _ _) with ⟨req, res, rfl⟩ | ⟨req, rfl⟩
    · simpa [dispatched] using ht
    · simpa [dispatched] using ht

theorem recvPass_message (E : Env) (vmid : Nat) (s : Stream) (buf m y : List Nat)
    (hL : E.L.WF) (hmalloc : E.malloc_ok m.length = true) (hd : AllData s.pending)
    (hfr : Framed E.L m) (hcont : Continues E vmid m)
    (heq : buf ++ bytesOf s.pending = m ++ y) :
    ∃ s1 buf1 pre, recvPass E vmid s buf =
        Pass.next s1 buf1 (pre ++ Event.dispatch m :: (dispatch E vmid m).2) ∧
      OnlyIO pre ∧ buf1 ++ bytesOf s1.pending = y ∧ AllData s1.pending ∧
      s1.closed = s.closed := by
  obtain ⟨hsz, hmin⟩ := hfr
  obtain ⟨_, _, hso, _, _, _⟩ := hL
  have hmin1 : E.L.IPC_MSG_MINIMAL_SIZE ≤ (buf ++ bytesOf s.pending).length := by
    rw [heq]; simp only [List.length_append]; omega
  obtain ⟨s1, buf1, tr1, hdone, hlen1, hcons, hd1, hc1, hr1⟩ :=
    recvHeaderLoop_fill E (s.pending.length + 1) s buf hd (Nat.lt_succ_self _) hmin1
  have hcons1 : buf1 ++ bytesOf s1.pending = m ++ y := hcons.trans heq
  have hsize : readField buf1 E.L.sizeOff 8 = some m.length := by
    rw [readField_agree hcons1 _ _ (by omega) (by omega)]; exact hsz
  obtain ⟨evs, hdisp⟩ : ∃ evs, dispatch E vmid m = (none, evs) := ⟨_, Prod.ext hcont rfl⟩
  have hmf : ¬ (E.malloc_ok m.length = false) := by simp [hmalloc]
  by_cases hle : m.length ≤ buf1.length
  · obtain ⟨ht, hdr⟩ := split_whole hcons1 hle
    refine ⟨s1, buf1.drop m.length, tr1, ?_, onlyIO_of_onlyReads hr1, hdr, hd1, hc1⟩
    simp only [recvPass, recvHeader, hdone, hsize, if_neg hmf, if_pos hle, ht, passDispatch,
      hdisp]
  · have hlt : buf1.length < m.length := Nat.not_le.mp hle
    obtain ⟨hneed, hm, hy⟩ := split_short hcons1 hlt
    obtain ⟨s2, hok, hb2, hd2, hc2⟩ :=
      read_exact_loop_ok E (s1.pending.length + 1) s1 (m.length - buf1.length) [] hd1
        (Nat.lt_succ_self _) hneed
    refine ⟨s2, [], tr1 ++ [Event.readExact (m.length - buf1.length)], ?_,
      onlyIO_snoc hr1 _, ?_, hd2, hc2.trans hc1⟩
    · simp only [recvPass, recvHeader, hdone, hsize, if_neg hmf, if_neg hle, read_exact, hok,
        List.nil_append, hm, passDispatch, hdisp]
    · simp only [List.nil_append, hb2, hy]

theorem recvPass_partial (E : Env) (vmid : Nat) (s : Stream) (buf tail : List Nat)
    (hL : E.L.WF) (hmalloc : ∀ n, E.malloc_ok n = true) (hd : AllData s.pending)
    (hc : s.closed = true) (hno : 0 < E.ENODATA) (hp : Partial E.L tail)
    (heq : buf ++ bytesOf s.pending = tail) :
    ∃ s1 tr, recvPass E vmid s buf = Pass.final ⟨Status.ret (-E.ENODATA), s1, tr⟩ ∧
      OnlyIO tr ∧ s1.pending = [] := by
  obtain ⟨hne, rest, hrest, hsz, hmin⟩ := hp
  obtain ⟨_, _, hso, _, _, _⟩ := hL
  by_cases hshort : tail.length < E.L.IPC_MSG_MINIMAL_SIZE
  · obtain ⟨s1, tr, hex, hr, hnil⟩ :=
      recvHeaderLoop_eof E (s.pending.length + 1) s buf hd hc (Nat.lt_succ_self _)
        (by rw [heq]; exact hshort)
    have hz : (buf ++ bytesOf s.pending).length ≠ 0 := by
      rw [heq]; intro h0; exact hne (List.length_eq_zero.mp h0)
    rw [if_neg hz] at hex
    exact ⟨s1, tr, by simp only [recvPass, recvHeader, hex], onlyIO_of_onlyReads hr, hnil⟩
  · have hmin1 : E.L.IPC_MSG_MINIMAL_SIZE ≤ (buf ++ bytesOf s.pending).length := by
      rw [heq]; omega
    obtain ⟨s1, buf1, tr1, hdone, hlen1, hcons, hd1, hc1, hr1⟩ :=
      recvHeaderLoop_fill E (s.pending.length + 1) s buf hd (Nat.lt_succ_self _) hmin1
    have hcons1 : buf1 ++ (bytesOf s1.pending ++ rest) = (tail ++ rest) ++ [] := by
      rw [← List.append_assoc, hcons, heq, List.append_nil]
    have hsize : readField buf1 E.L.sizeOff 8 = some (tail ++ rest).length := by
      rw [readField_agree hcons1 _ _ (by omega) (by omega)]; exact hsz
    have hlens : buf1.length + (bytesOf s1.pending).length = tail.length := by
      have := congrArg List.length (hcons.trans heq)
      simpa using this
    have hrl : 0 < rest.length := List.length_pos.mpr hrest
    have hle : ¬ (tail ++ rest).length ≤ buf1.length := by
      simp only [List.length_append]; omega
    have hmf : ¬ (E.malloc_ok (tail ++ rest).length = false) := by simp [hmalloc]
    obtain ⟨s2, herr, hnil⟩ :=
      read_exact_loop_eof E (s1.pending.length + 1) s1 ((tail ++ rest).length - buf1.length) []
        hd1 (hc1.trans hc) (Nat.lt_succ_self _)
        (by simp only [List.length_append]; omega)
    have hneg : -E.ENODATA < 0 := by omega
    exact ⟨s2, tr1 ++ [Event.readExact ((tail ++ rest).length - buf1.length)], by
      simp only [recvPass, recvHeader, hdone, hsize, if_neg hmf, if_neg hle, read_exact, herr,
        if_pos hneg], onlyIO_snoc hr1 _, hnil⟩

theorem recvLoop_messages (E : Env) (vmid : Nat) (hL : E.L.WF)
    (hmalloc : ∀ n, E.malloc_ok n = true) :
    ∀ (ms : List (List Nat)) (fuel : Nat) (s : Stream) (buf tail : List Nat),
      (∀ m ∈ ms, Framed E.L m ∧ Continues E vmid m) →
      (tail = [] ∨ (s.closed = true ∧ 0 < E.ENODATA ∧ Partial E.L tail)) →
      (ms ≠ [] ∨ tail ≠ []) →
      AllData s.pending → ms.length < fuel →
      buf ++ bytesOf s.pending = ms.flatten ++ tail →
      LoopPost E ms tail s.closed (recvLoop E vmid fuel s buf) := by
  intro ms
  induction ms with
  | nil =>
    intro fuel s buf tail _ ht hne hd hfuel heq
    have htail : tail ≠ [] := by
      rcases hne with h | h
      · exact absurd rfl h
      · exact h
    rcases ht with h | ⟨hc, hno, hp⟩
    · exact absurd h htail
    · obtain ⟨f, rfl⟩ : ∃ f, fuel = f + 1 := ⟨fuel - 1, by omega⟩
      obtain ⟨s1, tr, hfin, hio, hnil⟩ :=
        recvPass_partial E vmid s buf tail hL hmalloc hd hc hno hp (by simpa using heq)
      refine ⟨0, Nat.le_refl _, ?_, Or.inr ?_⟩
      · simp only [recvLoop, hfin, dispatched_onlyIO hio, List.take_zero]
      · simp only [recvLoop, hfin]
        exact ⟨trivial, rfl, htail, hno, hnil⟩
  | cons m ms ih =>
    intro fuel s buf tail hms ht _ hd hfuel heq
    obtain ⟨f, rfl⟩ : ∃ f, fuel = f + 1 := ⟨fuel - 1, by omega⟩
    have hf : ms.length < f := by
      simp only [List.length_cons] at hfuel; omega
    obtain ⟨hfr, hcont⟩ := hms m (List.mem_cons_self _ _)
    obtain ⟨s1, buf1, pre, hnext, hio, hrest, hd1, hc1⟩ :=
      recvPass_message E vmid s buf m (ms.flatten ++ tail) hL (hmalloc _) hd hfr hcont
        (by simpa [List.append_assoc] using heq)
    have htr : dispatched (pre ++ Event.dispatch m :: (dispatch E vmid m).2) = [m] := by
      simp [dispatched_append, dispatched, dispatched_onlyIO hio, dispatched_dispatch]
    by_cases hb : 0 < buf1.length
    · have hne1 : ms ≠ [] ∨ tail ≠ [] := by
        by_cases hm : ms = []
        · right
          subst hm
          intro h0
          subst h0
          simp only [List.flatten_nil, List.append_nil] at hrest
          have := congrArg List.length hrest
          simp only [List.length_append, List.length_nil] at this
          omega
        · exact Or.inl hm
      have ht1 : tail = [] ∨ (s1.closed = true ∧ 0 < E.ENODATA ∧ Partial E.L tail) := by
        rcases ht with h | ⟨hc, h⟩
        · exact Or.inl h
        · exact Or.inr ⟨hc1.trans hc, h⟩
      obtain ⟨k, hk, hdisp, hpost⟩ :=
        ih f s1 buf1 tail (fun x hx => hms x (List.mem_cons_of_mem _ hx)) ht1 hne1 hd1 hf hrest
      refine ⟨k + 1, by simpa using hk, ?_, ?_⟩
      · simp only [recvLoop, hnext, if_pos hb, Out.after, dispatched_append, htr, hdisp,
          List.take_succ_cons, List.singleton_append]
      · simp only [recvLoop, hnext, if_pos hb, Out.after, List.drop_succ_cons, List.length_cons]
        rcases hpost with ⟨h1, h2, h3, h4, h5⟩ | ⟨h1, h2, h3, h4, h5⟩
        · exact Or.inl ⟨h1, Nat.succ_pos _, h3, h4, h5.trans hc1⟩
        · exact Or.inr ⟨h1, by omega, h3, h4, h5⟩
    · have hnil : buf1 = [] := List.length_eq_zero.mp (by omega)
      subst hnil
      refine ⟨1, by simp, ?_, Or.inl ?_⟩
      · simp only [recvLoop, hnext, if_neg hb, htr, List.take_succ_cons, List.take_zero]
      · simp only [recvLoop, hnext, if_neg hb, List.drop_succ_cons, List.drop_zero]
        exact ⟨trivial, Nat.one_pos, by simpa using hrest, hd1, hc1⟩

theorem flatten_ne_nil_of_framed (L : Layout) (hL : L.WF) (m : List Nat) (ms : List (List Nat))
    (h : Framed L m) (tail : List Nat) : (m :: ms).flatten ++ tail ≠ [] := by
  intro h0
  have h1 := congrArg List.length h0
  have h2 := h.2
  have h3 := hL.1
  simp only [List.flatten_cons, List.length_append, List.length_nil] at h1
  omega

theorem readable_of_bytes (s : Stream) (h : bytesOf s.pending ≠ []) : readable s = true := by
  obtain ⟨p, c⟩ := s
  cases p with
  | nil => exact absurd rfl h
  | cons e rest => simp [readable]

theorem receive_eof (E : Env) (hL : E.L.WF) (fuel vmid : Nat) (s : Stream)
    (hp : s.pending = []) (hc : s.closed = true) :
    (receive_ipc_messages E (fuel + 1) vmid s).status = Status.ret 1 ∧
      dispatched (receive_ipc_messages E (fuel + 1) vmid s).trace = [] ∧
      (receive_ipc_messages E (fuel + 1) vmid s).stream.pending = [] := by
  obtain ⟨p, c⟩ := s
  cases hp
  cases hc
  have h0 := hL.1
  simp [receive_ipc_messages, recvLoop, recvPass, recvHeader, recvHeaderLoop, DkStreamRead, h0,
    dispatched]

theorem recvCalls_open (E : Env) (vmid : Nat) (hL : E.L.WF)
    (hmalloc : ∀ n, E.malloc_ok n = true) (fuel : Nat) :
    ∀ (calls : Nat) (ms : List (List Nat)) (s : Stream),
      ms.length ≤ calls → ms.length < fuel →
      (∀ m ∈ ms, Framed E.L m ∧ Continues E vmid m) →
      AllData s.pending → s.closed = false → bytesOf s.pending = ms.flatten →
      (∀ o ∈ recvCalls E fuel vmid calls s, o.status = Status.ret 0) ∧
        dispatchedBy (recvCalls E fuel vmid calls s) = ms := by
  intro calls
  induction calls with
  | zero =>
    intro ms s hlen _ _ _ _ _
    have : ms = [] := List.length_eq_zero.mp (by omega)
    subst this
    simp [recvCalls, dispatchedBy]
  | succ c ih =>
    intro ms s hlen hfuel hms hd hc hb
    cases ms with
    | nil =>
      have hp : s.pending = [] := bytesOf_nil_of_allData _ hd (by simpa using hb)
      have hr : readable s = false := by simp [readable, hp, hc]
      simp [recvCalls, hr, dispatchedBy]
    | cons m ms =>
      have hne : bytesOf s.pending ≠ [] := by
        rw [hb]
        simpa using flatten_ne_nil_of_framed E.L hL m ms (hms m (List.mem_cons_self _ _)).1 []
      have hr := readable_of_bytes s hne
      obtain ⟨k, hk, hdisp, hpost⟩ :=
        recvLoop_messages E vmid hL hmalloc (m :: ms) fuel s [] [] hms (Or.inl rfl)
          (Or.inl (List.cons_ne_nil _ _)) hd hfuel (by simpa using hb)
      rcases hpost with ⟨h1, h2, h3, h4, h5⟩ | ⟨_, _, h3, _⟩
      · have hrec := ih ((m :: ms).drop k) (recvLoop E vmid fuel s []).stream
          (by simp only [List.length_drop]; omega) (by simp only [List.length_drop]; omega)
          (fun x hx => hms x (List.mem_of_mem_drop hx)) h4 (h5.trans hc) (by simpa using h3)
        simp only [recvCalls, hr, if_true, receive_ipc_messages, h1]
        constructor
        · intro o ho
          rcases List.mem_cons.mp ho with rfl | ho
          · exact h1
          · exact hrec.1 o ho
        · simp only [dispatchedBy, hdisp, hrec.2, List.take_append_drop]
      · exact absurd rfl h3

theorem recvCalls_closed (E : Env) (vmid : Nat) (hL : E.L.WF)
    (hmalloc : ∀ n, E.malloc_ok n = true) (fuel : Nat) (tail : List Nat)
    (ht : tail = [] ∨ (0 < E.ENODATA ∧ Partial E.L tail)) :
    ∀ (calls : Nat) (ms : List (List Nat)) (s : Stream),
      ms.length < calls → ms.length < fuel →
      (∀ m ∈ ms, Framed E.L m ∧ Continues E vmid m) →
      AllData s.pending → s.closed = true → bytesOf s.pending = ms.flatten ++ tail →
      ∃ pre last, recvCalls E fuel vmid calls s = pre ++ [last] ∧
        (∀ o ∈ pre, o.status = Status.ret 0) ∧
        last.status = (if tail = [] then Status.ret 1 else Status.ret (-E.ENODATA)) ∧
        last.stream.pending = [] ∧ dispatchedBy (pre ++ [last]) = ms := by
  intro calls
  induction calls with
  | zero => intro ms s hlen; omega
  | succ c ih =>
    intro ms s hlen hfuel hms hd hc hb
    have hr : readable s = true := by simp [readable, hc]
    by_cases hemp : ms = [] ∧ tail = []
    · obtain ⟨rfl, rfl⟩ := hemp
      have hp : s.pending = [] := bytesOf_nil_of_allData _ hd (by simpa using hb)
      obtain ⟨f, rfl⟩ : ∃ f, fuel = f + 1 := ⟨fuel - 1, by omega⟩
      obtain ⟨h1, h2, h3⟩ := receive_eof E hL f vmid s hp hc
      refine ⟨[], receive_ipc_messages E (f + 1) vmid s, ?_, by simp, by simpa using h1, h3, ?_⟩
      · simp [recvCalls, hr, h1]
      · simp [dispatchedBy, h2]
    · have hne : ms ≠ [] ∨ tail ≠ [] := by
        by_cases h : ms = []
        · exact Or.inr (fun h2 => hemp ⟨h, h2⟩)
        · exact Or.inl h
      have ht1 : tail = [] ∨ (s.closed = true ∧ 0 < E.ENODATA ∧ Partial E.L tail) := by
        rcases ht with h | h
        · exact Or.inl h
        · exact Or.inr ⟨hc, h⟩
      obtain ⟨k, hk, hdisp, hpost⟩ :=
        recvLoop_messages E vmid hL hmalloc ms fuel s [] tail hms ht1 hne hd hfuel
          (by simpa using hb)
      rcases hpost with ⟨h1, h2, h3, h4, h5⟩ | ⟨h1, h2, h3, h4, h5⟩
      · obtain ⟨pre, last, hrec, hpre, hlast, hend, hall⟩ :=
          ih (ms.drop k) (recvLoop E vmid fuel s []).stream
            (by simp only [List.length_drop]; omega) (by simp only [List.length_drop]; omega)
            (fun x hx => hms x (List.mem_of_mem_drop hx)) h4 (h5.trans hc) h3
        refine ⟨recvLoop E vmid fuel s [] :: pre, last, ?_, ?_, hlast, hend, ?_⟩
        · simp only [recvCalls, hr, if_true, receive_ipc_messages, h1, hrec, List.cons_append]
        · intro o ho
          rcases List.mem_cons.mp ho with rfl | ho
          · exact h1
          · exact hpre o ho
        · show dispatched (recvLoop E vmid fuel s []).trace ++ dispatchedBy (pre ++ [last]) = ms
          rw [hdisp, hall, List.take_append_drop]
      · have hneg : Status.ret (-E.ENODATA) ≠ Status.ret 0 := by
          intro h0
          have := Status.ret.inj h0
          omega
        refine ⟨[], recvLoop E vmid fuel s [], ?_, by simp, ?_, h5, ?_⟩
        · simp only [recvCalls, hr, if_true, receive_ipc_messages, h1, if_neg hneg, List.nil_append]
        · simp only [h1, if_neg h3]
        · subst h2
          simp [dispatchedBy, hdisp]

/-! ## Invariants of the framer on arbitrary streams -/

theorem DkStreamRead_bytes (s s1 : Stream) (req : Nat) (bs : List Nat)
    (h : DkStreamRead s req = (ReadRes.bytes bs, s1)) :
    bs.length ≤ req ∧ bs ++ bytesOf s1.pending = bytesOf s.pending := by
  obtain ⟨p, c⟩ := s
  cases p with
  | nil =>
    simp only [DkStreamRead] at h
    split at h
    · cases h; simp [bytesOf]
    · cases h
  | cons e rest =>
    cases e with
    | data d =>
      simp only [DkStreamRead] at h
      split at h
      · cases h
        rename_i hle
        exact ⟨hle, by simp [bytesOf]⟩
      · cases h
        refine ⟨by simp, ?_⟩
        simp only [bytesOf]
        rw [← List.append_assoc, List.take_append_drop]
    | transient => simp [DkStreamRead] at h
    | fail pal => simp [DkStreamRead] at h

theorem DkStreamRead_transient (s s1 : Stream) (req : Nat)
    (h : DkStreamRead s req = (ReadRes.transient, s1)) :
    bytesOf s1.pending = bytesOf s.pending := by
  obtain ⟨p, c⟩ := s
  cases p with
  | nil =>
    simp only [DkStreamRead] at h
    split at h <;> cases h
  | cons e rest =>
    cases e with
    | data d =>
      simp only [DkStreamRead] at h
      split at h <;> cases h
    | transient =>
      simp only [DkStreamRead] at h
      cases h
      simp [bytesOf]
    | fail pal => simp [DkStreamRead] at h

theorem recvHeaderLoop_done_inv (E : Env) : ∀ (n : Nat) (s : Stream) (buf : List Nat)
    (s1 : Stream) (buf1 : List Nat) (tr : List Event),
    recvHeaderLoop E n s buf = HdrRes.done s1 buf1 tr →
    E.L.IPC_MSG_MINIMAL_SIZE ≤ buf1.length ∧
      buf1 ++ bytesOf s1.pending = buf ++ bytesOf s.pending ∧ OnlyReads tr := by
  intro n
  induction n with
  | zero => intro s buf s1 buf1 tr h; simp [recvHeaderLoop] at h
  | succ n ih =>
    intro s buf s1 buf1 tr h
    rw [recvHeaderLoop] at h
    split at h
    · dsimp only at h
      split at h
      · rename_i s2 hrd
        split at h
        · rename_i s3 b tr3 hrec
          cases h
          obtain ⟨h1, h2, h3⟩ := ih _ _ _ _ _ hrec
          exact ⟨h1, by rw [h2, DkStreamRead_transient _ _ _ hrd], onlyReads_cons _ _ h3⟩
        · cases h
      · cases h
      · cases h
      · rename_i bs s2 hrd
        obtain ⟨_, hb⟩ := DkStreamRead_bytes _ _ _ _ hrd
        split at h
        · split at h <;> cases h
        · split at h
          · rename_i s3 b tr3 hrec
            cases h
            obtain ⟨h1, h2, h3⟩ := ih _ _ _ _ _ hrec
            exact ⟨h1, by rw [h2, List.append_assoc, hb], onlyReads_cons _ _ h3⟩
          · cases h
    · cases h
      rename_i hge
      exact ⟨Nat.not_lt.mp hge, rfl, by intro e he; simp at he⟩

theorem recvHeaderLoop_exit_inv (E : Env) : ∀ (n : Nat) (s : Stream) (buf : List Nat)
    (st : Status) (s1 : Stream) (tr : List Event),
    recvHeaderLoop E n s buf = HdrRes.exit st s1 tr → OnlyReads tr := by
  intro n
  induction n with
  | zero =>
    intro s buf st s1 tr h
    simp only [recvHeaderLoop] at h
    cases h
    intro e he; simp at he
  | succ n ih =>
    intro s buf st s1 tr h
    rw [recvHeaderLoop] at h
    split at h
    · dsimp only at h
      split at h
      · split at h
        · cases h
        · rename_i st3 s3 tr3 hrec
          cases h
          exact onlyReads_cons _ _ (ih _ _ _ _ _ hrec)
      · cases h
        exact onlyReads_cons _ _ (by intro e he; simp at he)
      · cases h
        exact onlyReads_cons _ _ (by intro e he; simp at he)
      · split at h
        · split at h <;> cases h <;> exact onlyReads_cons _ _ (by intro e he; simp at he)
        · split at h
          · cases h
          · rename_i st3 s3 tr3 hrec
            cases h
            exact onlyReads_cons _ _ (ih _ _ _ _ _ hrec)
    · cases h

theorem read_exact_loop_ok_inv (E : Env) : ∀ (n : Nat) (s : Stream) (need : Nat)
    (acc bs : List Nat) (s2 : Stream),
    read_exact_loop E n s need acc = ExactRes.ok bs s2 →
    ∃ got, bs = acc ++ got ∧ got.length = need ∧
      got ++ bytesOf s2.pending = bytesOf s.pending := by
  intro n
  induction n with
  | zero => intro s need acc bs s2 h; simp [read_exact_loop] at h
  | succ n ih =>
    intro s need acc bs s2 h
    rw [read_exact_loop] at h
    split at h
    · split at h
      · rename_i s1 hrd
        obtain ⟨got, h1, h2, h3⟩ := ih _ _ _ _ _ h
        exact ⟨got, h1, h2, by rw [h3, DkStreamRead_transient _ _ _ hrd]⟩
      · cases h
      · cases h
      · rename_i d s1 hrd
        obtain ⟨hle, hb⟩ := DkStreamRead_bytes _ _ _ _ hrd
        split at h
        · cases h
        · obtain ⟨got, h1, h2, h3⟩ := ih _ _ _ _ _ h
          refine ⟨d ++ got, by rw [h1, List.append_assoc], ?_, by rw [List.append_assoc, h3, hb]⟩
          simp only [List.length_append, h2]; omega
    · cases h
      rename_i hz
      exact ⟨[], by simp, by simp; omega, by simp⟩

theorem readField_take (l : List Nat) (n off w : Nat) (h : off + w ≤ n) (hn : n ≤ l.length) :
    readField (l.take n) off w = readField l off w := by
  have h1 : off + w ≤ (l.take n).length := by
    simp only [List.length_take]; omega
  have h2 := readField_append (l.take n) (l.drop n) off w h1
  rw [List.take_append_drop] at h2
  exact h2.symm

theorem recvHeaderLoop_exit_ne_zero (E : Env) (hE : E.ErrorsNegative) :
    ∀ (n : Nat) (s : Stream) (buf : List Nat) (st : Status) (s1 : Stream) (tr : List Event),
    recvHeaderLoop E n s buf = HdrRes.exit st s1 tr → st ≠ Status.ret 0 := by
  obtain ⟨_, hno, hpal⟩ := hE
  intro n
  induction n with
  | zero =>
    intro s buf st s1 tr h
    simp only [recvHeaderLoop] at h
    cases h
    intro h0; cases h0
  | succ n ih =>
    intro s buf st s1 tr h
    rw [recvHeaderLoop] at h
    split at h
    · dsimp only at h
      split at h
      · split at h
        · cases h
        · rename_i st3 s3 tr3 hrec
          cases h
          exact ih _ _ _ _ _ hrec
      · cases h
        exact fun h0 => absurd (Status.ret.inj h0) (Int.ne_of_lt (hpal _))
      · cases h
        intro h0; cases h0
      · split at h
        · split at h
          · cases h
            intro h0
            have := Status.ret.inj h0
            omega
          · cases h
            intro h0
            have := Status.ret.inj h0
            omega
        · split at h
          · cases h
          · rename_i st3 s3 tr3 hrec
            cases h
            exact ih _ _ _ _ _ hrec
    · cases h

theorem dispatch_final_ne_zero (E : Env) (vmid : Nat) (m : List Nat) (st : Status)
    (h : (dispatch E vmid m).1 = some st) : st ≠ Status.ret 0 := by
  unfold dispatch at h
  split at h
  · cases h; intro h0; cases h0
  · split at h
    · cases h; intro h0; cases h0
    · split at h
      · cases h; intro h0; cases h0
      · split at h
        · split at h
          · cases h
          · split at h
            · split at h
              · split at h
                · cases h; intro h0; cases h0
                · split at h
                  · dsimp only at h
                    split at h
                    · rename_i hneg
                      cases h
                      intro h0
                      have := Status.ret.inj h0
                      omega
                    · cases h
                  · cases h
              · cases h
            · rename_i st1 evs hnot _
              cases h
              intro h0
              subst h0
              exact hnot 0 rfl
        · cases h

theorem passDispatch_trace (E : Env) (vmid : Nat) (s : Stream) (msg rest : List Nat)
    (tr : List Event) :
    (passDispatch E vmid s msg rest tr).trace = tr ++ Event.dispatch msg :: (dispatch E vmid msg).2 := by
  unfold passDispatch
  split <;> rename_i h <;> simp [Pass.trace, h]

theorem passDispatch_next (E : Env) (vmid : Nat) (s : Stream) (msg rest : List Nat)
    (tr : List Event) (s1 : Stream) (buf1 : List Nat) (tr1 : List Event)
    (h : passDispatch E vmid s msg rest tr = Pass.next s1 buf1 tr1) : s1 = s ∧ buf1 = rest := by
  unfold passDispatch at h
  split at h
  · cases h
  · cases h
    exact ⟨rfl, rfl⟩

theorem passDispatch_final (E : Env) (vmid : Nat) (s : Stream) (msg rest : List Nat)
    (tr : List Event) (o : Out)
    (h : passDispatch E vmid s msg rest tr = Pass.final o) : o.status ≠ Status.ret 0 := by
  unfold passDispatch at h
  split at h
  · rename_i st evs hd
    cases h
    exact dispatch_final_ne_zero E vmid msg st (by rw [hd])
  · cases h

theorem dispatched_passDispatch (E : Env) (vmid : Nat) (s : Stream) (msg rest : List Nat)
    (tr : List Event) (htr : dispatched tr = []) :
    dispatched (passDispatch E vmid s msg rest tr).trace = [msg] := by
  rw [passDispatch_trace]
  simp [dispatched_append, dispatched, htr, dispatched_dispatch]

theorem recvPass_inv (E : Env) (vmid : Nat) (s : Stream) (buf : List Nat)
    (hsz : E.L.sizeOff + 8 ≤ E.L.IPC_MSG_MINIMAL_SIZE) (p : Pass)
    (hp : recvPass E vmid s buf = p) :
    (∀ m ∈ dispatched p.trace, DeclaredSize E.L m) ∧
      (∀ s1 buf1 tr, p = Pass.next s1 buf1 tr →
        (dispatched tr).flatten ++ (buf1 ++ bytesOf s1.pending) = buf ++ bytesOf s.pending) ∧
      (E.ErrorsNegative → ∀ o, p = Pass.final o → o.status ≠ Status.ret 0) := by
  unfold recvPass recvHeader at hp
  split at hp
  · rename_i st s1 tr hh
    subst hp
    refine ⟨?_, ?_, ?_⟩
    · simp [Pass.trace, dispatched_onlyReads (recvHeaderLoop_exit_inv E _ _ _ _ _ _ hh)]
    · intro s1 buf1 tr h; cases h
    · intro hE o h
      cases h
      exact recvHeaderLoop_exit_ne_zero E hE _ _ _ _ _ _ hh
  · rename_i s1 buf1 tr1 hh
    obtain ⟨hlen, hcons, hreads⟩ := recvHeaderLoop_done_inv E _ _ _ _ _ _ hh
    have hd0 : dispatched tr1 = [] := dispatched_onlyReads hreads
    split at hp
    · subst hp
      refine ⟨by simp [Pass.trace, hd0], ?_, ?_⟩
      · intro s1 buf1 tr h; cases h
      · intro _ o h; cases h; intro h0; cases h0
    · rename_i msg_size hsize
      split at hp
      · subst hp
        refine ⟨by simp [Pass.trace, hd0], ?_, ?_⟩
        · intro s1 buf1 tr h; cases h
        · intro hE o h
          cases h
          intro h0
          have := Status.ret.inj h0
          have := hE.1
          omega
      · split at hp
        · rename_i hle
          have hdm := dispatched_passDispatch E vmid s1 (buf1.take msg_size)
            (buf1.drop msg_size) tr1 hd0
          rw [hp] at hdm
          refine ⟨?_, ?_, ?_⟩
          · intro m hm
            rw [hdm] at hm
            have hm1 : m = buf1.take msg_size := by simpa using hm
            subst hm1
            intro hfit
            have hl : (buf1.take msg_size).length = msg_size := by
              simp only [List.length_take]; omega
            rw [hl] at hfit ⊢
            rw [readField_take buf1 msg_size _ _ hfit hle, hsize]
          · intro s2 buf2 tr h
            subst h
            obtain ⟨h1, h2⟩ := passDispatch_next _ _ _ _ _ _ _ _ _ hp
            subst h1 h2
            simp only [Pass.trace] at hdm
            rw [hdm, ← hcons]
            simp [← List.append_assoc]
          · intro _ o h
            subst h
            exact passDispatch_final _ _ _ _ _ _ _ hp
        · rename_i hle
          have hdr : dispatched (tr1 ++ [Event.readExact (msg_size - buf1.length)]) = [] := by
            simp [dispatched_append, hd0, dispatched]
          split at hp
          · rename_i bs s2 hex
            obtain ⟨got, hb, hgl, hgc⟩ := read_exact_loop_ok_inv E _ _ _ _ _ _ hex
            simp only [List.nil_append] at hb
            subst hb
            have hdm := dispatched_passDispatch E vmid s2 (buf1 ++ bs) []
              (tr1 ++ [Event.readExact (msg_size - buf1.length)]) hdr
            rw [hp] at hdm
            refine ⟨?_, ?_, ?_⟩
            · intro m hm
              rw [hdm] at hm
              have hm1 : m = buf1 ++ bs := by simpa using hm
              subst hm1
              intro _
              have hl : (buf1 ++ bs).length = msg_size := by
                simp only [List.length_append, hgl]; omega
              rw [hl, readField_append buf1 bs _ _ (by omega), hsize]
            · intro s3 buf3 tr h
              subst h
              obtain ⟨h1, h2⟩ := passDispatch_next _ _ _ _ _ _ _ _ _ hp
              subst h1 h2
              simp only [Pass.trace] at hdm
              rw [hdm, ← hcons, ← hgc]
              simp
            · intro _ o h
              subst h
              exact passDispatch_final _ _ _ _ _ _ _ hp
          · split at hp
            · subst hp
              refine ⟨by simp [Pass.trace, hdr], ?_, ?_⟩
              · intro s1 buf1 tr h; cases h
              · intro _ o h
                cases h
                rename_i hneg
                intro h0
                have := Status.ret.inj h0
                omega
            · subst hp
              refine ⟨by simp [Pass.trace, hdr], ?_, ?_⟩
              · intro s1 buf1 tr h; cases h
              · intro _ o h; cases h; intro h0; cases h0
          · subst hp
            refine ⟨by simp [Pass.trace, hdr], ?_, ?_⟩
            · intro s1 buf1 tr h; cases h
            · intro _ o h; cases h; intro h0; cases h0
          · subst hp
            refine ⟨by simp [Pass.trace, hdr], ?_, ?_⟩
            · intro s1 buf1 tr h; cases h
            · intro _ o h; cases h; intro h0; cases h0

theorem recvLoop_inv (E : Env) (vmid : Nat)
    (hsz : E.L.sizeOff + 8 ≤ E.L.IPC_MSG_MINIMAL_SIZE) :
    ∀ (fuel : Nat) (s : Stream) (buf : List Nat),
      (∀ m ∈ dispatched (recvLoop E vmid fuel s buf).trace, DeclaredSize E.L m) ∧
      (E.ErrorsNegative → (recvLoop E vmid fuel s buf).status = Status.ret 0 →
        (dispatched (recvLoop E vmid fuel s buf).trace).flatten ++
            bytesOf (recvLoop E vmid fuel s buf).stream.pending = buf ++ bytesOf s.pending) := by
  intro fuel
  induction fuel with
  | zero =>
    intro s buf
    refine ⟨by simp [recvLoop, dispatched], ?_⟩
    intro _ h
    simp [recvLoop] at h
  | succ f ih =>
    intro s buf
    obtain ⟨h1, h2, h3⟩ := recvPass_inv E vmid s buf hsz _ rfl
    rw [recvLoop]
    split
    · rename_i o hp
      rw [hp] at h1 h3
      exact ⟨h1, fun hE h0 => absurd h0 (h3 hE o rfl)⟩
    · rename_i s1 buf1 tr hp
      rw [hp] at h1 h2
      have hc := h2 s1 buf1 tr rfl
      split
      · obtain ⟨i1, i2⟩ := ih s1 buf1
        refine ⟨?_, ?_⟩
        · intro m hm
          simp only [Out.after, dispatched_append, List.mem_append] at hm
          rcases hm with hm | hm
          · exact h1 m hm
          · exact i1 m hm
        · intro hE h0
          simp only [Out.after] at h0 ⊢
          rw [dispatched_append, List.flatten_append, List.append_assoc, i2 hE h0, hc]
      · rename_i hz
        have hnil : buf1 = [] := List.length_eq_zero.mp (by omega)
        subst hnil
        exact ⟨h1, fun _ _ => by simpa using hc⟩

/-! ## The dispatch step and its automatic reply -/

theorem responses_append (a b : List Event) :
    responses (a ++ b) = responses a ++ responses b := by
  induction a with
  | nil => rfl
  | cons e a ih => cases e <;> simp [responses, ih]

theorem responses_callbacks (E : Env) (code : Nat) (h : Handler) (m : List Nat) (vmid : Nat)
    (hh : ipc_callbacks E code = some h) : responses (h m vmid).2 = [] := by
  unfold ipc_callbacks at hh
  split at hh
  · cases hh
    unfold ipc_resp_callback
    split
    · rfl
    · split
      · rfl
      · split <;> rfl
  · split at hh
    · cases hh
      unfold ipc_connect_back_callback
      split <;> rfl
    · obtain ⟨f, _, rfl⟩ := Option.map_eq_some'.mp hh
      rfl

theorem callbacks_of_map (E : Env) (code : Nat) (msg : List Nat) (vmid : Nat)
    (r : Status × List Event)
    (h : (ipc_callbacks E code).map (fun h => h msg vmid) = some r) :
    ∃ f, ipc_callbacks E code = some f ∧ f msg vmid = r :=
  Option.map_eq_some'.mp h

theorem dispatch_reply (E : Env) (vmid : Nat) (msg : List Nat) (code : Nat) (r : Int)
    (evs : List Event) (s : Nat)
    (hsrc : readField msg E.L.srcOff E.L.idWidth = some vmid)
    (hcode : readField msg E.L.codeOff E.L.codeWidth = some code)
    (hlt : code < E.ARRAY_SIZE)
    (hcall : (ipc_callbacks E code).map (fun h => h msg vmid) = some (Status.ret r, evs))
    (hcond : r < 0 ∨ r = E.RESPONSE_CALLBACK)
    (hseq : readField msg E.L.seqOff 8 = some s) (hs : s ≠ 0) :
    (dispatch E vmid msg).2 = evs ++ [Event.callback code r, Event.response vmid r s,
      Event.send ⟨E.IPC_MSG_RESP, E.get_ipc_msg_size E.sizeof_shim_ipc_resp, vmid, s,
        some (if r = E.RESPONSE_CALLBACK then 0 else r)⟩ vmid] := by
  obtain ⟨f, hf, hfr⟩ := callbacks_of_map E code msg vmid _ hcall
  unfold dispatch
  simp only [hsrc, hcode, hf, hfr, hseq, ne_eq, not_true_eq_false, if_false, if_pos hlt,
    if_pos hcond, hs, not_false_eq_true, if_true, send_ipc_response]
  split <;> split <;> simp

theorem dispatch_no_reply (E : Env) (vmid : Nat) (msg : List Nat) (code : Nat) (r : Int)
    (evs : List Event)
    (hsrc : readField msg E.L.srcOff E.L.idWidth = some vmid)
    (hcode : readField msg E.L.codeOff E.L.codeWidth = some code)
    (hlt : code < E.ARRAY_SIZE)
    (hcall : (ipc_callbacks E code).map (fun h => h msg vmid) = some (Status.ret r, evs))
    (hcond : ¬ (r < 0 ∨ r = E.RESPONSE_CALLBACK)) :
    dispatch E vmid msg = (none, evs ++ [Event.callback code r]) := by
  obtain ⟨f, hf, hfr⟩ := callbacks_of_map E code msg vmid _ hcall
  unfold dispatch
  simp only [hsrc, hcode, hf, hfr, ne_eq, not_true_eq_false, if_false, if_pos hlt, if_neg hcond]

theorem responses_dispatch_seq_zero (E : Env) (vmid : Nat) (msg : List Nat)
    (hseq : readField msg E.L.seqOff 8 = some 0) : responses (dispatch E vmid msg).2 = [] := by
  unfold dispatch
  split
  · rfl
  · split
    · rfl
    · split
      · rfl
      · split
        · split
          · rfl
          · rename_i h hh
            have hq := responses_callbacks E _ h msg vmid hh
            split
            · rename_i ret evs heq
              rw [heq] at hq
              simp only at hq
              split
              · simp only [hseq, ne_eq, not_true_eq_false, if_false]
                simp [responses_append, hq, responses]
              · simp [responses_append, hq, responses]
            · rename_i st evs _ heq
              rw [heq] at hq
              exact hq
        · rfl

theorem dispatch_unknown (E : Env) (vmid : Nat) (msg : List Nat) (code : Nat)
    (hsrc : readField msg E.L.srcOff E.L.idWidth = some vmid)
    (hcode : readField msg E.L.codeOff E.L.codeWidth = some code)
    (hunk : E.ARRAY_SIZE ≤ code ∨ ipc_callbacks E code = none) :
    dispatch E vmid msg = (none, [Event.unknownType code]) := by
  unfold dispatch
  simp only [hsrc, hcode, ne_eq, not_true_eq_false, if_false]
  rcases hunk with h | h
  · simp only [if_neg (Nat.not_lt.mpr h)]
  · simp only [h]
    split <;> rfl

/-! ## Lemmas on the per-connection pass -/

theorem close_eq (E : Env) (w : Worker) (c : Conn) :
    del_ipc_connection (disconnect_callbacks E w c) c =
      ⟨w.g_ipc_connections.erase c, (w.g_ipc_connections_cnt + 2 ^ 64 - 1) % 2 ^ 64, w.streams,
        w.log ++ closeLog E c⟩ := by
  unfold del_ipc_connection disconnect_callbacks closeLog
  simp only [List.append_assoc, List.cons_append]

theorem marks_append (c : Conn) (a b : List WEvent) :
    marks c (a ++ b) = marks c a ++ marks c b := by
  simp [marks]

theorem marks_closeLog_self (E : Env) (c : Conn) :
    marks c (closeLog E c) = [WEvent.disconnect_callbacks c, WEvent.del_ipc_connection c] := by
  unfold closeLog marks
  split <;> simp [List.filter]

theorem marks_closeLog_ne (E : Env) (c x : Conn) (h : x ≠ c) : marks x (closeLog E c) = [] := by
  have h1 : ¬ c = x := fun e => h e.symm
  unfold closeLog marks
  split <;> simp [List.filter, h1]

theorem marks_receive (x c : Conn) (o : Out) : marks x [WEvent.receive c o] = [] := by
  simp [marks, List.filter]

theorem slotCloses_congr (E : Env) (fuel : Nat) (w w1 : Worker) (c : Conn) (ev : Nat)
    (h : w1.streams c.handle = w.streams c.handle) :
    slotCloses E fuel w1 c ev ↔ slotCloses E fuel w c ev := by
  unfold slotCloses
  rw [h]

theorem connSlot_spec (E : Env) (fuel : Nat) (w : Worker) (c : Conn) (ev : Nat) :
    ∃ new, (connSlot E fuel w c ev).2.log = w.log ++ new ∧
      (∀ h, h ≠ c.handle → (connSlot E fuel w c ev).2.streams h = w.streams h) ∧
      (∀ x, x ≠ c → marks x new = []) ∧
      (slotCloses E fuel w c ev →
        (connSlot E fuel w c ev).1 = none ∧
        marks c new = [WEvent.disconnect_callbacks c, WEvent.del_ipc_connection c] ∧
        (connSlot E fuel w c ev).2.g_ipc_connections = w.g_ipc_connections.erase c) ∧
      (¬ slotCloses E fuel w c ev →
        marks c new = [] ∧
        (connSlot E fuel w c ev).2.g_ipc_connections = w.g_ipc_connections) ∧
      ((ev &&& E.PAL_WAIT_READ ≠ 0 →
          ∃ v, (receive_ipc_messages E fuel c.vmid (w.streams c.handle)).status = Status.ret v) →
        (connSlot E fuel w c ev).1 = none) := by
  by_cases hread : ev &&& E.PAL_WAIT_READ ≠ 0
  · cases hst : (receive_ipc_messages E fuel c.vmid (w.streams c.handle)).status with
    | ret v =>
      by_cases hclose : v = 1 ∨ v < 0 ∨ ev = E.PAL_WAIT_ERROR
      · have hres : connSlot E fuel w c ev = (none,
            del_ipc_connection (disconnect_callbacks E
              ⟨w.g_ipc_connections, w.g_ipc_connections_cnt,
                Function.update w.streams c.handle
                  (receive_ipc_messages E fuel c.vmid (w.streams c.handle)).stream,
                w.log ++ [WEvent.receive c
                  (receive_ipc_messages E fuel c.vmid (w.streams c.handle))]⟩ c) c) := by
          unfold connSlot
          simp only [if_pos hread, hst]
          by_cases h1 : v = 1
          · simp only [if_pos h1]
          · simp only [if_neg h1]
            by_cases h2 : v < 0
            · simp only [if_pos h2, if_true]
            · have h3 : ev = E.PAL_WAIT_ERROR := by
                rcases hclose with h | h | h
                · exact absurd h h1
                · exact absurd h h2
                · exact h
              simp only [if_neg h2, if_pos h3]
        have hcl : slotCloses E fuel w c ev := by
          unfold slotCloses
          simp only [if_pos hread, hst]
          exact hclose
        rw [hres, close_eq]
        refine ⟨WEvent.receive c (receive_ipc_messages E fuel c.vmid (w.streams c.handle)) ::
          closeLog E c, by simp, ?_, ?_, ?_, ?_, fun _ => rfl⟩
        · intro h hh
          simp [Function.update, hh]
        · intro x hx
          have := marks_append x [WEvent.receive c
            (receive_ipc_messages E fuel c.vmid (w.streams c.handle))] (closeLog E c)
          simp only [List.singleton_append] at this
          rw [this, marks_receive, marks_closeLog_ne E c x hx]
          rfl
        · intro _
          have := marks_append c [WEvent.receive c
            (receive_ipc_messages E fuel c.vmid (w.streams c.handle))] (closeLog E c)
          simp only [List.singleton_append] at this
          rw [this, marks_receive, marks_closeLog_self]
          exact ⟨rfl, rfl, rfl⟩
        · intro hn
          exact absurd hcl hn
      · have h1 : ¬ v = 1 := fun h => hclose (Or.inl h)
        have h2 : ¬ v < 0 := fun h => hclose (Or.inr (Or.inl h))
        have h3 : ¬ ev = E.PAL_WAIT_ERROR := fun h => hclose (Or.inr (Or.inr h))
        have hres : connSlot E fuel w c ev = (none,
            ⟨w.g_ipc_connections, w.g_ipc_connections_cnt,
              Function.update w.streams c.handle
                (receive_ipc_messages E fuel c.vmid (w.streams c.handle)).stream,
              w.log ++ [WEvent.receive c
                (receive_ipc_messages E fuel c.vmid (w.streams c.handle))]⟩) := by
          unfold connSlot
          simp only [if_pos hread, hst, if_neg h1, if_neg h2, if_neg h3]
        have hcl : ¬ slotCloses E fuel w c ev := by
          unfold slotCloses
          simp only [if_pos hread, hst]
          exact hclose
        rw [hres]
        refine ⟨[WEvent.receive c (receive_ipc_messages E fuel c.vmid (w.streams c.handle))],
          rfl, ?_, ?_, ?_, ?_, fun _ => rfl⟩
        · intro h hh
          simp [Function.update, hh]
        · intro x _
          exact marks_receive x c _
        · intro hy
          exact absurd hy hcl
        · intro _
          exact ⟨marks_receive c c _, rfl⟩
    | assertFail | undef | blocked | diverge =>
      have hcl : ¬ slotCloses E fuel w c ev := by
        unfold slotCloses
        simp only [if_pos hread, hst]
        exact fun h => h
      refine ⟨[WEvent.receive c (receive_ipc_messages E fuel c.vmid (w.streams c.handle))],
        ?_, ?_, ?_, ?_, ?_, ?_⟩
      · unfold connSlot
        simp only [if_pos hread, hst]
      · intro h hh
        unfold connSlot
        simp only [if_pos hread, hst]
        simp [Function.update, hh]
      · intro x _
        exact marks_receive x c _
      · intro hy
        exact absurd hy hcl
      · intro _
        refine ⟨marks_receive c c _, ?_⟩
        unfold connSlot
        simp only [if_pos hread, hst]
      · intro hr
        obtain ⟨v, hv⟩ := hr hread
        cases hv
  · by_cases herr : ev = E.PAL_WAIT_ERROR
    · have hres : connSlot E fuel w c ev =
          (none, del_ipc_connection (disconnect_callbacks E w c) c) := by
        unfold connSlot
        simp only [if_neg hread, if_pos herr]
      have hcl : slotCloses E fuel w c ev := by
        unfold slotCloses
        simp only [if_neg hread]
        exact herr
      rw [hres, close_eq]
      refine ⟨closeLog E c, rfl, fun _ _ => rfl, fun x hx => marks_closeLog_ne E c x hx, ?_, ?_,
        fun _ => rfl⟩
      · intro _
        exact ⟨rfl, marks_closeLog_self E c, rfl⟩
      · intro hn
        exact absurd hcl hn
    · have hres : connSlot E fuel w c ev = (none, w) := by
        unfold connSlot
        simp only [if_neg hread, if_neg herr]
      have hcl : ¬ slotCloses E fuel w c ev := by
        unfold slotCloses
        simp only [if_neg hread]
        exact herr
      rw [hres]
      refine ⟨[], by simp, fun _ _ => rfl, fun _ _ => rfl, ?_, fun _ => ⟨rfl, rfl⟩, fun _ => rfl⟩
      intro hy
      exact absurd hy hcl

theorem connLoop_spec (E : Env) (fuel : Nat) : ∀ (slots : List (Conn × Nat)) (w : Worker),
    (slots.map (fun p => p.1.handle)).Nodup → w.g_ipc_connections.Nodup →
    (∀ p ∈ slots, p.2 &&& E.PAL_WAIT_READ ≠ 0 →
      ∃ v, (receive_ipc_messages E fuel p.1.vmid (w.streams p.1.handle)).status = Status.ret v) →
    (connLoop E fuel w slots).1 = LoopEnd.next ∧
      ∃ new, (connLoop E fuel w slots).2.log = w.log ++ new ∧
        ∀ x, ((∃ ev, (x, ev) ∈ slots ∧ slotCloses E fuel w x ev) →
            marks x new = [WEvent.disconnect_callbacks x, WEvent.del_ipc_connection x] ∧
            x ∉ (connLoop E fuel w slots).2.g_ipc_connections) ∧
          ((∀ ev, (x, ev) ∈ slots → ¬ slotCloses E fuel w x ev) →
            marks x new = [] ∧
            (x ∈ (connLoop E fuel w slots).2.g_ipc_connections ↔ x ∈ w.g_ipc_connections)) := by
  intro slots
  induction slots with
  | nil =>
    intro w _ _ _
    refine ⟨rfl, [], by simp [connLoop], fun x => ⟨?_, fun _ => ⟨rfl, by simp [connLoop]⟩⟩⟩
    rintro ⟨ev, hmem, _⟩
    simp at hmem
  | cons p rest ih =>
    intro w hh hreg hret
    obtain ⟨c0, ev0⟩ := p
    obtain ⟨new0, hlog0, hstr0, hmx0, hcl0, hncl0, hnone0⟩ := connSlot_spec E fuel w c0 ev0
    have hn := hnone0 (hret (c0, ev0) (List.mem_cons_self _ _))
    simp only [List.map_cons, List.nodup_cons] at hh
    obtain ⟨hfresh, hh1⟩ := hh
    have hne : ∀ x ev, (x, ev) ∈ rest → x.handle ≠ c0.handle := by
      intro x ev hmem heq
      apply hfresh
      rw [← heq]
      exact List.mem_map_of_mem (fun p => p.1.handle) hmem
    cases hr : connSlot E fuel w c0 ev0 with
    | mk st w1 =>
      rw [hr] at hlog0 hstr0 hcl0 hncl0 hn
      simp only at hlog0 hstr0 hcl0 hncl0 hn
      subst hn
      have hreg1 : w1.g_ipc_connections.Nodup := by
        by_cases hc : slotCloses E fuel w c0 ev0
        · rw [(hcl0 hc).2.2]
          exact hreg.erase c0
        · rw [(hncl0 hc).2]
          exact hreg
      have hret1 : ∀ p ∈ rest, p.2 &&& E.PAL_WAIT_READ ≠ 0 →
          ∃ v, (receive_ipc_messages E fuel p.1.vmid (w1.streams p.1.handle)).status =
            Status.ret v := by
        intro p hp hread
        rw [hstr0 _ (hne p.1 p.2 hp)]
        exact hret p (List.mem_cons_of_mem _ hp) hread
      obtain ⟨hnext, new1, hlog1, hx1⟩ := ih w1 hh1 hreg1 hret1
      have hloop : connLoop E fuel w ((c0, ev0) :: rest) = connLoop E fuel w1 rest := by
        simp only [connLoop, hr]
      rw [hloop]
      refine ⟨hnext, new0 ++ new1, by rw [hlog1, hlog0, List.append_assoc], fun x => ⟨?_, ?_⟩⟩
      · rintro ⟨ev, hmem, hcl⟩
        rcases List.mem_cons.mp hmem with heq | hin
        · obtain ⟨rfl, rfl⟩ := Prod.mk.inj heq
          obtain ⟨_, hm, hrg⟩ := hcl0 hcl
          obtain ⟨hm1, hiff⟩ := (hx1 x).2 (fun ev1 hmem1 => absurd rfl (hne x ev1 hmem1))
          refine ⟨by rw [marks_append, hm, hm1]; rfl, ?_⟩
          rw [hiff, hrg]
          exact hreg.not_mem_erase
        · have hxne : x ≠ c0 := fun h => hne x ev hin (by rw [h])
          obtain ⟨hm1, hout⟩ := (hx1 x).1
            ⟨ev, hin, (slotCloses_congr E fuel w w1 x ev (hstr0 _ (hne x ev hin))).mpr hcl⟩
          exact ⟨by rw [marks_append, hmx0 x hxne, hm1]; rfl, hout⟩
      · intro hall
        have hm0 : marks x new0 = [] := by
          by_cases hx : x = c0
          · subst hx
            exact (hncl0 (hall ev0 (List.mem_cons_self _ _))).1
          · exact hmx0 x hx
        have hstep : x ∈ w1.g_ipc_connections ↔ x ∈ w.g_ipc_connections := by
          by_cases hc : slotCloses E fuel w c0 ev0
          · have hx : x ≠ c0 := by
              intro h
              subst h
              exact hall ev0 (List.mem_cons_self _ _) hc
            rw [(hcl0 hc).2.2]
            exact List.mem_erase_of_ne hx
          · rw [(hncl0 hc).2]
        obtain ⟨hm1, hiff⟩ := (hx1 x).2 (fun ev1 hmem1 hc1 =>
          hall ev1 (List.mem_cons_of_mem _ hmem1)
            ((slotCloses_congr E fuel w w1 x ev1 (hstr0 _ (hne x ev1 hmem1))).mp hc1))
        exact ⟨by rw [marks_append, hm0, hm1]; rfl, hiff.trans hstep⟩

/-! ## The inner loops never use up their budget -/

theorem DkStreamRead_transient_length (s s1 : Stream) (req : Nat)
    (h : DkStreamRead s req = (ReadRes.transient, s1)) :
    s1.pending.length + 1 = s.pending.length := by
  obtain ⟨p, c⟩ := s
  cases p with
  | nil =>
    simp only [DkStreamRead] at h
    split at h <;> cases h
  | cons e rest =>
    cases e with
    | data d =>
      simp only [DkStreamRead] at h
      split at h <;> cases h
    | transient =>
      simp only [DkStreamRead] at h
      cases h
      rfl
    | fail pal => simp [DkStreamRead] at h

theorem DkStreamRead_bytes_length (s s1 : Stream) (req : Nat) (bs : List Nat)
    (h : DkStreamRead s req = (ReadRes.bytes bs, s1)) :
    bs.length = 0 ∨ s1.pending.length + 1 = s.pending.length ∨
      (s1.pending.length = s.pending.length ∧ 0 < s.pending.length ∧ bs.length = req) := by
  obtain ⟨p, c⟩ := s
  cases p with
  | nil =>
    simp only [DkStreamRead] at h
    split at h
    · cases h; exact Or.inl rfl
    · cases h
  | cons e rest =>
    cases e with
    | data d =>
      simp only [DkStreamRead] at h
      split at h
      · cases h
        exact Or.inr (Or.inl rfl)
      · cases h
        rename_i hgt
        refine Or.inr (Or.inr ⟨rfl, Nat.succ_pos _, ?_⟩)
        simp only [List.length_take]
        omega
    | transient => simp [DkStreamRead] at h
    | fail pal => simp [DkStreamRead] at h

theorem recvHeaderLoop_budget (E : Env) : ∀ (n : Nat) (s : Stream) (buf : List Nat)
    (st : Status) (s1 : Stream) (tr : List Event),
    s.pending.length < n → recvHeaderLoop E n s buf = HdrRes.exit st s1 tr →
    st ≠ Status.diverge := by
  intro n
  induction n with
  | zero => intro s buf st s1 tr hlen; omega
  | succ n ih =>
    intro s buf st s1 tr hlen h
    rw [recvHeaderLoop] at h
    split at h
    · rename_i hb
      dsimp only at h
      split at h
      · rename_i s2 hrd
        have hl := DkStreamRead_transient_length _ _ _ hrd
        split at h
        · cases h
        · rename_i st3 s3 tr3 hrec
          cases h
          exact ih _ _ _ _ _ (by omega) hrec
      · cases h
        intro h0; cases h0
      · cases h
        intro h0; cases h0
      · rename_i bs s2 hrd
        split at h
        · split at h <;> cases h <;> (intro h0; cases h0)
        · rename_i hz
          split at h
          · cases h
          · rename_i st3 s3 tr3 hrec
            cases h
            rcases DkStreamRead_bytes_length _ _ _ _ hrd with h0 | h1 | ⟨h1, h2, h3⟩
            · exact absurd h0 hz
            · exact ih _ _ _ _ _ (by omega) hrec
            · obtain ⟨k, rfl⟩ : ∃ k, n = k + 1 := ⟨n - 1, by omega⟩
              have hfull : E.L.IPC_MSG_MINIMAL_SIZE ≤ (buf ++ bs).length := by
                simp only [List.length_append, h3, Layout.bufSize]
                omega
              rw [recvHeaderLoop_done E k _ _ hfull] at hrec
              cases hrec
    · cases h

theorem recvHeader_never_diverges (E : Env) (s : Stream) (buf : List Nat) (s1 : Stream)
    (tr : List Event) : recvHeader E s buf ≠ HdrRes.exit Status.diverge s1 tr := by
  intro h
  exact recvHeaderLoop_budget E _ s buf _ s1 tr (Nat.lt_succ_self _) h rfl

theorem read_exact_loop_budget (E : Env) : ∀ (n : Nat) (s : Stream) (need : Nat)
    (acc : List Nat) (s1 : Stream),
    s.pending.length < n → read_exact_loop E n s need acc ≠ ExactRes.diverge s1 := by
  intro n
  induction n with
  | zero => intro s need acc s1 hlen; omega
  | succ n ih =>
    intro s need acc s1 hlen h
    rw [read_exact_loop] at h
    split at h
    · rename_i hpos
      split at h
      · rename_i s2 hrd
        have hl := DkStreamRead_transient_length _ _ _ hrd
        exact ih _ _ _ _ (by omega) h
      · cases h
      · cases h
      · rename_i bs s2 hrd
        split at h
        · cases h
        · rename_i hz
          rcases DkStreamRead_bytes_length _ _ _ _ hrd with h0 | h1 | ⟨h1, h2, h3⟩
          · exact absurd h0 hz
          · exact ih _ _ _ _ (by omega) h
          · obtain ⟨k, rfl⟩ : ∃ k, n = k + 1 := ⟨n - 1, by omega⟩
            rw [h3, Nat.sub_self, read_exact_loop_zero] at h
            cases h
    · cases h

theorem read_exact_never_diverges (E : Env) (s : Stream) (size : Nat) (s1 : Stream) :
    read_exact E s size ≠ ExactRes.diverge s1 :=
  read_exact_loop_budget E _ s size [] s1 (Nat.lt_succ_self _)

/-! ## A leftover shorter than a header makes the loop read on -/

theorem recvHeaderLoop_first_read (E : Env) (n : Nat) (s : Stream) (buf : List Nat)
    (hb : buf.length < E.L.IPC_MSG_MINIMAL_SIZE) :
    ∃ res rest, (recvHeaderLoop E (n + 1) s buf).trace =
      Event.streamRead (E.L.bufSize - buf.length) res :: rest := by
  rw [recvHeaderLoop]
  simp only [if_pos hb]
  split
  · split <;> exact ⟨_, _, rfl⟩
  · exact ⟨_, _, rfl⟩
  · exact ⟨_, _, rfl⟩
  · split
    · split <;> exact ⟨_, _, rfl⟩
    · split <;> exact ⟨_, _, rfl⟩

theorem recvPass_trace_header (E : Env) (vmid : Nat) (s : Stream) (buf : List Nat) :
    ∃ more, (recvPass E vmid s buf).trace = (recvHeader E s buf).trace ++ more := by
  unfold recvPass
  cases hh : recvHeader E s buf with
  | exit st s1 tr => exact ⟨[], by simp [Pass.trace, HdrRes.trace]⟩
  | done s1 buf1 tr =>
    simp only [HdrRes.trace]
    split
    · exact ⟨[], by simp [Pass.trace]⟩
    · split
      · exact ⟨[], by simp [Pass.trace]⟩
      · split
        · exact ⟨_, passDispatch_trace _ _ _ _ _ _⟩
        · split
          · rw [passDispatch_trace]
            exact ⟨_, List.append_assoc _ _ _⟩
          · split <;> exact ⟨_, rfl⟩
          · exact ⟨_, rfl⟩
          · exact ⟨_, rfl⟩

theorem recvLoop_trace_pass (E : Env) (vmid fuel : Nat) (s : Stream) (buf : List Nat) :
    ∃ more, (recvLoop E vmid (fuel + 1) s buf).trace = (recvPass E vmid s buf).trace ++ more := by
  rw [recvLoop]
  cases hp : recvPass E vmid s buf with
  | final o => exact ⟨[], by simp [Pass.trace]⟩
  | next s1 buf1 tr =>
    simp only [Pass.trace]
    split
    · exact ⟨(recvLoop E vmid fuel s1 buf1).trace, rfl⟩
    · exact ⟨[], by simp⟩

theorem recvLoop_reads_on (E : Env) (vmid fuel : Nat) (s : Stream) (buf : List Nat)
    (hb : buf.length < E.L.IPC_MSG_MINIMAL_SIZE) :
    ∃ res rest, (recvLoop E vmid (fuel + 1) s buf).trace =
      Event.streamRead (E.L.bufSize - buf.length) res :: rest := by
  obtain ⟨m1, h1⟩ := recvLoop_trace_pass E vmid fuel s buf
  obtain ⟨m2, h2⟩ := recvPass_trace_header E vmid s buf
  obtain ⟨res, rest, h3⟩ := recvHeaderLoop_first_read E s.pending.length s buf hb
  refine ⟨res, rest ++ m2 ++ m1, ?_⟩
  rw [h1, h2, recvHeader, h3]
  simp

/-! ## Lemmas: a dispatch that ends the call -/

theorem recvPass_framed (E : Env) (vmid : Nat) (s : Stream) (buf m y : List Nat)
    (hL : E.L.WF) (hmalloc : E.malloc_ok m.length = true) (hd : AllData s.pending)
    (hfr : Framed E.L m) (heq : buf ++ bytesOf s.pending = m ++ y) :
    ∃ s1 buf1 pre, recvPass E vmid s buf = passDispatch E vmid s1 m buf1 pre ∧
      OnlyIO pre ∧ buf1 ++ bytesOf s1.pending = y ∧ AllData s1.pending ∧
      s1.closed = s.closed := by
  obtain ⟨hsz, hmin⟩ := hfr
  obtain ⟨_, _, hso, _, _, _⟩ := hL
  have hmin1 : E.L.IPC_MSG_MINIMAL_SIZE ≤ (buf ++ bytesOf s.pending).length := by
    rw [heq]; simp only [List.length_append]; omega
  obtain ⟨s1, buf1, tr1, hdone, hlen1, hcons, hd1, hc1, hr1⟩ :=
    recvHeaderLoop_fill E (s.pending.length + 1) s buf hd (Nat.lt_succ_self _) hmin1
  have hcons1 : buf1 ++ bytesOf s1.pending = m ++ y := hcons.trans heq
  have hsize : readField buf1 E.L.sizeOff 8 = some m.length := by
    rw [readField_agree hcons1 _ _ (by omega) (by omega)]; exact hsz
  have hmf : ¬ (E.malloc_ok m.length = false) := by simp [hmalloc]
  by_cases hle : m.length ≤ buf1.length
  · obtain ⟨ht, hdr⟩ := split_whole hcons1 hle
    refine ⟨s1, buf1.drop m.length, tr1, ?_, onlyIO_of_onlyReads hr1, hdr, hd1, hc1⟩
    simp only [recvPass, recvHeader, hdone, hsize, if_neg hmf, if_pos hle, ht]
  · have hlt : buf1.length < m.length := Nat.not_le.mp hle
    obtain ⟨hneed, hm, hy⟩ := split_short hcons1 hlt
    obtain ⟨s2, hok, hb2, hd2, hc2⟩ :=
      read_exact_loop_ok E (s1.pending.length + 1) s1 (m.length - buf1.length) [] hd1
        (Nat.lt_succ_self _) hneed
    refine ⟨s2, [], tr1 ++ [Event.readExact (m.length - buf1.length)], ?_,
      onlyIO_snoc hr1 _, ?_, hd2, hc2.trans hc1⟩
    · simp only [recvPass, recvHeader, hdone, hsize, if_neg hmf, if_neg hle, read_exact, hok,
        List.nil_append, hm]
    · simp only [List.nil_append, hb2, hy]

theorem recvPass_stops (E : Env) (vmid : Nat) (s : Stream) (buf m y : List Nat) (st : Status)
    (hL : E.L.WF) (hmalloc : E.malloc_ok m.length = true) (hd : AllData s.pending)
    (hfr : Framed E.L m) (hst : (dispatch E vmid m).1 = some st)
    (heq : buf ++ bytesOf s.pending = m ++ y) :
    ∃ s1 tr, recvPass E vmid s buf = Pass.final ⟨st, s1, tr⟩ ∧ dispatched tr = [m] := by
  obtain ⟨s1, buf1, pre, hp, hio, _, _, _⟩ :=
    recvPass_framed E vmid s buf m y hL hmalloc hd hfr heq
  obtain ⟨evs, hdisp⟩ : ∃ evs, dispatch E vmid m = (some st, evs) := ⟨_, Prod.ext hst rfl⟩
  refine ⟨s1, pre ++ Event.dispatch m :: evs, ?_, ?_⟩
  · rw [hp]
    simp only [passDispatch, hdisp]
  · have h2 := dispatched_dispatch E vmid m
    rw [hdisp] at h2
    simp [dispatched_append, dispatched, dispatched_onlyIO hio, h2]

theorem recvLoop_stops (E : Env) (vmid : Nat) (hL : E.L.WF)
    (hmalloc : ∀ n, E.malloc_ok n = true) (m y : List Nat) (st : Status)
    (hfr : Framed E.L m) (hst : (dispatch E vmid m).1 = some st) :
    ∀ (ms : List (List Nat)) (fuel : Nat) (s : Stream) (buf : List Nat),
      (∀ b ∈ ms, Framed E.L b ∧ Continues E vmid b) →
      AllData s.pending → ms.length < fuel →
      buf ++ bytesOf s.pending = ms.flatten ++ (m ++ y) →
      ∃ k, k ≤ ms.length ∧
        (((recvLoop E vmid fuel s buf).status = Status.ret 0 ∧ 0 < k ∧
            dispatched (recvLoop E vmid fuel s buf).trace = ms.take k ∧
            bytesOf (recvLoop E vmid fuel s buf).stream.pending =
              (ms.drop k).flatten ++ (m ++ y) ∧
            AllData (recvLoop E vmid fuel s buf).stream.pending ∧
            (recvLoop E vmid fuel s buf).stream.closed = s.closed) ∨
          ((recvLoop E vmid fuel s buf).status = st ∧
            dispatched (recvLoop E vmid fuel s buf).trace = ms ++ [m])) := by
  intro ms
  induction ms with
  | nil =>
    intro fuel s buf _ hd hfuel heq
    obtain ⟨f, rfl⟩ : ∃ f, fuel = f + 1 := ⟨fuel - 1, by omega⟩
    obtain ⟨s1, tr, hfin, hdis⟩ :=
      recvPass_stops E vmid s buf m y st hL (hmalloc _) hd hfr hst (by simpa using heq)
    refine ⟨0, Nat.le_refl _, Or.inr ?_⟩
    simp only [recvLoop, hfin, hdis, List.nil_append, and_self]
  | cons b ms ih =>
    intro fuel s buf hms hd hfuel heq
    obtain ⟨f, rfl⟩ : ∃ f, fuel = f + 1 := ⟨fuel - 1, by omega⟩
    have hf : ms.length < f := by
      simp only [List.length_cons] at hfuel; omega
    obtain ⟨hbf, hcont⟩ := hms b (List.mem_cons_self _ _)
    obtain ⟨s1, buf1, pre, hnext, hio, hrest, hd1, hc1⟩ :=
      recvPass_message E vmid s buf b (ms.flatten ++ (m ++ y)) hL (hmalloc _) hd hbf hcont
        (by simpa [List.append_assoc] using heq)
    have htr : dispatched (pre ++ Event.dispatch b :: (dispatch E vmid b).2) = [b] := by
      simp [dispatched_append, dispatched, dispatched_onlyIO hio, dispatched_dispatch]
    by_cases hb : 0 < buf1.length
    · obtain ⟨k, hk, hpost⟩ :=
        ih f s1 buf1 (fun x hx => hms x (List.mem_cons_of_mem _ hx)) hd1 hf hrest
      refine ⟨k + 1, by simpa using hk, ?_⟩
      simp only [recvLoop, hnext, if_pos hb, Out.after, dispatched_append, htr,
        List.take_succ_cons, List.drop_succ_cons, List.singleton_append, List.cons_append]
      rcases hpost with ⟨h1, h2, h3, h4, h5, h6⟩ | ⟨h1, h2⟩
      · exact Or.inl ⟨h1, Nat.succ_pos _, by rw [h3]; rfl, h4, h5, h6.trans hc1⟩
      · exact Or.inr ⟨h1, by rw [h2]; rfl⟩
    · have hnil : buf1 = [] := List.length_eq_zero.mp (by omega)
      subst hnil
      refine ⟨1, by simp, Or.inl ?_⟩
      simp only [recvLoop, hnext, if_neg hb, htr, List.take_succ_cons, List.take_zero,
        List.drop_succ_cons, List.drop_zero]
      exact ⟨trivial, Nat.one_pos, trivial, by simpa using hrest, hd1, hc1⟩

theorem dispatch_reply_status (E : Env) (vmid : Nat) (msg : List Nat) (code : Nat) (r : Int)
    (evs : List Event) (s : Nat)
    (hsrc : readField msg E.L.srcOff E.L.idWidth = some vmid)
    (hcode : readField msg E.L.codeOff E.L.codeWidth = some code)
    (hlt : code < E.ARRAY_SIZE)
    (hcall : (ipc_callbacks E code).map (fun h => h msg vmid) = some (Status.ret r, evs))
    (hcond : r < 0 ∨ r = E.RESPONSE_CALLBACK)
    (hseq : readField msg E.L.seqOff 8 = some s) (hs : s ≠ 0) :
    (dispatch E vmid msg).1 =
      if (send_ipc_response E vmid r s).1 < 0 then
        some (Status.ret (send_ipc_response E vmid r s).1)
      else none := by
  obtain ⟨f, hf, hfr⟩ := callbacks_of_map E code msg vmid _ hcall
  unfold dispatch
  simp only [hsrc, hcode, hf, hfr, hseq, ne_eq, not_true_eq_false, if_false, if_pos hlt,
    if_pos hcond, hs, not_false_eq_true, if_true]
  split <;> rfl

theorem recvCalls_stops (E : Env) (vmid : Nat) (hL : E.L.WF)
    (hmalloc : ∀ n, E.malloc_ok n = true) (fuel : Nat) (m y : List Nat) (st : Status)
    (hfr : Framed E.L m) (hst : (dispatch E vmid m).1 = some st) :
    ∀ (calls : Nat) (ms : List (List Nat)) (s : Stream),
      ms.length < calls → ms.length < fuel →
      (∀ b ∈ ms, Framed E.L b ∧ Continues E vmid b) →
      AllData s.pending → bytesOf s.pending = ms.flatten ++ (m ++ y) →
      ∃ pre last, recvCalls E fuel vmid calls s = pre ++ [receive_ipc_messages E fuel vmid last] ∧
        (∀ o ∈ pre, o.status = Status.ret 0) ∧
        (receive_ipc_messages E fuel vmid last).status = st ∧
        dispatchedBy (pre ++ [receive_ipc_messages E fuel vmid last]) = ms ++ [m] := by
  have hne0 : st ≠ Status.ret 0 := dispatch_final_ne_zero E vmid m st hst
  intro calls
  induction calls with
  | zero => intro ms s hlen; omega
  | succ c ih =>
    intro ms s hlen hfuel hms hd hb
    have hne : bytesOf s.pending ≠ [] := by
      rw [hb]
      intro h0
      have h1 := congrArg List.length h0
      have h2 := hfr.2
      have h3 := hL.1
      simp only [List.length_append, List.length_nil] at h1
      omega
    have hr := readable_of_bytes s hne
    obtain ⟨k, hk, hpost⟩ :=
      recvLoop_stops E vmid hL hmalloc m y st hfr hst ms fuel s [] hms hd hfuel (by simpa using hb)
    rcases hpost with ⟨h1, h2, h3, h4, h5, h6⟩ | ⟨h1, h2⟩
    · obtain ⟨pre, last, hrec, hpre, hlast, hall⟩ :=
        ih (ms.drop k) (recvLoop E vmid fuel s []).stream
          (by simp only [List.length_drop]; omega) (by simp only [List.length_drop]; omega)
          (fun x hx => hms x (List.mem_of_mem_drop hx)) h5 h4
      refine ⟨recvLoop E vmid fuel s [] :: pre, last, ?_, ?_, hlast, ?_⟩
      · simp only [receive_ipc_messages] at hrec
        simp only [recvCalls, hr, if_true, receive_ipc_messages, h1, List.cons_append, hrec]
      · intro o ho
        rcases List.mem_cons.mp ho with rfl | ho
        · exact h1
        · exact hpre o ho
      · show dispatched (recvLoop E vmid fuel s []).trace ++
            dispatchedBy (pre ++ [receive_ipc_messages E fuel vmid last]) = ms ++ [m]
        rw [h3, hall, ← List.append_assoc, List.take_append_drop]
    · have hneg : ¬ (recvLoop E vmid fuel s []).status = Status.ret 0 := by
        rw [h1]; exact hne0
      refine ⟨[], s, ?_, by simp, h1, ?_⟩
      · simp only [recvCalls, hr, if_true, receive_ipc_messages, if_neg hneg, List.nil_append]
      · simp [dispatchedBy, receive_ipc_messages, h2]

/-! ## Lemmas on the registry -/

theorem two_pow_64 : (2 : Nat) ^ 64 = 18446744073709551616 := by norm_num

theorem regInv_add (E : Env) (w : Worker) (a h id : Nat) (hw : RegInv w)
    (hfresh : ∀ c ∈ w.g_ipc_connections, c.addr ≠ a)
    (hroom : w.g_ipc_connections.length + 3 < 2 ^ 64) :
    RegInv (add_ipc_connection E w (some a) h id).2 := by
  obtain ⟨h1, h2, h3⟩ := hw
  have hp := two_pow_64
  refine ⟨?_, ?_, ?_⟩
  · simp only [add_ipc_connection, List.map_cons, List.nodup_cons]
    refine ⟨?_, h1⟩
    intro hmem
    obtain ⟨c, hc, hca⟩ := List.mem_map.mp hmem
    exact hfresh c hc hca
  · simp only [add_ipc_connection, List.length_cons, h2]
    rw [hp] at hroom ⊢
    omega
  · simp only [add_ipc_connection, List.length_cons]
    rw [hp] at hroom ⊢
    omega

theorem regInv_del (w : Worker) (c : Conn) (hw : RegInv w) (hc : c ∈ w.g_ipc_connections) :
    RegInv (del_ipc_connection w c) := by
  obtain ⟨h1, h2, h3⟩ := hw
  have hp := two_pow_64
  have hpos : 0 < w.g_ipc_connections.length := List.length_pos_of_mem hc
  have hlen : (w.g_ipc_connections.erase c).length = w.g_ipc_connections.length - 1 :=
    List.length_erase_of_mem hc
  refine ⟨?_, ?_, ?_⟩
  · exact h1.sublist ((List.erase_sublist c w.g_ipc_connections).map Conn.addr)
  · simp only [del_ipc_connection, hlen, h2]
    rw [hp] at h3 ⊢
    omega
  · simp only [del_ipc_connection, hlen]
    omega

theorem regInv_congr (w w1 : Worker) (hr : w1.g_ipc_connections = w.g_ipc_connections)
    (hc : w1.g_ipc_connections_cnt = w.g_ipc_connections_cnt) (hw : RegInv w) : RegInv w1 := by
  unfold RegInv at hw ⊢
  rw [hr, hc]
  exact hw

theorem regInv_nodup (w : Worker) (hw : RegInv w) : w.g_ipc_connections.Nodup :=
  List.Nodup.of_map Conn.addr hw.1

theorem regInv_applyOps (E : Env) : ∀ (ops : List RegOp) (w : Worker),
    RegInv w → ValidOps E w ops → RegInv (applyOps E w ops) := by
  intro ops
  induction ops with
  | nil => intro w hw _; exact hw
  | cons op ops ih =>
    intro w hw hv
    cases op with
    | add a h id =>
      obtain ⟨hf, hroom, hrest⟩ := hv
      exact ih _ (regInv_add E w a h id hw hf hroom) hrest
    | del c =>
      obtain ⟨hc, hrest⟩ := hv
      exact ih _ (regInv_del w c hw hc) hrest

theorem gather_of_regInv (w : Worker) (hw : RegInv w) :
    gather w ((w.g_ipc_connections_cnt + 2) % 2 ^ 64) =
      some (none :: none :: w.g_ipc_connections.map some,
        WaitHandle.exit_event :: WaitHandle.self_ipc ::
          w.g_ipc_connections.map (fun c => WaitHandle.conn c.handle)) := by
  obtain ⟨_, h2, h3⟩ := hw
  have hm : (w.g_ipc_connections_cnt + 2) % 2 ^ 64 = w.g_ipc_connections.length + 2 := by
    rw [h2]
    exact Nat.mod_eq_of_lt h3
  rw [hm, gather, if_pos rfl]

/-! ## Lemmas on the iterations of the main loop -/

theorem connSlot_worker (E : Env) (fuel : Nat) (w : Worker) (c : Conn) (ev : Nat) :
    ∃ w0 : Worker, w0.g_ipc_connections = w.g_ipc_connections ∧
      w0.g_ipc_connections_cnt = w.g_ipc_connections_cnt ∧
      ((connSlot E fuel w c ev).2 = w0 ∨
        (connSlot E fuel w c ev).2 = del_ipc_connection (disconnect_callbacks E w0 c) c) := by
  by_cases hread : ev &&& E.PAL_WAIT_READ ≠ 0
  · refine ⟨⟨w.g_ipc_connections, w.g_ipc_connections_cnt,
      Function.update w.streams c.handle
        (receive_ipc_messages E fuel c.vmid (w.streams c.handle)).stream,
      w.log ++ [WEvent.receive c (receive_ipc_messages E fuel c.vmid (w.streams c.handle))]⟩,
      rfl, rfl, ?_⟩
    unfold connSlot
    simp only [if_pos hread]
    cases (receive_ipc_messages E fuel c.vmid (w.streams c.handle)).status with
    | ret v =>
      dsimp only
      by_cases h1 : v = 1
      · simp only [if_pos h1]
        exact Or.inr trivial
      · simp only [if_neg h1]
        by_cases h2 : v < 0
        · simp only [if_pos h2, if_true]
          exact Or.inr trivial
        · simp only [if_neg h2]
          by_cases h3 : ev = E.PAL_WAIT_ERROR
          · simp only [if_pos h3]
            exact Or.inr trivial
          · simp only [if_neg h3]
            exact Or.inl trivial
    | assertFail => exact Or.inl rfl
    | undef => exact Or.inl rfl
    | blocked => exact Or.inl rfl
    | diverge => exact Or.inl rfl
  · refine ⟨w, rfl, rfl, ?_⟩
    unfold connSlot
    simp only [if_neg hread]
    by_cases h3 : ev = E.PAL_WAIT_ERROR
    · simp only [if_pos h3]
      exact Or.inr trivial
    · simp only [if_neg h3]
      exact Or.inl trivial

theorem connSlot_regInv (E : Env) (fuel : Nat) (w : Worker) (c : Conn) (ev : Nat)
    (hw : RegInv w) (hc : c ∈ w.g_ipc_connections) :
    RegInv (connSlot E fuel w c ev).2 ∧
      ∀ x, x ≠ c → x ∈ w.g_ipc_connections → x ∈ (connSlot E fuel w c ev).2.g_ipc_connections := by
  obtain ⟨w0, hr, hcnt, hres⟩ := connSlot_worker E fuel w c ev
  have hw0 : RegInv w0 := regInv_congr w w0 hr hcnt hw
  rcases hres with h | h
  · rw [h]
    exact ⟨hw0, fun x _ hx => by rw [hr]; exact hx⟩
  · rw [h]
    have hd : RegInv (disconnect_callbacks E w0 c) := regInv_congr w0 _ rfl rfl hw0
    refine ⟨regInv_del _ c hd (by rw [← hr] at hc; exact hc), ?_⟩
    intro x hx hmem
    show x ∈ w0.g_ipc_connections.erase c
    rw [hr]
    exact (List.mem_erase_of_ne hx).mpr hmem

theorem connLoop_regInv (E : Env) (fuel : Nat) : ∀ (slots : List (Conn × Nat)) (w : Worker),
    RegInv w → (slots.map (fun p => p.1)).Nodup → (∀ p ∈ slots, p.1 ∈ w.g_ipc_connections) →
    RegInv (connLoop E fuel w slots).2 := by
  intro slots
  induction slots with
  | nil => intro w hw _ _; exact hw
  | cons p rest ih =>
    intro w hw hnd hmem
    obtain ⟨c, ev⟩ := p
    simp only [List.map_cons, List.nodup_cons] at hnd
    obtain ⟨hnotin, hnd1⟩ := hnd
    obtain ⟨h1, h2⟩ := connSlot_regInv E fuel w c ev hw (hmem (c, ev) (List.mem_cons_self _ _))
    cases hr : connSlot E fuel w c ev with
    | mk st w1 =>
      rw [hr] at h1 h2
      cases st with
      | some s0 =>
        simp only [connLoop, hr]
        exact h1
      | none =>
        simp only [connLoop, hr]
        refine ih w1 h1 hnd1 ?_
        intro q hq
        refine h2 q.1 ?_ (hmem q (List.mem_cons_of_mem _ hq))
        intro heq
        apply hnotin
        rw [← heq]
        exact List.mem_map_of_mem (fun p => p.1) hq

theorem connLoop_end (E : Env) (fuel : Nat) : ∀ (slots : List (Conn × Nat)) (w : Worker),
    (connLoop E fuel w slots).1 = LoopEnd.next ∨
      ∃ st, (connLoop E fuel w slots).1 = LoopEnd.stuck st := by
  intro slots
  induction slots with
  | nil => intro w; exact Or.inl rfl
  | cons p rest ih =>
    intro w
    obtain ⟨c, ev⟩ := p
    cases hr : connSlot E fuel w c ev with
    | mk st w1 =>
      cases st with
      | some s0 =>
        simp only [connLoop, hr]
        exact Or.inr ⟨s0, rfl⟩
      | none =>
        simp only [connLoop, hr]
        exact ih w1

theorem slotsFrom_fst : ∀ (cs : List Conn) (i : Nat) (evs : List Nat),
    (slotsFrom i cs evs).map (fun p => p.1) = cs := by
  intro cs
  induction cs with
  | nil => intro i evs; rfl
  | cons c cs ih => intro i evs; simp [slotsFrom, ih]

theorem acceptBranch_regInv (E : Env) (env : IterEnv) (w : Worker) (ev1 : Nat)
    (hw : RegInv w)
    (hfresh : ∀ a, env.conn_mem = some a →
      (∀ c ∈ w.g_ipc_connections, c.addr ≠ a) ∧ w.g_ipc_connections.length + 3 < 2 ^ 64) :
    RegInv (acceptBranch E env w ev1).2 ∧
      ∀ x ∈ w.g_ipc_connections, x ∈ (acceptBranch E env w ev1).2.g_ipc_connections := by
  unfold acceptBranch
  split
  · split
    · exact ⟨regInv_congr w _ rfl rfl hw, fun x hx => hx⟩
    · split
      · exact ⟨regInv_congr w _ rfl rfl hw, fun x hx => hx⟩
      · rename_i new_handle _
        split
        · rename_i bs s2 _
          have hw1 : RegInv (⟨w.g_ipc_connections, w.g_ipc_connections_cnt,
              Function.update w.streams new_handle s2,
              w.log ++ [WEvent.DkStreamWaitForClient new_handle]⟩ : Worker) :=
            regInv_congr w _ rfl rfl hw
          cases hm : env.conn_mem with
          | none =>
            simp only [add_ipc_connection]
            split
            · exact ⟨regInv_congr w _ rfl rfl hw, fun x hx => hx⟩
            · exact ⟨hw1, fun x hx => hx⟩
          | some a =>
            obtain ⟨hf, hroom⟩ := hfresh a hm
            have hadd := regInv_add E _ a new_handle (leNat bs) hw1 hf hroom
            have hnot : ¬ (0 : Int) < 0 := by omega
            simp only [add_ipc_connection, if_neg hnot]
            exact ⟨hadd, fun x hx => List.mem_cons_of_mem _ hx⟩
        · split
          · exact ⟨regInv_congr w _ rfl rfl hw, fun x hx => hx⟩
          · exact ⟨regInv_congr w _ rfl rfl hw, fun x hx => hx⟩
        · exact ⟨regInv_congr w _ rfl rfl hw, fun x hx => hx⟩
        · exact ⟨regInv_congr w _ rfl rfl hw, fun x hx => hx⟩
  · exact ⟨hw, fun x hx => hx⟩

theorem iter_regInv (E : Env) (fuel : Nat) (env : IterEnv) (st : MainState)
    (hw : RegInv st.w) (hfresh : IterFresh env st) :
    RegInv (ipc_worker_iter E fuel env st).2.w := by
  unfold ipc_worker_iter
  dsimp only
  split
  · exact regInv_congr st.w _ rfl rfl hw
  · split
    · exact hw
    · split
      · exact hw
      · exact regInv_congr st.w _ rfl rfl hw
      · rename_i ret_events _
        split
        · split
          · exact regInv_congr st.w _ rfl rfl hw
          · exact regInv_congr st.w _ rfl rfl hw
        · obtain ⟨ha, hb⟩ := acceptBranch_regInv E env st.w (ret_events.getD 1 0) hw hfresh
          split
          · rename_i e w1 hacc
            rw [hacc] at ha
            exact ha
          · rename_i w1 hacc
            rw [hacc] at ha hb
            refine connLoop_regInv E fuel _ w1 ha ?_ ?_
            · rw [slotsFrom_fst]
              exact regInv_nodup st.w hw
            · intro p hp
              apply hb
              have := List.mem_map_of_mem (fun p => p.1) hp
              rw [slotsFrom_fst] at this
              exact this

theorem main_regInv (E : Env) (fuel : Nat) : ∀ (envs : List IterEnv) (st : MainState),
    RegInv st.w → FreshRun E fuel envs st → RegInv (ipc_worker_main E fuel envs st).2.w := by
  intro envs
  induction envs with
  | nil => intro st hw _; exact hw
  | cons env rest ih =>
    intro st hw hf
    obtain ⟨hf1, hf2⟩ := hf
    have h1 := iter_regInv E fuel env st hw hf1
    rw [ipc_worker_main]
    split
    · rename_i st1 hit
      rw [hit] at h1 hf2
      exact ih st1 h1 hf2
    · rename_i r hne
      exact h1


/-! ## Lemmas: what the per-connection loop records -/

theorem not_mem_of_marks_nil (x : Conn) (log : List WEvent) (h : marks x log = []) :
    WEvent.disconnect_callbacks x ∉ log := by
  intro hm
  have hmem : WEvent.disconnect_callbacks x ∈ marks x log := by
    unfold marks
    exact List.mem_filter.mpr ⟨hm, by simp⟩
  rw [h] at hmem
  exact absurd hmem (List.not_mem_nil _)

theorem connLoop_log (E : Env) (fuel : Nat) : ∀ (slots : List (Conn × Nat)) (w : Worker),
    ∃ new, (connLoop E fuel w slots).2.log = w.log ++ new ∧
      ∀ x, WEvent.disconnect_callbacks x ∈ new → x ∈ slots.map (fun p => p.1) := by
  intro slots
  induction slots with
  | nil =>
    intro w
    exact ⟨[], by simp [connLoop], fun x hx => absurd hx (List.not_mem_nil _)⟩
  | cons p rest ih =>
    intro w
    obtain ⟨c, ev⟩ := p
    obtain ⟨new1, hlog1, _, hm, _⟩ := connSlot_spec E fuel w c ev
    have hx1 : ∀ x, WEvent.disconnect_callbacks x ∈ new1 → x = c := by
      intro x hx
      by_contra hne
      exact not_mem_of_marks_nil x new1 (hm x hne) hx
    cases hr : connSlot E fuel w c ev with
    | mk st w1 =>
      rw [hr] at hlog1
      cases st with
      | some s0 =>
        refine ⟨new1, ?_, ?_⟩
        · simp only [connLoop, hr]
          exact hlog1
        · intro x hx
          rw [hx1 x hx]
          exact List.mem_cons_self _ _
      | none =>
        obtain ⟨new2, hlog2, hx2⟩ := ih w1
        refine ⟨new1 ++ new2, ?_, ?_⟩
        · simp only [connLoop, hr]
          rw [hlog2]
          show w1.log ++ new2 = w.log ++ (new1 ++ new2)
          rw [hlog1, List.append_assoc]
        · intro x hx
          rcases List.mem_append.mp hx with h | h
          · rw [hx1 x h]
            exact List.mem_cons_self _ _
          · exact List.mem_cons_of_mem _ (hx2 x h)

/-! ## Lemmas on the `retval` of a response -/

theorem toInt32_pattern (r : Int) (hlo : -2 ^ 31 ≤ r) (hhi : r < 2 ^ 31) :
    toInt32 (r % 2 ^ 32).toNat = r := by
  unfold toInt32
  have h32 : (2 : Int) ^ 32 = 4294967296 := by norm_num
  have h31 : (2 : Int) ^ 31 = 2147483648 := by norm_num
  have n32 : (2 : Nat) ^ 32 = 4294967296 := by norm_num
  have n31 : (2 : Nat) ^ 31 = 2147483648 := by norm_num
  rw [h31] at hlo hhi
  rw [h32, n32, n31]
  split <;> omega

theorem intOfData_int (r : Int) (hlo : -2 ^ 31 ≤ r) (hhi : r < 2 ^ 31) : intOfData r = r :=
  toInt32_pattern r hlo hhi

/-! ## Lemmas: retried reads change nothing -/

theorem dropTransient_length : ∀ (p : List ReadEv), (dropTransient p).length ≤ p.length
  | [] => Nat.le_refl _
  | .transient :: rest => by
    simp only [dropTransient, List.length_cons]
    exact Nat.le_succ_of_le (dropTransient_length rest)
  | .data bs :: rest => by
    simp only [dropTransient, List.length_cons]
    exact Nat.succ_le_succ (dropTransient_length rest)
  | .fail pal :: rest => by
    simp only [dropTransient, List.length_cons]
    exact Nat.succ_le_succ (dropTransient_length rest)

theorem dropTransient_idem : ∀ (p : List ReadEv), dropTransient (dropTransient p) = dropTransient p
  | [] => rfl
  | .transient :: rest => by simp only [dropTransient, dropTransient_idem rest]
  | .data bs :: rest => by simp only [dropTransient, dropTransient_idem rest]
  | .fail pal :: rest => by simp only [dropTransient, dropTransient_idem rest]

theorem settled_idem (s : Stream) : s.settled.settled = s.settled := by
  simp only [Stream.settled, dropTransient_idem]

theorem quiet_append (a b : List Event) : quiet (a ++ b) = quiet a ++ quiet b := by
  simp only [quiet, List.filter_append]

theorem quiet_cons_retry (req : Nat) (tr : List Event) :
    quiet (Event.streamRead req ReadRes.transient :: tr) = quiet tr := by
  simp [quiet, isRetry]

theorem quiet_cons_keep (e : Event) (tr : List Event) (h : isRetry e = false) :
    quiet (e :: tr) = e :: quiet tr := by
  simp [quiet, h]

theorem hdr_pre_retry (req : Nat) (r : HdrRes) :
    (r.pre (Event.streamRead req ReadRes.transient)).settled = r.settled := by
  cases r <;> simp only [HdrRes.pre, HdrRes.settled, quiet_cons_retry]

theorem hdr_pre_keep (e : Event) (r : HdrRes) (h : isRetry e = false) :
    (r.pre e).settled = r.settled.pre e := by
  cases r <;> simp only [HdrRes.pre, HdrRes.settled, quiet_cons_keep _ _ h]

theorem recvHeaderLoop_step_transient (E : Env) (n : Nat) (rest : List ReadEv) (c : Bool)
    (buf : List Nat) (hb : buf.length < E.L.IPC_MSG_MINIMAL_SIZE) :
    recvHeaderLoop E (n + 1) ⟨ReadEv.transient :: rest, c⟩ buf =
      (recvHeaderLoop E n ⟨rest, c⟩ buf).pre
        (Event.streamRead (E.L.bufSize - buf.length) ReadRes.transient) := by
  simp only [recvHeaderLoop, if_pos hb, DkStreamRead]
  cases recvHeaderLoop E n ⟨rest, c⟩ buf <;> rfl

theorem recvHeaderLoop_step_bytes (E : Env) (n : Nat) (s s1 : Stream) (bs buf : List Nat)
    (hb : buf.length < E.L.IPC_MSG_MINIMAL_SIZE)
    (hread : DkStreamRead s (E.L.bufSize - buf.length) = (ReadRes.bytes bs, s1))
    (hne : bs.length ≠ 0) :
    recvHeaderLoop E (n + 1) s buf =
      (recvHeaderLoop E n s1 (buf ++ bs)).pre
        (Event.streamRead (E.L.bufSize - buf.length) (ReadRes.bytes bs)) := by
  simp only [recvHeaderLoop, if_pos hb, hread, if_neg hne]
  cases recvHeaderLoop E n s1 (buf ++ bs) <;> rfl

theorem recvHeaderLoop_settled (E : Env) : ∀ (n : Nat) (s : Stream) (buf : List Nat) (k : Nat),
    s.pending.length < n → (dropTransient s.pending).length < k →
    (recvHeaderLoop E n s buf).settled = (recvHeaderLoop E k s.settled buf).settled := by
  intro n
  induction n with
  | zero => intro s buf k h; omega
  | succ n ih =>
    intro s buf k hn hk
    obtain ⟨p, c⟩ := s
    cases k with
    | zero => omega
    | succ m =>
      by_cases hb : buf.length < E.L.IPC_MSG_MINIMAL_SIZE
      · cases p with
        | nil =>
          cases c <;>
            simp [Stream.settled, dropTransient, recvHeaderLoop, hb, DkStreamRead]
        | cons e rest =>
          cases e with
          | transient =>
            rw [recvHeaderLoop_step_transient E n rest c buf hb, hdr_pre_retry]
            exact ih ⟨rest, c⟩ buf (m + 1) (by simpa using hn) hk
          | fail pal =>
            simp only [Stream.settled, dropTransient, recvHeaderLoop, if_pos hb, DkStreamRead,
              HdrRes.settled, dropTransient_idem]
          | data bs =>
            by_cases hz : bs.length = 0
            · have hle : bs.length ≤ E.L.bufSize - buf.length := by omega
              have hpos : 0 < E.L.IPC_MSG_MINIMAL_SIZE := by omega
              by_cases h0 : buf.length = 0 <;>
                simp [Stream.settled, dropTransient, recvHeaderLoop, hb, DkStreamRead, hle, hz,
                  h0, hpos, HdrRes.settled, dropTransient_idem]
            · by_cases hle : bs.length ≤ E.L.bufSize - buf.length
              · have h1 := DkStreamRead_whole bs rest c _ hle
                have h2 := DkStreamRead_whole bs (dropTransient rest) c _ hle
                rw [recvHeaderLoop_step_bytes E n _ _ bs buf hb h1 hz]
                have hs : (⟨ReadEv.data bs :: rest, c⟩ : Stream).settled =
                    ⟨ReadEv.data bs :: dropTransient rest, c⟩ := rfl
                rw [hs, recvHeaderLoop_step_bytes E m _ _ bs buf hb h2 hz,
                  hdr_pre_keep (Event.streamRead _ (ReadRes.bytes bs)) _ rfl,
                  hdr_pre_keep (Event.streamRead _ (ReadRes.bytes bs)) _ rfl]
                have hk1 : (dropTransient rest).length < m := by
                  simp only [dropTransient, List.length_cons] at hk
                  omega
                have := ih ⟨rest, c⟩ (buf ++ bs) m (by simpa using hn) hk1
                rw [this]
                rfl
              · have hlt : E.L.bufSize - buf.length < bs.length := Nat.not_le.mp hle
                have h1 := DkStreamRead_split bs rest c _ hlt
                have h2 := DkStreamRead_split bs (dropTransient rest) c _ hlt
                have hz1 : (bs.take (E.L.bufSize - buf.length)).length ≠ 0 := by
                  simp only [List.length_take, Layout.bufSize, Layout.READAHEAD_SIZE] at hlt ⊢
                  omega
                have hfull : E.L.IPC_MSG_MINIMAL_SIZE ≤
                    (buf ++ bs.take (E.L.bufSize - buf.length)).length := by
                  simp only [List.length_append, List.length_take, Layout.bufSize,
                    Layout.READAHEAD_SIZE] at hlt ⊢
                  omega
                have hs : (⟨ReadEv.data bs :: rest, c⟩ : Stream).settled =
                    ⟨ReadEv.data bs :: dropTransient rest, c⟩ := rfl
                have hn1 : 1 ≤ n := by
                  simp only [List.length_cons] at hn
                  omega
                have hm1 : 1 ≤ m := by
                  simp only [dropTransient, List.length_cons] at hk
                  omega
                obtain ⟨n0, rfl⟩ : ∃ n0, n = n0 + 1 := ⟨n - 1, by omega⟩
                obtain ⟨m0, rfl⟩ : ∃ m0, m = m0 + 1 := ⟨m - 1, by omega⟩
                rw [recvHeaderLoop_step_bytes E _ _ _ _ buf hb h1 hz1, hs,
                  recvHeaderLoop_step_bytes E _ _ _ _ buf hb h2 hz1,
                  recvHeaderLoop_done E n0 _ _ hfull, recvHeaderLoop_done E m0 _ _ hfull]
                simp only [HdrRes.pre, HdrRes.settled, Stream.settled, dropTransient,
                  dropTransient_idem]
      · have hge : E.L.IPC_MSG_MINIMAL_SIZE ≤ buf.length := Nat.le_of_not_lt hb
        rw [recvHeaderLoop_done E n ⟨p, c⟩ buf hge, recvHeaderLoop_done E m _ buf hge]
        simp only [HdrRes.settled, settled_idem]

theorem recvHeader_settled (E : Env) (s s1 : Stream) (buf : List Nat)
    (h : s.settled = s1.settled) :
    (recvHeader E s buf).settled = (recvHeader E s1 buf).settled := by
  have hp : dropTransient s1.pending = dropTransient s.pending :=
    (congrArg Stream.pending h).symm
  have a := recvHeaderLoop_settled E (s.pending.length + 1) s buf
    ((dropTransient s.pending).length + 1) (Nat.lt_succ_self _) (Nat.lt_succ_self _)
  have b := recvHeaderLoop_settled E (s1.pending.length + 1) s1 buf
    ((dropTransient s.pending).length + 1) (Nat.lt_succ_self _)
    (by rw [hp]; exact Nat.lt_succ_self _)
  unfold recvHeader
  rw [a, b, h]

theorem read_exact_loop_step_bytes (E : Env) (n : Nat) (s s1 : Stream) (need : Nat)
    (acc bs : List Nat) (hneed : 0 < need)
    (hread : DkStreamRead s need = (ReadRes.bytes bs, s1)) (hne : ¬ bs.length = 0) :
    read_exact_loop E (n + 1) s need acc =
      read_exact_loop E n s1 (need - bs.length) (acc ++ bs) := by
  simp only [read_exact_loop, if_pos hneed, hread, if_neg hne]

theorem read_exact_loop_settled (E : Env) : ∀ (n : Nat) (s : Stream) (need : Nat)
    (acc : List Nat) (k : Nat),
    s.pending.length < n → (dropTransient s.pending).length < k →
    (read_exact_loop E n s need acc).settled =
      (read_exact_loop E k s.settled need acc).settled := by
  intro n
  induction n with
  | zero => intro s need acc k h; omega
  | succ n ih =>
    intro s need acc k hn hk
    obtain ⟨p, c⟩ := s
    cases k with
    | zero => omega
    | succ m =>
      by_cases hneed : 0 < need
      · cases p with
        | nil =>
          cases c <;>
            simp [Stream.settled, dropTransient, read_exact_loop, hneed, DkStreamRead,
              ExactRes.settled]
        | cons e rest =>
          cases e with
          | transient =>
            have hstep : read_exact_loop E (n + 1) ⟨ReadEv.transient :: rest, c⟩ need acc =
                read_exact_loop E n ⟨rest, c⟩ need acc := by
              simp only [read_exact_loop, if_pos hneed, DkStreamRead]
            rw [hstep]
            exact ih ⟨rest, c⟩ need acc (m + 1) (by simpa using hn) hk
          | fail pal =>
            simp only [Stream.settled, dropTransient, read_exact_loop, if_pos hneed,
              DkStreamRead, ExactRes.settled, dropTransient_idem]
          | data bs =>
            have hs : (⟨ReadEv.data bs :: rest, c⟩ : Stream).settled =
                ⟨ReadEv.data bs :: dropTransient rest, c⟩ := rfl
            by_cases hz : bs.length = 0
            · have hle : bs.length ≤ need := by omega
              simp only [Stream.settled, dropTransient, read_exact_loop, if_pos hneed,
                DkStreamRead, if_pos hle, if_pos hz, ExactRes.settled, dropTransient_idem]
            · by_cases hle : bs.length ≤ need
              · have h1 := DkStreamRead_whole bs rest c _ hle
                have h2 := DkStreamRead_whole bs (dropTransient rest) c _ hle
                have hk1 : (dropTransient rest).length < m := by
                  simp only [dropTransient, List.length_cons] at hk
                  omega
                have hi := ih ⟨rest, c⟩ (need - bs.length) (acc ++ bs) m (by simpa using hn) hk1
                rw [hs, read_exact_loop_step_bytes E _ _ _ need acc _ hneed h1 hz,
                  read_exact_loop_step_bytes E _ _ _ need acc _ hneed h2 hz]
                exact hi
              · have hlt : need < bs.length := Nat.not_le.mp hle
                have h1 := DkStreamRead_split bs rest c _ hlt
                have h2 := DkStreamRead_split bs (dropTransient rest) c _ hlt
                have hlen : (bs.take need).length = need := by
                  simp only [List.length_take]
                  omega
                have hz1 : ¬ (bs.take need).length = 0 := by omega
                have hn1 : 1 ≤ n := by
                  simp only [List.length_cons] at hn
                  omega
                have hm1 : 1 ≤ m := by
                  simp only [dropTransient, List.length_cons] at hk
                  omega
                obtain ⟨n0, rfl⟩ : ∃ n0, n = n0 + 1 := ⟨n - 1, by omega⟩
                obtain ⟨m0, rfl⟩ : ∃ m0, m = m0 + 1 := ⟨m - 1, by omega⟩
                rw [hs, read_exact_loop_step_bytes E _ _ _ need acc _ hneed h1 hz1,
                  read_exact_loop_step_bytes E _ _ _ need acc _ hneed h2 hz1]
                simp only [hlen, Nat.sub_self, read_exact_loop_zero, ExactRes.settled,
                  Stream.settled, dropTransient, dropTransient_idem]
      · have h0 : need = 0 := by omega
        subst h0
        rw [read_exact_loop_zero, read_exact_loop_zero]
        simp only [ExactRes.settled, settled_idem]

theorem read_exact_settled (E : Env) (s s1 : Stream) (size : Nat)
    (h : s.settled = s1.settled) :
    (read_exact E s size).settled = (read_exact E s1 size).settled := by
  have hp : dropTransient s1.pending = dropTransient s.pending :=
    (congrArg Stream.pending h).symm
  have a := read_exact_loop_settled E (s.pending.length + 1) s size []
    ((dropTransient s.pending).length + 1) (Nat.lt_succ_self _) (Nat.lt_succ_self _)
  have b := read_exact_loop_settled E (s1.pending.length + 1) s1 size []
    ((dropTransient s.pending).length + 1) (Nat.lt_succ_self _)
    (by rw [hp]; exact Nat.lt_succ_self _)
  unfold read_exact
  rw [a, b, h]

theorem passDispatch_settled (E : Env) (vmid : Nat) (s s1 : Stream) (msg rest : List Nat)
    (tr tr1 : List Event) (hs : s.settled = s1.settled) (ht : quiet tr = quiet tr1) :
    (passDispatch E vmid s msg rest tr).settled =
      (passDispatch E vmid s1 msg rest tr1).settled := by
  unfold passDispatch
  cases dispatch E vmid msg with
  | mk o evs =>
    cases o with
    | some st => simp only [Pass.settled, Out.settled, hs, quiet_append, ht]
    | none => simp only [Pass.settled, hs, quiet_append, ht]

theorem recvPass_settled (E : Env) (vmid : Nat) (s s1 : Stream) (buf : List Nat)
    (h : s.settled = s1.settled) :
    (recvPass E vmid s buf).settled = (recvPass E vmid s1 buf).settled := by
  have hh := recvHeader_settled E s s1 buf h
  unfold recvPass
  cases h1 : recvHeader E s buf with
  | exit st a tr =>
    cases h2 : recvHeader E s1 buf with
    | exit st1 a1 tr1 =>
      rw [h1, h2] at hh
      simp only [HdrRes.settled, HdrRes.exit.injEq] at hh
      obtain ⟨x, y, z⟩ := hh
      simp only [Pass.settled, Out.settled, x, y, z]
    | done a1 b1 tr1 =>
      rw [h1, h2] at hh
      simp only [HdrRes.settled] at hh
      cases hh
  | done a b tr =>
    cases h2 : recvHeader E s1 buf with
    | exit st1 a1 tr1 =>
      rw [h1, h2] at hh
      simp only [HdrRes.settled] at hh
      cases hh
    | done a1 b1 tr1 =>
      rw [h1, h2] at hh
      simp only [HdrRes.settled, HdrRes.done.injEq] at hh
      obtain ⟨x, y, z⟩ := hh
      subst y
      dsimp only
      cases readField b E.L.sizeOff 8 with
      | none => simp only [Pass.settled, Out.settled, x, z]
      | some msg_size =>
        dsimp only
        by_cases hm : E.malloc_ok msg_size = false
        · simp only [if_pos hm, Pass.settled, Out.settled, x, z]
        · simp only [if_neg hm]
          by_cases hle : msg_size ≤ b.length
          · simp only [if_pos hle]
            exact passDispatch_settled E vmid a a1 _ _ tr tr1 x z
          · simp only [if_neg hle]
            have hr := read_exact_settled E a a1 (msg_size - b.length) x
            cases r1 : read_exact E a (msg_size - b.length) with
            | ok bs c =>
              cases r2 : read_exact E a1 (msg_size - b.length) with
              | ok bs1 c1 =>
                rw [r1, r2] at hr
                simp only [ExactRes.settled, ExactRes.ok.injEq] at hr
                obtain ⟨u, v⟩ := hr
                subst u
                exact passDispatch_settled E vmid c c1 _ _ _ _ v
                  (by rw [quiet_append, quiet_append, z])
              | err ret1 c1 => rw [r1, r2] at hr; simp only [ExactRes.settled] at hr; cases hr
              | blocked c1 => rw [r1, r2] at hr; simp only [ExactRes.settled] at hr; cases hr
              | diverge c1 => rw [r1, r2] at hr; simp only [ExactRes.settled] at hr; cases hr
            | err ret c =>
              cases r2 : read_exact E a1 (msg_size - b.length) with
              | err ret1 c1 =>
                rw [r1, r2] at hr
                simp only [ExactRes.settled, ExactRes.err.injEq] at hr
                obtain ⟨u, v⟩ := hr
                subst u
                dsimp only
                split <;> simp only [Pass.settled, Out.settled, v, quiet_append, z]
              | ok bs1 c1 => rw [r1, r2] at hr; simp only [ExactRes.settled] at hr; cases hr
              | blocked c1 => rw [r1, r2] at hr; simp only [ExactRes.settled] at hr; cases hr
              | diverge c1 => rw [r1, r2] at hr; simp only [ExactRes.settled] at hr; cases hr
            | blocked c =>
              cases r2 : read_exact E a1 (msg_size - b.length) with
              | blocked c1 =>
                rw [r1, r2] at hr
                simp only [ExactRes.settled, ExactRes.blocked.injEq] at hr
                simp only [Pass.settled, Out.settled, hr, quiet_append, z]
              | ok bs1 c1 => rw [r1, r2] at hr; simp only [ExactRes.settled] at hr; cases hr
              | err ret1 c1 => rw [r1, r2] at hr; simp only [ExactRes.settled] at hr; cases hr
              | diverge c1 => rw [r1, r2] at hr; simp only [ExactRes.settled] at hr; cases hr
            | diverge c =>
              cases r2 : read_exact E a1 (msg_size - b.length) with
              | diverge c1 =>
                rw [r1, r2] at hr
                simp only [ExactRes.settled, ExactRes.diverge.injEq] at hr
                simp only [Pass.settled, Out.settled, hr, quiet_append, z]
              | ok bs1 c1 => rw [r1, r2] at hr; simp only [ExactRes.settled] at hr; cases hr
              | err ret1 c1 => rw [r1, r2] at hr; simp only [ExactRes.settled] at hr; cases hr
              | blocked c1 => rw [r1, r2] at hr; simp only [ExactRes.settled] at hr; cases hr

theorem recvLoop_settled (E : Env) (vmid : Nat) : ∀ (fuel : Nat) (s s1 : Stream)
    (buf : List Nat), s.settled = s1.settled →
    (recvLoop E vmid fuel s buf).settled = (recvLoop E vmid fuel s1 buf).settled := by
  intro fuel
  induction fuel with
  | zero =>
    intro s s1 buf h
    simp only [recvLoop, Out.settled, h]
  | succ fuel ih =>
    intro s s1 buf h
    have hp := recvPass_settled E vmid s s1 buf h
    unfold recvLoop
    cases p1 : recvPass E vmid s buf with
    | final o =>
      cases p2 : recvPass E vmid s1 buf with
      | final o1 =>
        rw [p1, p2] at hp
        simp only [Pass.settled, Pass.final.injEq] at hp
        exact hp
      | next a1 b1 tr1 => rw [p1, p2] at hp; simp only [Pass.settled] at hp; cases hp
    | next a b tr =>
      cases p2 : recvPass E vmid s1 buf with
      | final o1 => rw [p1, p2] at hp; simp only [Pass.settled] at hp; cases hp
      | next a1 b1 tr1 =>
        rw [p1, p2] at hp
        simp only [Pass.settled, Pass.next.injEq] at hp
        obtain ⟨x, y, z⟩ := hp
        subst y
        dsimp only
        by_cases hb : 0 < b.length
        · simp only [if_pos hb]
          have hi := ih a a1 b x
          simp only [Out.settled, Out.mk.injEq] at hi
          obtain ⟨i1, i2, i3⟩ := hi
          simp only [Out.settled, Out.after, quiet_append, i1, i2, i3, z]
        · simp only [if_neg hb, Out.settled, x, z]

theorem dispatched_quiet : ∀ (tr : List Event), dispatched (quiet tr) = dispatched tr := by
  intro tr
  induction tr with
  | nil => rfl
  | cons e tr ih =>
    by_cases he : isRetry e = true
    · have hq : quiet (e :: tr) = quiet tr := by simp [quiet, he]
      rw [hq, ih]
      cases e with
      | streamRead req res => rfl
      | readExact n => cases he
      | dispatch m => cases he
      | callback c r => cases he
      | unknownType c => cases he
      | response d r q => cases he
      | send m d => cases he
      | resolve a b c => cases he
    · have hf : isRetry e = false := by simpa using he
      rw [quiet_cons_keep e tr hf]
      cases e <;> simp only [dispatched, ih]

/-! ## Lemmas: the shape of a pass -/

theorem recvPass_shape (E : Env) (vmid : Nat) (s : Stream) (buf : List Nat) :
    (∃ st s1 tr, recvHeader E s buf = HdrRes.exit st s1 tr ∧
        recvPass E vmid s buf = Pass.final ⟨st, s1, tr⟩) ∨
      ∃ s1 buf1 tr, recvHeader E s buf = HdrRes.done s1 buf1 tr ∧
        ((readField buf1 E.L.sizeOff 8 = none ∧
            recvPass E vmid s buf = Pass.final ⟨Status.undef, s1, tr⟩) ∨
          ∃ msg_size, readField buf1 E.L.sizeOff 8 = some msg_size ∧
            ((E.malloc_ok msg_size = false ∧
                recvPass E vmid s buf = Pass.final ⟨Status.ret (-E.ENOMEM), s1, tr⟩) ∨
              (msg_size ≤ buf1.length ∧
                recvPass E vmid s buf =
                  passDispatch E vmid s1 (buf1.take msg_size) (buf1.drop msg_size) tr) ∨
              (buf1.length < msg_size ∧ ∃ bs s2,
                read_exact E s1 (msg_size - buf1.length) = ExactRes.ok bs s2 ∧
                recvPass E vmid s buf = passDispatch E vmid s2 (buf1 ++ bs) []
                  (tr ++ [Event.readExact (msg_size - buf1.length)])) ∨
              (buf1.length < msg_size ∧ ∃ st s2,
                recvPass E vmid s buf =
                  Pass.final ⟨st, s2, tr ++ [Event.readExact (msg_size - buf1.length)]⟩ ∧
                ((∃ ret, read_exact E s1 (msg_size - buf1.length) = ExactRes.err ret s2 ∧
                    ((ret < 0 ∧ st = Status.ret ret) ∨ (¬ ret < 0 ∧ st = Status.undef))) ∨
                  (read_exact E s1 (msg_size - buf1.length) = ExactRes.blocked s2 ∧
                    st = Status.blocked) ∨
                  (read_exact E s1 (msg_size - buf1.length) = ExactRes.diverge s2 ∧
                    st = Status.diverge))))) := by
  unfold recvPass
  cases hh : recvHeader E s buf with
  | exit st s1 tr => exact Or.inl ⟨st, s1, tr, rfl, rfl⟩
  | done s1 buf1 tr =>
    refine Or.inr ⟨s1, buf1, tr, rfl, ?_⟩
    dsimp only
    cases hsz : readField buf1 E.L.sizeOff 8 with
    | none => exact Or.inl ⟨rfl, rfl⟩
    | some msg_size =>
      refine Or.inr ⟨msg_size, rfl, ?_⟩
      dsimp only
      by_cases hm : E.malloc_ok msg_size = false
      · exact Or.inl ⟨hm, by simp only [if_pos hm]⟩
      · by_cases hle : msg_size ≤ buf1.length
        · exact Or.inr (Or.inl ⟨hle, by simp only [if_neg hm, if_pos hle]⟩)
        · have hlt : buf1.length < msg_size := Nat.not_le.mp hle
          simp only [if_neg hm, if_neg hle]
          cases hr : read_exact E s1 (msg_size - buf1.length) with
          | ok bs s2 => exact Or.inr (Or.inr (Or.inl ⟨hlt, bs, s2, rfl, rfl⟩))
          | err ret s2 =>
            refine Or.inr (Or.inr (Or.inr ⟨hlt, ?_⟩))
            by_cases hneg : ret < 0
            · exact ⟨Status.ret ret, s2, by simp only [if_pos hneg],
                Or.inl ⟨ret, rfl, Or.inl ⟨hneg, rfl⟩⟩⟩
            · exact ⟨Status.undef, s2, by simp only [if_neg hneg],
                Or.inl ⟨ret, rfl, Or.inr ⟨hneg, rfl⟩⟩⟩
          | blocked s2 =>
            exact Or.inr (Or.inr (Or.inr ⟨hlt, Status.blocked, s2, rfl,
              Or.inr (Or.inl ⟨rfl, rfl⟩)⟩))
          | diverge s2 =>
            exact Or.inr (Or.inr (Or.inr ⟨hlt, Status.diverge, s2, rfl,
              Or.inr (Or.inr ⟨rfl, rfl⟩)⟩))

/-! ## Lemmas: a closed stream never blocks a read -/

theorem DkStreamRead_closed (s : Stream) (req : Nat) :
    (DkStreamRead s req).2.closed = s.closed ∧
      ((DkStreamRead s req).1 = ReadRes.block → s.closed = false) := by
  obtain ⟨p, c⟩ := s
  cases p with
  | nil => cases c <;> simp [DkStreamRead]
  | cons e rest =>
    cases e with
    | data bs =>
      by_cases hle : bs.length ≤ req <;> simp [DkStreamRead, hle]
    | transient => simp [DkStreamRead]
    | fail pal => simp [DkStreamRead]

theorem recvHeaderLoop_closed (E : Env) : ∀ (n : Nat) (s : Stream) (buf : List Nat),
    s.closed = true →
    (∀ s1 b tr, recvHeaderLoop E n s buf = HdrRes.done s1 b tr → s1.closed = true) ∧
      ∀ st s1 tr, recvHeaderLoop E n s buf = HdrRes.exit st s1 tr →
        (st = Status.blocked → False) ∧ (n ≠ 0 → s1.closed = true) := by
  intro n
  induction n with
  | zero =>
    intro s buf hc
    refine ⟨?_, ?_⟩
    · intro s1 b tr h
      simp only [recvHeaderLoop] at h
      cases h
    · intro st s1 tr h
      simp only [recvHeaderLoop, HdrRes.exit.injEq] at h
      obtain ⟨rfl, rfl, _⟩ := h
      exact ⟨(fun h => by cases h), fun h => absurd rfl h⟩
  | succ n ih =>
    intro s buf hc
    by_cases hb : buf.length < E.L.IPC_MSG_MINIMAL_SIZE
    · obtain ⟨hcl, hbl⟩ := DkStreamRead_closed s (E.L.bufSize - buf.length)
      cases hread : DkStreamRead s (E.L.bufSize - buf.length) with
      | mk res s0 =>
        rw [hread] at hcl hbl
        have hc0 : s0.closed = true := hcl.trans hc
        cases res with
        | block =>
          have := hbl rfl
          rw [hc] at this
          cases this
        | fail pal =>
          simp only [recvHeaderLoop, if_pos hb, hread]
          refine ⟨(fun s1 b tr h => by cases h), ?_⟩
          intro st s1 tr h
          simp only [HdrRes.exit.injEq] at h
          obtain ⟨rfl, rfl, _⟩ := h
          exact ⟨(fun h => by cases h), fun _ => hc0⟩
        | transient =>
          obtain ⟨i1, i2⟩ := ih s0 buf hc0
          simp only [recvHeaderLoop, if_pos hb, hread]
          cases hrec : recvHeaderLoop E n s0 buf with
          | done a b t =>
            refine ⟨?_, fun st s1 tr h => by cases h⟩
            intro s1 b1 tr h
            simp only [HdrRes.done.injEq] at h
            obtain ⟨rfl, _, _⟩ := h
            exact i1 _ _ _ hrec
          | exit st0 a t =>
            refine ⟨(fun s1 b tr h => by cases h), ?_⟩
            intro st s1 tr h
            simp only [HdrRes.exit.injEq] at h
            obtain ⟨rfl, rfl, _⟩ := h
            obtain ⟨j1, j2⟩ := i2 _ _ _ hrec
            refine ⟨j1, fun _ => ?_⟩
            cases n with
            | zero =>
              simp only [recvHeaderLoop, HdrRes.exit.injEq] at hrec
              rw [← hrec.2.1]
              exact hc0
            | succ k => exact j2 (Nat.succ_ne_zero k)
        | bytes bs =>
          by_cases hz : bs.length = 0
          · simp only [recvHeaderLoop, if_pos hb, hread, if_pos hz]
            refine ⟨?_, ?_⟩
            · intro s1 b tr h
              split at h <;> cases h
            · intro st s1 tr h
              split at h
              · simp only [HdrRes.exit.injEq] at h
                obtain ⟨rfl, rfl, _⟩ := h
                exact ⟨(fun h => by cases h), fun _ => hc0⟩
              · simp only [HdrRes.exit.injEq] at h
                obtain ⟨rfl, rfl, _⟩ := h
                exact ⟨(fun h => by cases h), fun _ => hc0⟩
          · obtain ⟨i1, i2⟩ := ih s0 (buf ++ bs) hc0
            simp only [recvHeaderLoop, if_pos hb, hread, if_neg hz]
            cases hrec : recvHeaderLoop E n s0 (buf ++ bs) with
            | done a b t =>
              refine ⟨?_, fun st s1 tr h => by cases h⟩
              intro s1 b1 tr h
              simp only [HdrRes.done.injEq] at h
              obtain ⟨rfl, _, _⟩ := h
              exact i1 _ _ _ hrec
            | exit st0 a t =>
              refine ⟨(fun s1 b tr h => by cases h), ?_⟩
              intro st s1 tr h
              simp only [HdrRes.exit.injEq] at h
              obtain ⟨rfl, rfl, _⟩ := h
              obtain ⟨j1, j2⟩ := i2 _ _ _ hrec
              refine ⟨j1, fun _ => ?_⟩
              cases n with
              | zero =>
                simp only [recvHeaderLoop, HdrRes.exit.injEq] at hrec
                rw [← hrec.2.1]
                exact hc0
              | succ k => exact j2 (Nat.succ_ne_zero k)
    · have hge : E.L.IPC_MSG_MINIMAL_SIZE ≤ buf.length := Nat.le_of_not_lt hb
      rw [recvHeaderLoop_done E n s buf hge]
      refine ⟨?_, fun st s1 tr h => by cases h⟩
      intro s1 b tr h
      simp only [HdrRes.done.injEq] at h
      rw [← h.1]
      exact hc

theorem read_exact_loop_closed (E : Env) : ∀ (n : Nat) (s : Stream) (need : Nat)
    (acc : List Nat), s.closed = true →
    (∀ bs s2, read_exact_loop E n s need acc = ExactRes.ok bs s2 → s2.closed = true) ∧
      ∀ s2, read_exact_loop E n s need acc ≠ ExactRes.blocked s2 := by
  intro n
  induction n with
  | zero =>
    intro s need acc _
    exact ⟨(fun bs s2 h => by simp only [read_exact_loop] at h; cases h),
      fun s2 h => by simp only [read_exact_loop] at h; cases h⟩
  | succ n ih =>
    intro s need acc hc
    by_cases hneed : 0 < need
    · obtain ⟨hcl, hbl⟩ := DkStreamRead_closed s need
      cases hread : DkStreamRead s need with
      | mk res s0 =>
        rw [hread] at hcl hbl
        have hc0 : s0.closed = true := hcl.trans hc
        cases res with
        | block =>
          have := hbl rfl
          rw [hc] at this
          cases this
        | fail pal =>
          simp only [read_exact_loop, if_pos hneed, hread]
          exact ⟨(fun bs s2 h => by cases h), fun s2 h => by cases h⟩
        | transient =>
          simp only [read_exact_loop, if_pos hneed, hread]
          exact ih s0 need acc hc0
        | bytes bs =>
          by_cases hz : bs.length = 0
          · simp only [read_exact_loop, if_pos hneed, hread, if_pos hz]
            exact ⟨(fun bs s2 h => by cases h), fun s2 h => by cases h⟩
          · simp only [read_exact_loop, if_pos hneed, hread, if_neg hz]
            exact ih s0 (need - bs.length) (acc ++ bs) hc0
    · simp only [read_exact_loop, if_neg hneed]
      refine ⟨?_, fun s2 h => by cases h⟩
      intro bs s2 h
      simp only [ExactRes.ok.injEq] at h
      rw [← h.2]
      exact hc

theorem read_exact_loop_err_neg (E : Env) (hE : E.ErrorsNegative) : ∀ (n : Nat) (s : Stream)
    (need : Nat) (acc : List Nat) (ret : Int) (s2 : Stream),
    read_exact_loop E n s need acc = ExactRes.err ret s2 → ret < 0 := by
  intro n
  induction n with
  | zero =>
    intro s need acc ret s2 h
    simp only [read_exact_loop] at h
    cases h
  | succ n ih =>
    intro s need acc ret s2 h
    by_cases hneed : 0 < need
    · cases hread : DkStreamRead s need with
      | mk res s0 =>
        cases res with
        | block =>
          simp only [read_exact_loop, if_pos hneed, hread] at h
          cases h
        | fail pal =>
          simp only [read_exact_loop, if_pos hneed, hread, ExactRes.err.injEq] at h
          rw [← h.1]
          exact hE.2.2 pal
        | transient =>
          simp only [read_exact_loop, if_pos hneed, hread] at h
          exact ih _ _ _ _ _ h
        | bytes bs =>
          by_cases hz : bs.length = 0
          · simp only [read_exact_loop, if_pos hneed, hread, if_pos hz, ExactRes.err.injEq] at h
            have := hE.2.1
            omega
          · simp only [read_exact_loop, if_pos hneed, hread, if_neg hz] at h
            exact ih _ _ _ _ _ h
    · simp only [read_exact_loop, if_neg hneed] at h
      cases h

/-! ## Lemmas: how a dispatch can end -/

theorem callbacks_status (E : Env) (code : Nat) (h : Handler) (m : List Nat) (vmid : Nat)
    (hh : ipc_callbacks E code = some h) :
    (h m vmid).1 ≠ Status.diverge ∧ (h m vmid).1 ≠ Status.blocked := by
  unfold ipc_callbacks at hh
  split at hh
  · cases hh
    unfold ipc_resp_callback
    split
    · exact ⟨(fun h => by cases h), fun h => by cases h⟩
    · split
      · exact ⟨(fun h => by cases h), fun h => by cases h⟩
      · split
        · exact ⟨(fun h => by cases h), fun h => by cases h⟩
        · exact ⟨(fun h => by cases h), fun h => by cases h⟩
  · split at hh
    · cases hh
      unfold ipc_connect_back_callback
      split
      · exact ⟨(fun h => by cases h), fun h => by cases h⟩
      · exact ⟨(fun h => by cases h), fun h => by cases h⟩
    · obtain ⟨f, _, rfl⟩ := Option.map_eq_some'.mp hh
      exact ⟨(fun h => by cases h), fun h => by cases h⟩

theorem dispatch_status (E : Env) (vmid : Nat) (m : List Nat) (st : Status)
    (h : (dispatch E vmid m).1 = some st) : st ≠ Status.diverge ∧ st ≠ Status.blocked := by
  unfold dispatch at h
  split at h
  · cases h; exact ⟨(fun h => by cases h), fun h => by cases h⟩
  · split at h
    · cases h; exact ⟨(fun h => by cases h), fun h => by cases h⟩
    · split at h
      · cases h; exact ⟨(fun h => by cases h), fun h => by cases h⟩
      · split at h
        · split at h
          · cases h
          · rename_i hd hh
            have hq := callbacks_status E _ hd m vmid hh
            split at h
            · split at h
              · split at h
                · cases h; exact ⟨(fun h => by cases h), fun h => by cases h⟩
                · split at h
                  · dsimp only at h
                    split at h
                    · cases h; exact ⟨(fun h => by cases h), fun h => by cases h⟩
                    · cases h
                  · cases h
              · cases h
            · rename_i st1 evs _ heq
              cases h
              rw [heq] at hq
              exact hq
        · cases h

theorem dispatch_returns (E : Env) (vmid : Nat) (m : List Nat) (st : Status) (hL : E.L.WF)
    (hmin : E.L.IPC_MSG_MINIMAL_SIZE ≤ m.length)
    (hsrc : readField m E.L.srcOff E.L.idWidth = some vmid)
    (h : (dispatch E vmid m).1 = some st) : ∃ v, st = Status.ret v := by
  have hL1 := hL
  obtain ⟨_, hc, _, _, hq, hr⟩ := hL1
  obtain ⟨code, hcode⟩ := readField_isSome m E.L.codeOff E.L.codeWidth (by omega)
  obtain ⟨seq, hseq⟩ := readField_isSome m E.L.seqOff 8 (by omega)
  unfold dispatch at h
  simp only [hsrc, hcode, hseq, ne_eq, not_true_eq_false, if_false] at h
  split at h
  · split at h
    · cases h
    · rename_i hd hh
      obtain ⟨r, evs, hret⟩ := callbacks_return E code hd m vmid hL hmin hsrc hh
      simp only [hret] at h
      split at h
      · split at h
        · split at h
          · cases h
            exact ⟨_, rfl⟩
          · cases h
        · cases h
      · cases h
  · cases h

theorem passDispatch_cases (E : Env) (vmid : Nat) (s : Stream) (msg rest : List Nat)
    (tr : List Event) :
    (∃ st, (dispatch E vmid msg).1 = some st ∧ passDispatch E vmid s msg rest tr =
        Pass.final ⟨st, s, tr ++ Event.dispatch msg :: (dispatch E vmid msg).2⟩) ∨
      ((dispatch E vmid msg).1 = none ∧ passDispatch E vmid s msg rest tr =
        Pass.next s rest (tr ++ Event.dispatch msg :: (dispatch E vmid msg).2)) := by
  unfold passDispatch
  cases hd : dispatch E vmid msg with
  | mk o evs =>
    cases o with
    | some st => exact Or.inl ⟨st, rfl, rfl⟩
    | none => exact Or.inr ⟨rfl, rfl⟩

theorem recvHeaderLoop_exit_status (E : Env) : ∀ (n : Nat) (s : Stream) (buf : List Nat)
    (st : Status) (s1 : Stream) (tr : List Event),
    recvHeaderLoop E n s buf = HdrRes.exit st s1 tr →
    (∃ v, st = Status.ret v) ∨ st = Status.blocked ∨ st = Status.diverge := by
  intro n
  induction n with
  | zero =>
    intro s buf st s1 tr h
    simp only [recvHeaderLoop, HdrRes.exit.injEq] at h
    exact Or.inr (Or.inr h.1.symm)
  | succ n ih =>
    intro s buf st s1 tr h
    by_cases hb : buf.length < E.L.IPC_MSG_MINIMAL_SIZE
    · cases hread : DkStreamRead s (E.L.bufSize - buf.length) with
      | mk res s0 =>
        cases res with
        | block =>
          simp only [recvHeaderLoop, if_pos hb, hread, HdrRes.exit.injEq] at h
          exact Or.inr (Or.inl h.1.symm)
        | fail pal =>
          simp only [recvHeaderLoop, if_pos hb, hread, HdrRes.exit.injEq] at h
          exact Or.inl ⟨_, h.1.symm⟩
        | transient =>
          simp only [recvHeaderLoop, if_pos hb, hread] at h
          cases hrec : recvHeaderLoop E n s0 buf with
          | done a b t => rw [hrec] at h; cases h
          | exit st0 a t =>
            rw [hrec] at h
            simp only [HdrRes.exit.injEq] at h
            rw [← h.1]
            exact ih _ _ _ _ _ hrec
        | bytes bs =>
          by_cases hz : bs.length = 0
          · simp only [recvHeaderLoop, if_pos hb, hread, if_pos hz] at h
            split at h
            · simp only [HdrRes.exit.injEq] at h
              exact Or.inl ⟨_, h.1.symm⟩
            · simp only [HdrRes.exit.injEq] at h
              exact Or.inl ⟨_, h.1.symm⟩
          · simp only [recvHeaderLoop, if_pos hb, hread, if_neg hz] at h
            cases hrec : recvHeaderLoop E n s0 (buf ++ bs) with
            | done a b t => rw [hrec] at h; cases h
            | exit st0 a t =>
              rw [hrec] at h
              simp only [HdrRes.exit.injEq] at h
              rw [← h.1]
              exact ih _ _ _ _ _ hrec
    · have hge : E.L.IPC_MSG_MINIMAL_SIZE ≤ buf.length := Nat.le_of_not_lt hb
      rw [recvHeaderLoop_done E n s buf hge] at h
      cases h

theorem recvPass_final_status (E : Env) (vmid : Nat) (s : Stream) (buf : List Nat) (o : Out)
    (h : recvPass E vmid s buf = Pass.final o) :
    o.status ≠ Status.diverge ∧ (s.closed = true → o.status ≠ Status.blocked) := by
  rcases recvPass_shape E vmid s buf with ⟨st, s1, tr, hh, hp⟩ | ⟨s1, buf1, tr, hh, hrest⟩
  · rw [hp] at h
    cases h
    refine ⟨?_, ?_⟩
    · intro hd
      simp only at hd
      subst hd
      exact recvHeader_never_diverges E s buf s1 tr hh
    · intro hc hb
      exact (((recvHeaderLoop_closed E _ s buf hc).2 st s1 tr hh).1) hb
  · have hc1 : s.closed = true → s1.closed = true := fun hc =>
      (recvHeaderLoop_closed E _ s buf hc).1 s1 buf1 tr hh
    rcases hrest with ⟨_, hp⟩ | ⟨msg_size, _, hrest⟩
    · rw [hp] at h
      cases h
      exact ⟨(fun h => by cases h), fun _ h => by cases h⟩
    · rcases hrest with ⟨_, hp⟩ | ⟨_, hp⟩ | ⟨_, bs, s2, _, hp⟩ | ⟨_, st, s2, hp, hst⟩
      · rw [hp] at h
        cases h
        exact ⟨(fun h => by cases h), fun _ h => by cases h⟩
      · rw [hp] at h
        rcases passDispatch_cases E vmid s1 (buf1.take msg_size) (buf1.drop msg_size) tr with
          ⟨st, hd, hq⟩ | ⟨_, hq⟩
        · rw [hq] at h
          cases h
          have := dispatch_status E vmid _ st hd
          exact ⟨this.1, fun _ => this.2⟩
        · rw [hq] at h
          cases h
      · rw [hp] at h
        rcases passDispatch_cases E vmid s2 (buf1 ++ bs) []
          (tr ++ [Event.readExact (msg_size - buf1.length)]) with ⟨st, hd, hq⟩ | ⟨_, hq⟩
        · rw [hq] at h
          cases h
          have := dispatch_status E vmid _ st hd
          exact ⟨this.1, fun _ => this.2⟩
        · rw [hq] at h
          cases h
      · rw [hp] at h
        cases h
        rcases hst with ⟨ret, _, ⟨_, hr⟩ | ⟨_, hr⟩⟩ | ⟨hr, hst⟩ | ⟨hr, _⟩
        · subst hr
          exact ⟨(fun h => by cases h), fun _ h => by cases h⟩
        · subst hr
          exact ⟨(fun h => by cases h), fun _ h => by cases h⟩
        · subst hst
          refine ⟨(fun h => by cases h), ?_⟩
          intro hc _
          exact (read_exact_loop_closed E _ s1 _ [] (hc1 hc)).2 s2 hr
        · exact absurd hr (read_exact_never_diverges E s1 _ s2)

theorem dispatched_pass_trace (E : Env) (vmid : Nat) (msg : List Nat) (tr : List Event)
    (htr : dispatched tr = []) :
    dispatched (tr ++ Event.dispatch msg :: (dispatch E vmid msg).2) = [msg] := by
  simp [dispatched_append, dispatched, htr, dispatched_dispatch]

theorem recvPass_final_returns (E : Env) (vmid : Nat) (s : Stream) (buf : List Nat) (o : Out)
    (hL : E.L.WF) (hE : E.ErrorsNegative) (hc : s.closed = true)
    (h : recvPass E vmid s buf = Pass.final o)
    (hm : ∀ m ∈ dispatched o.trace,
      E.L.IPC_MSG_MINIMAL_SIZE ≤ m.length ∧ readField m E.L.srcOff E.L.idWidth = some vmid) :
    ∃ v, o.status = Status.ret v := by
  rcases recvPass_shape E vmid s buf with ⟨st, s1, tr, hh, hp⟩ | ⟨s1, buf1, tr, hh, hrest⟩
  · rw [hp] at h
    cases h
    rcases recvHeaderLoop_exit_status E _ s buf st s1 tr hh with hv | hb | hd
    · exact hv
    · exact absurd hb ((recvHeaderLoop_closed E _ s buf hc).2 st s1 tr hh).1
    · subst hd
      exact absurd hh (recvHeader_never_diverges E s buf s1 tr)
  · have hc1 : s1.closed = true := (recvHeaderLoop_closed E _ s buf hc).1 s1 buf1 tr hh
    obtain ⟨hlen, _, hreads⟩ := recvHeaderLoop_done_inv E _ _ _ _ _ _ hh
    have hd0 : dispatched tr = [] := dispatched_onlyReads hreads
    rcases hrest with ⟨hnone, _⟩ | ⟨msg_size, _, hrest⟩
    · obtain ⟨v, hv⟩ := readField_isSome buf1 E.L.sizeOff 8 (by have := hL.2.2.1; omega)
      rw [hv] at hnone
      cases hnone
    · rcases hrest with ⟨_, hp⟩ | ⟨_, hp⟩ | ⟨_, bs, s2, _, hp⟩ | ⟨_, st, s2, hp, hst⟩
      · rw [hp] at h
        cases h
        exact ⟨_, rfl⟩
      · rw [hp] at h
        rcases passDispatch_cases E vmid s1 (buf1.take msg_size) (buf1.drop msg_size) tr with
          ⟨st, hd, hq⟩ | ⟨_, hq⟩
        · rw [hq] at h
          cases h
          have hmem := hm (buf1.take msg_size) (by
            rw [dispatched_pass_trace E vmid _ tr hd0]
            exact List.mem_singleton_self _)
          exact dispatch_returns E vmid _ st hL hmem.1 hmem.2 hd
        · rw [hq] at h
          cases h
      · rw [hp] at h
        have hd1 : dispatched (tr ++ [Event.readExact (msg_size - buf1.length)]) = [] := by
          simp [dispatched_append, hd0, dispatched]
        rcases passDispatch_cases E vmid s2 (buf1 ++ bs) []
          (tr ++ [Event.readExact (msg_size - buf1.length)]) with ⟨st, hd, hq⟩ | ⟨_, hq⟩
        · rw [hq] at h
          cases h
          have hmem := hm (buf1 ++ bs) (by
            rw [dispatched_pass_trace E vmid _ _ hd1]
            exact List.mem_singleton_self _)
          exact dispatch_returns E vmid _ st hL hmem.1 hmem.2 hd
        · rw [hq] at h
          cases h
      · rw [hp] at h
        cases h
        rcases hst with ⟨ret, hr, ⟨_, hst⟩ | ⟨hnn, _⟩⟩ | ⟨hr, _⟩ | ⟨hr, _⟩
        · exact ⟨ret, hst⟩
        · exact absurd (read_exact_loop_err_neg E hE _ _ _ _ _ _ hr) hnn
        · exact absurd hr ((read_exact_loop_closed E _ s1 _ [] hc1).2 s2)
        · exact absurd hr (read_exact_never_diverges E s1 _ s2)

theorem recvPass_next_progress (E : Env) (vmid : Nat) (s : Stream) (buf : List Nat)
    (s3 : Stream) (buf3 : List Nat) (tr3 : List Event)
    (h : recvPass E vmid s buf = Pass.next s3 buf3 tr3) :
    (s.closed = true → s3.closed = true) ∧
      ∃ m, dispatched tr3 = [m] ∧
        m.length + (buf3.length + (bytesOf s3.pending).length) =
          buf.length + (bytesOf s.pending).length ∧
        ∃ sh bh th, recvHeader E s buf = HdrRes.done sh bh th ∧
          readField bh E.L.sizeOff 8 = some m.length := by
  rcases recvPass_shape E vmid s buf with ⟨st, s1, tr, hh, hp⟩ | ⟨s1, buf1, tr, hh, hrest⟩
  · rw [hp] at h
    cases h
  · have hc1 : s.closed = true → s1.closed = true := fun hc =>
      (recvHeaderLoop_closed E _ s buf hc).1 s1 buf1 tr hh
    obtain ⟨hlen, hcons, hreads⟩ := recvHeaderLoop_done_inv E _ _ _ _ _ _ hh
    have hcount : buf1.length + (bytesOf s1.pending).length =
        buf.length + (bytesOf s.pending).length := by
      have := congrArg List.length hcons
      simpa only [List.length_append] using this
    have hd0 : dispatched tr = [] := dispatched_onlyReads hreads
    rcases hrest with ⟨_, hp⟩ | ⟨msg_size, hsize, hrest⟩
    · rw [hp] at h
      cases h
    · rcases hrest with ⟨_, hp⟩ | ⟨hle, hp⟩ | ⟨hlt, bs, s2, hex, hp⟩ | ⟨_, st, s2, hp, _⟩
      · rw [hp] at h
        cases h
      · rw [hp] at h
        rcases passDispatch_cases E vmid s1 (buf1.take msg_size) (buf1.drop msg_size) tr with
          ⟨st, hd, hq⟩ | ⟨_, hq⟩
        · rw [hq] at h
          cases h
        · rw [hq] at h
          simp only [Pass.next.injEq] at h
          obtain ⟨e1, e2, e3⟩ := h
          rw [← e1, ← e2, ← e3]
          refine ⟨hc1, buf1.take msg_size, dispatched_pass_trace E vmid _ tr hd0, ?_,
            s1, buf1, tr, hh, ?_⟩
          · simp only [List.length_take, List.length_drop]
            omega
          · rw [hsize, List.length_take, Nat.min_eq_left hle]
      · rw [hp] at h
        have hd1 : dispatched (tr ++ [Event.readExact (msg_size - buf1.length)]) = [] := by
          simp [dispatched_append, hd0, dispatched]
        obtain ⟨got, hb, hgl, hgc⟩ := read_exact_loop_ok_inv E _ _ _ _ _ _ hex
        have hcount2 : got.length + (bytesOf s2.pending).length = (bytesOf s1.pending).length := by
          have := congrArg List.length hgc
          simpa only [List.length_append] using this
        rcases passDispatch_cases E vmid s2 (buf1 ++ bs) []
          (tr ++ [Event.readExact (msg_size - buf1.length)]) with ⟨st, hd, hq⟩ | ⟨_, hq⟩
        · rw [hq] at h
          cases h
        · rw [hq] at h
          simp only [Pass.next.injEq] at h
          obtain ⟨e1, e2, e3⟩ := h
          rw [← e1, ← e2, ← e3]
          have hbl : bs.length = msg_size - buf1.length := by
            rw [hb]
            simp only [List.nil_append, hgl]
          refine ⟨fun hc => (read_exact_loop_closed E _ s1 _ [] (hc1 hc)).1 _ _ hex,
            buf1 ++ bs, dispatched_pass_trace E vmid _ _ hd1, ?_, s1, buf1, tr, hh, ?_⟩
          · rw [hb] at hbl ⊢
            simp only [List.length_append, List.length_nil, List.nil_append] at hbl ⊢
            omega
          · rw [hsize]
            simp only [List.length_append, hbl]
            congr 1
            omega
      · rw [hp] at h
        cases h

theorem recvLoop_ends (E : Env) (vmid : Nat) : ∀ (fuel : Nat) (s : Stream) (buf : List Nat),
    buf.length + (bytesOf s.pending).length < fuel →
    (∀ m ∈ dispatched (recvLoop E vmid fuel s buf).trace, m ≠ []) →
    (recvLoop E vmid fuel s buf).status ≠ Status.diverge ∧
      (s.closed = true → (recvLoop E vmid fuel s buf).status ≠ Status.blocked) ∧
      (E.L.WF → E.ErrorsNegative → s.closed = true →
        (∀ m ∈ dispatched (recvLoop E vmid fuel s buf).trace,
          E.L.IPC_MSG_MINIMAL_SIZE ≤ m.length ∧
            readField m E.L.srcOff E.L.idWidth = some vmid) →
        ∃ v, (recvLoop E vmid fuel s buf).status = Status.ret v) := by
  intro fuel
  induction fuel with
  | zero => intro s buf h; omega
  | succ fuel ih =>
    intro s buf hfuel hne
    cases hp : recvPass E vmid s buf with
    | final o =>
      have hl : recvLoop E vmid (fuel + 1) s buf = o := by simp only [recvLoop, hp]
      rw [hl] at hne ⊢
      obtain ⟨h1, h2⟩ := recvPass_final_status E vmid s buf o hp
      exact ⟨h1, h2, fun hL hE hc hm => recvPass_final_returns E vmid s buf o hL hE hc hp hm⟩
    | next s1 buf1 tr =>
      obtain ⟨hc1, m, hdm, hcount, _⟩ := recvPass_next_progress E vmid s buf s1 buf1 tr hp
      by_cases hb : 0 < buf1.length
      · have hl : recvLoop E vmid (fuel + 1) s buf = (recvLoop E vmid fuel s1 buf1).after tr := by
          simp only [recvLoop, hp, if_pos hb]
        rw [hl] at hne ⊢
        have htr : dispatched ((recvLoop E vmid fuel s1 buf1).after tr).trace =
            m :: dispatched (recvLoop E vmid fuel s1 buf1).trace := by
          simp only [Out.after, dispatched_append, hdm, List.singleton_append]
        rw [htr] at hne
        have hmne : m ≠ [] := hne m (List.mem_cons_self _ _)
        have hmpos : 0 < m.length := List.length_pos.mpr hmne
        obtain ⟨i1, i2, i3⟩ := ih s1 buf1 (by omega)
          (fun x hx => hne x (List.mem_cons_of_mem _ hx))
        refine ⟨i1, fun hc => i2 (hc1 hc), ?_⟩
        intro hL hE hc hm
        rw [htr] at hm
        exact i3 hL hE (hc1 hc) (fun x hx => hm x (List.mem_cons_of_mem _ hx))
      · have hl : recvLoop E vmid (fuel + 1) s buf = ⟨Status.ret 0, s1, tr⟩ := by
          simp only [recvLoop, hp, if_neg hb]
        rw [hl]
        exact ⟨(fun h => by cases h), (fun _ h => by cases h), fun _ _ _ _ => ⟨0, rfl⟩⟩

/-! ## Lemmas on the scratch buffer -/

theorem bufRun_append (cap : Nat) : ∀ (a b : List Event) (st : BufState),
    bufRun cap st (a ++ b) = (bufRun cap st a).bind (fun st1 => bufRun cap st1 b) := by
  intro a
  induction a with
  | nil => intro b st; rfl
  | cons e a ih =>
    intro b st
    simp only [List.cons_append, bufRun]
    cases bufStep cap st e with
    | none => rfl
    | some st1 => exact ih b st1

theorem bufRun_inert (cap : Nat) : ∀ (tr : List Event) (st : BufState),
    tr.all inert = true → bufRun cap st tr = some st := by
  intro tr
  induction tr with
  | nil => intro st _; rfl
  | cons e tr ih =>
    intro st h
    simp only [List.all_cons, Bool.and_eq_true] at h
    have hs : bufStep cap st e = some st := by
      cases e <;> first | rfl | (simp only [inert] at h; cases h.1)
    simp only [bufRun, hs]
    exact ih st h.2

theorem callbacks_inert (E : Env) (code : Nat) (h : Handler) (m : List Nat) (vmid : Nat)
    (hh : ipc_callbacks E code = some h) : (h m vmid).2.all inert = true := by
  unfold ipc_callbacks at hh
  split at hh
  · cases hh
    unfold ipc_resp_callback
    split
    · rfl
    · split
      · rfl
      · split <;> rfl
  · split at hh
    · cases hh
      unfold ipc_connect_back_callback
      split <;> rfl
    · obtain ⟨f, _, rfl⟩ := Option.map_eq_some'.mp hh
      rfl

theorem dispatch_inert (E : Env) (vmid : Nat) (m : List Nat) :
    (dispatch E vmid m).2.all inert = true := by
  unfold dispatch
  split
  · rfl
  · split
    · rfl
    · split
      · rfl
      · split
        · split
          · rfl
          · rename_i h hh
            have hq := callbacks_inert E _ h m vmid hh
            split
            · rename_i ret evs heq
              rw [heq] at hq
              simp only at hq
              split
              · split
                · simp [hq, inert]
                · split
                  · dsimp only
                    split <;> simp [hq, inert, send_ipc_response]
                  · simp [hq, inert]
              · simp [hq, inert]
            · rename_i st evs _ heq
              rw [heq] at hq
              exact hq
        · rfl

theorem recvHeaderLoop_step_retry (E : Env) (n : Nat) (s s0 : Stream) (buf : List Nat)
    (hb : buf.length < E.L.IPC_MSG_MINIMAL_SIZE)
    (hread : DkStreamRead s (E.L.bufSize - buf.length) = (ReadRes.transient, s0)) :
    recvHeaderLoop E (n + 1) s buf =
      (recvHeaderLoop E n s0 buf).pre
        (Event.streamRead (E.L.bufSize - buf.length) ReadRes.transient) := by
  simp only [recvHeaderLoop, if_pos hb, hread]
  cases recvHeaderLoop E n s0 buf <;> rfl

theorem hdr_pre_trace (e : Event) (r : HdrRes) : (r.pre e).trace = e :: r.trace := by
  cases r <;> rfl

theorem hdr_pre_done (e : Event) (r : HdrRes) (s1 : Stream) (b : List Nat) (tr : List Event)
    (h : r.pre e = HdrRes.done s1 b tr) : ∃ tr0, r = HdrRes.done s1 b tr0 := by
  cases r with
  | done a b0 t =>
    simp only [HdrRes.pre, HdrRes.done.injEq] at h
    obtain ⟨rfl, rfl, _⟩ := h
    exact ⟨t, rfl⟩
  | exit st a t => simp only [HdrRes.pre] at h; cases h

theorem bufStep_read (cap k req : Nat) (res : ReadRes) (hk : k + req ≤ cap) (hreq : 0 < req)
    (hres : ∀ bs, res = ReadRes.bytes bs → bs.length ≤ req) :
    bufStep cap ⟨k, none⟩ (Event.streamRead req res) =
      some ⟨k + (match res with | ReadRes.bytes bs => bs.length | _ => 0), none⟩ := by
  have hc : k ≤ cap ∧ 0 < req ∧ k + req ≤ cap := ⟨by omega, hreq, hk⟩
  cases res with
  | bytes bs =>
    have := hres bs rfl
    simp only [bufStep, hc, and_self, if_true, if_pos this]
  | transient => simp only [bufStep, hc, and_self, if_true, Nat.add_zero]
  | fail pal => simp only [bufStep, hc, and_self, if_true, Nat.add_zero]
  | block => simp only [bufStep, hc, and_self, if_true, Nat.add_zero]

theorem recvHeaderLoop_buf (E : Env) : ∀ (n : Nat) (s : Stream) (buf : List Nat),
    buf.length ≤ E.L.bufSize →
    ∃ k, bufRun E.L.bufSize ⟨buf.length, none⟩ (recvHeaderLoop E n s buf).trace =
        some ⟨k, none⟩ ∧ k ≤ E.L.bufSize ∧
      ∀ s1 b tr, recvHeaderLoop E n s buf = HdrRes.done s1 b tr → k = b.length := by
  intro n
  induction n with
  | zero =>
    intro s buf hle
    exact ⟨buf.length, rfl, hle, fun s1 b tr h => by simp only [recvHeaderLoop] at h; cases h⟩
  | succ n ih =>
    intro s buf hle
    by_cases hb : buf.length < E.L.IPC_MSG_MINIMAL_SIZE
    · have hcap : E.L.bufSize = E.L.IPC_MSG_MINIMAL_SIZE + (0x20 + E.L.IPC_MSG_MINIMAL_SIZE) :=
        rfl
      have hreq : 0 < E.L.bufSize - buf.length := by omega
      have hfit : buf.length + (E.L.bufSize - buf.length) ≤ E.L.bufSize := by omega
      cases hread : DkStreamRead s (E.L.bufSize - buf.length) with
      | mk res s0 =>
        cases res with
        | block =>
          have hs := bufStep_read E.L.bufSize buf.length _ ReadRes.block hfit hreq
            (fun bs h => by cases h)
          simp only [Nat.add_zero] at hs
          refine ⟨buf.length, ?_, hle, ?_⟩
          · simp only [recvHeaderLoop, if_pos hb, hread, HdrRes.trace, bufRun, hs]
          · intro s1 b tr h
            simp only [recvHeaderLoop, if_pos hb, hread] at h
            cases h
        | fail pal =>
          have hs := bufStep_read E.L.bufSize buf.length _ (ReadRes.fail pal) hfit hreq
            (fun bs h => by cases h)
          simp only [Nat.add_zero] at hs
          refine ⟨buf.length, ?_, hle, ?_⟩
          · simp only [recvHeaderLoop, if_pos hb, hread, HdrRes.trace, bufRun, hs]
          · intro s1 b tr h
            simp only [recvHeaderLoop, if_pos hb, hread] at h
            cases h
        | transient =>
          have hs := bufStep_read E.L.bufSize buf.length _ ReadRes.transient hfit hreq
            (fun bs h => by cases h)
          simp only [Nat.add_zero] at hs
          obtain ⟨k, h1, h2, h3⟩ := ih s0 buf hle
          refine ⟨k, ?_, h2, ?_⟩
          · rw [recvHeaderLoop_step_retry E n s s0 buf hb hread, hdr_pre_trace]
            simp only [bufRun, hs]
            exact h1
          · intro s1 b tr h
            rw [recvHeaderLoop_step_retry E n s s0 buf hb hread] at h
            obtain ⟨tr0, h0⟩ := hdr_pre_done _ _ _ _ _ h
            exact h3 s1 b tr0 h0
        | bytes bs =>
          have hbs : bs.length ≤ E.L.bufSize - buf.length :=
            (DkStreamRead_bytes s s0 _ bs hread).1
          have hstep := bufStep_read E.L.bufSize buf.length _ (ReadRes.bytes bs) hfit hreq
            (fun x h => by cases h; exact hbs)
          simp only at hstep
          by_cases hz : bs.length = 0
          · refine ⟨buf.length + bs.length, ?_, by omega, ?_⟩
            · simp only [recvHeaderLoop, if_pos hb, hread, if_pos hz]
              split <;> simp only [HdrRes.trace, bufRun, hstep]
            · intro s1 b tr h
              simp only [recvHeaderLoop, if_pos hb, hread, if_pos hz] at h
              split at h <;> cases h
          · have hle2 : (buf ++ bs).length ≤ E.L.bufSize := by
              simp only [List.length_append]
              omega
            obtain ⟨k, h1, h2, h3⟩ := ih s0 (buf ++ bs) hle2
            refine ⟨k, ?_, h2, ?_⟩
            · rw [recvHeaderLoop_step_bytes E n s s0 bs buf hb hread hz, hdr_pre_trace]
              simp only [bufRun, hstep]
              simp only [List.length_append] at h1
              exact h1
            · intro s1 b tr h
              rw [recvHeaderLoop_step_bytes E n s s0 bs buf hb hread hz] at h
              obtain ⟨tr0, h0⟩ := hdr_pre_done _ _ _ _ _ h
              exact h3 s1 b tr0 h0
    · have hge : E.L.IPC_MSG_MINIMAL_SIZE ≤ buf.length := Nat.le_of_not_lt hb
      rw [recvHeaderLoop_done E n s buf hge]
      refine ⟨buf.length, rfl, hle, ?_⟩
      intro s1 b tr h
      simp only [HdrRes.done.injEq] at h
      rw [h.2.1]

theorem bufRun_dispatch (E : Env) (vmid : Nat) (cap : Nat) (st st0 st1 : BufState)
    (tr : List Event) (msg : List Nat) (h0 : bufRun cap st tr = some st0)
    (h1 : bufStep cap st0 (Event.dispatch msg) = some st1) :
    bufRun cap st (tr ++ Event.dispatch msg :: (dispatch E vmid msg).2) = some st1 := by
  rw [bufRun_append, h0]
  simp only [Option.bind, bufRun, h1]
  exact bufRun_inert cap _ st1 (dispatch_inert E vmid msg)

theorem recvPass_buf (E : Env) (vmid : Nat) (s : Stream) (buf : List Nat)
    (hle : buf.length ≤ E.L.bufSize) :
    (∀ o, recvPass E vmid s buf = Pass.final o →
        ∃ st, bufRun E.L.bufSize ⟨buf.length, none⟩ o.trace = some st ∧
          st.size ≤ E.L.bufSize) ∧
      ∀ s3 buf3 tr3, recvPass E vmid s buf = Pass.next s3 buf3 tr3 →
        bufRun E.L.bufSize ⟨buf.length, none⟩ tr3 = some ⟨buf3.length, none⟩ ∧
          buf3.length ≤ E.L.bufSize := by
  obtain ⟨k, hk1, hk2, hk3⟩ := recvHeaderLoop_buf E (s.pending.length + 1) s buf hle
  rcases recvPass_shape E vmid s buf with ⟨st, s1, tr, hh, hp⟩ | ⟨s1, buf1, tr, hh, hrest⟩
  · rw [hp]
    have hh1 : recvHeaderLoop E (s.pending.length + 1) s buf = HdrRes.exit st s1 tr := hh
    rw [hh1] at hk1
    refine ⟨?_, fun s3 buf3 tr3 h => by cases h⟩
    intro o h
    cases h
    exact ⟨_, hk1, hk2⟩
  · have hh1 : recvHeaderLoop E (s.pending.length + 1) s buf = HdrRes.done s1 buf1 tr := hh
    have hkb : k = buf1.length := hk3 s1 buf1 tr hh1
    rw [hh1] at hk1
    subst hkb
    have hrun : bufRun E.L.bufSize ⟨buf.length, none⟩ tr = some ⟨buf1.length, none⟩ := hk1
    rcases hrest with ⟨_, hp⟩ | ⟨msg_size, hsize, hrest⟩
    · rw [hp]
      refine ⟨?_, fun s3 buf3 tr3 h => by cases h⟩
      intro o h
      cases h
      exact ⟨_, hrun, hk2⟩
    · rcases hrest with ⟨_, hp⟩ | ⟨hms, hp⟩ | ⟨hlt, bs, s2, hex, hp⟩ | ⟨hlt, st, s2, hp, _⟩
      · rw [hp]
        refine ⟨?_, fun s3 buf3 tr3 h => by cases h⟩
        intro o h
        cases h
        exact ⟨_, hrun, hk2⟩
      · have hstep : bufStep E.L.bufSize ⟨buf1.length, none⟩
            (Event.dispatch (buf1.take msg_size)) =
            some ⟨(buf1.drop msg_size).length, none⟩ := by
          have hc : (buf1.take msg_size).length ≤ buf1.length ∧ buf1.length ≤ E.L.bufSize :=
            ⟨by simp only [List.length_take]; omega, hk2⟩
          have hl : (buf1.take msg_size).length = msg_size := by
            simp only [List.length_take]
            omega
          rw [hl] at hc
          simp only [bufStep, hl, if_pos hc, List.length_drop]
        have hall := bufRun_dispatch E vmid E.L.bufSize _ _ _ tr (buf1.take msg_size) hrun hstep
        have hdl : (buf1.drop msg_size).length ≤ E.L.bufSize := by
          simp only [List.length_drop]
          omega
        rw [hp]
        rcases passDispatch_cases E vmid s1 (buf1.take msg_size) (buf1.drop msg_size) tr with
          ⟨st, _, hq⟩ | ⟨_, hq⟩
        · rw [hq]
          refine ⟨?_, fun s3 buf3 tr3 h => by cases h⟩
          intro o h
          cases h
          exact ⟨_, hall, hdl⟩
        · rw [hq]
          refine ⟨(fun o h => by cases h), ?_⟩
          intro s3 buf3 tr3 h
          simp only [Pass.next.injEq] at h
          obtain ⟨_, e2, e3⟩ := h
          rw [← e2, ← e3]
          exact ⟨hall, hdl⟩
      · obtain ⟨got, hb, hgl, _⟩ := read_exact_loop_ok_inv E _ _ _ _ _ _ hex
        have hbl : bs.length = msg_size - buf1.length := by
          rw [hb]
          simp only [List.nil_append, hgl]
        have hpos : 0 < msg_size - buf1.length := by omega
        have hrun2 : bufRun E.L.bufSize ⟨buf.length, none⟩
            (tr ++ [Event.readExact (msg_size - buf1.length)]) =
            some ⟨buf1.length, some (msg_size - buf1.length)⟩ := by
          rw [bufRun_append, hrun]
          have hc : buf1.length ≤ E.L.bufSize ∧ 0 < msg_size - buf1.length := ⟨hk2, hpos⟩
          simp only [Option.bind, bufRun, bufStep, hc, and_self, if_true]
        have hstep : bufStep E.L.bufSize ⟨buf1.length, some (msg_size - buf1.length)⟩
            (Event.dispatch (buf1 ++ bs)) = some ⟨0, none⟩ := by
          have hc : (buf1 ++ bs).length = buf1.length + (msg_size - buf1.length) := by
            simp only [List.length_append, hbl]
          simp only [bufStep, hc, if_true]
        have hall := bufRun_dispatch E vmid E.L.bufSize _ _ _ _ (buf1 ++ bs) hrun2 hstep
        rw [hp]
        rcases passDispatch_cases E vmid s2 (buf1 ++ bs) []
          (tr ++ [Event.readExact (msg_size - buf1.length)]) with ⟨st, _, hq⟩ | ⟨_, hq⟩
        · rw [hq]
          refine ⟨?_, fun s3 buf3 tr3 h => by cases h⟩
          intro o h
          cases h
          exact ⟨_, hall, Nat.zero_le _⟩
        · rw [hq]
          refine ⟨(fun o h => by cases h), ?_⟩
          intro s3 buf3 tr3 h
          simp only [Pass.next.injEq] at h
          obtain ⟨_, e2, e3⟩ := h
          rw [← e2, ← e3]
          exact ⟨hall, Nat.zero_le _⟩
      · have hpos : 0 < msg_size - buf1.length := by omega
        have hrun2 : bufRun E.L.bufSize ⟨buf.length, none⟩
            (tr ++ [Event.readExact (msg_size - buf1.length)]) =
            some ⟨buf1.length, some (msg_size - buf1.length)⟩ := by
          rw [bufRun_append, hrun]
          have hc : buf1.length ≤ E.L.bufSize ∧ 0 < msg_size - buf1.length := ⟨hk2, hpos⟩
          simp only [Option.bind, bufRun, bufStep, hc, and_self, if_true]
        rw [hp]
        refine ⟨?_, fun s3 buf3 tr3 h => by cases h⟩
        intro o h
        cases h
        exact ⟨_, hrun2, hk2⟩

theorem recvLoop_buf (E : Env) (vmid : Nat) : ∀ (fuel : Nat) (s : Stream) (buf : List Nat),
    buf.length ≤ E.L.bufSize →
    ∃ st, bufRun E.L.bufSize ⟨buf.length, none⟩ (recvLoop E vmid fuel s buf).trace = some st ∧
      st.size ≤ E.L.bufSize := by
  intro fuel
  induction fuel with
  | zero =>
    intro s buf hle
    exact ⟨_, rfl, hle⟩
  | succ fuel ih =>
    intro s buf hle
    obtain ⟨hf, hn⟩ := recvPass_buf E vmid s buf hle
    cases hp : recvPass E vmid s buf with
    | final o =>
      have hl : recvLoop E vmid (fuel + 1) s buf = o := by simp only [recvLoop, hp]
      rw [hl]
      exact hf o hp
    | next s1 buf1 tr =>
      obtain ⟨h1, h2⟩ := hn s1 buf1 tr hp
      by_cases hb : 0 < buf1.length
      · have hl : recvLoop E vmid (fuel + 1) s buf = (recvLoop E vmid fuel s1 buf1).after tr := by
          simp only [recvLoop, hp, if_pos hb]
        obtain ⟨st, i1, i2⟩ := ih s1 buf1 h2
        refine ⟨st, ?_, i2⟩
        rw [hl]
        simp only [Out.after, bufRun_append, h1, Option.bind]
        exact i1
      · have hl : recvLoop E vmid (fuel + 1) s buf = ⟨Status.ret 0, s1, tr⟩ := by
          simp only [recvLoop, hp, if_neg hb]
        rw [hl]
        exact ⟨_, h1, h2⟩
/-! ## The framer: delivery and end of stream -/

/-- C1: for every sequence `msgs` of framed messages (the `size` field of each holds
its real length, at least `IPC_MSG_MINIMAL_SIZE`) written back-to-back on the
connection of peer `vmid`, and every split `chunks` of those bytes into non-empty
reads, the successive calls of `receive_ipc_messages` all return 0 and hand the
dispatch step exactly the messages written, in the order written, byte for byte.
The messages carry the peer's id in `src` (the `assert` of the function), and
allocations and reply sends succeed. -/
theorem framer_delivers_every_message (E : Env) (vmid : Nat) (msgs chunks : List (List Nat))
    (fuel calls : Nat) (hL : E.L.WF) (hmalloc : ∀ n, E.malloc_ok n = true)
    (hsend : ∀ o d, 0 ≤ E.send_ipc_message o d)
    (hmsgs : ∀ m ∈ msgs, Framed E.L m ∧ readField m E.L.srcOff E.L.idWidth = some vmid)
    (hchunks : ∀ c ∈ chunks, c ≠ []) (hsplit : chunks.flatten = msgs.flatten)
    (hfuel : msgs.length < fuel) (hcalls : msgs.length ≤ calls) :
    (∀ o ∈ recvCalls E fuel vmid calls ⟨chunks.map ReadEv.data, false⟩,
        o.status = Status.ret 0) ∧
      dispatchedBy (recvCalls E fuel vmid calls ⟨chunks.map ReadEv.data, false⟩) = msgs :=
  recvCalls_open E vmid hL hmalloc fuel calls msgs ⟨chunks.map ReadEv.data, false⟩ hcalls hfuel
    (fun m hm => ⟨(hmsgs m hm).1,
      dispatch_continues E vmid m hL hsend (hmsgs m hm).1.2 (hmsgs m hm).2⟩)
    (allData_map chunks hchunks) rfl (by rw [bytesOf_map, hsplit])

/-- Witness of C1: `msgA` and `msgB` written back-to-back, the first read ending ten
bytes into `msgB`. -/
theorem framer_delivers_every_message_witness :
    (∀ o ∈ recvCalls sampleEnv 3 7 2
          ⟨[msgA ++ msgB.take 10, msgB.drop 10].map ReadEv.data, false⟩,
        o.status = Status.ret 0) ∧
      dispatchedBy (recvCalls sampleEnv 3 7 2
          ⟨[msgA ++ msgB.take 10, msgB.drop 10].map ReadEv.data, false⟩) = [msgA, msgB] :=
  framer_delivers_every_message sampleEnv 7 [msgA, msgB] [msgA ++ msgB.take 10, msgB.drop 10]
    3 2 (by decide) (fun _ => rfl) (fun _ _ => Int.le_refl 0) (by decide) (by decide)
    (by decide) (by decide) (by decide)

/-- C2: when the stream of a connection ends (the peer closes) after the framed
messages `msgs` and the bytes `tail`, the call of `receive_ipc_messages` that
observes the end returns 1 if the end falls on a message boundary (`tail` empty),
and a negative error code, never 1, if it falls strictly inside a message, in its
header or in its payload (`tail` a non-empty proper beginning of a framed message);
every call before it returns 0. -/
theorem end_of_stream_result (E : Env) (vmid : Nat) (msgs chunks : List (List Nat))
    (tail : List Nat) (fuel calls : Nat) (hL : E.L.WF) (hmalloc : ∀ n, E.malloc_ok n = true)
    (hsend : ∀ o d, 0 ≤ E.send_ipc_message o d) (hno : 0 < E.ENODATA)
    (hmsgs : ∀ m ∈ msgs, Framed E.L m ∧ readField m E.L.srcOff E.L.idWidth = some vmid)
    (hchunks : ∀ c ∈ chunks, c ≠ []) (hsplit : chunks.flatten = msgs.flatten ++ tail)
    (htail : tail = [] ∨ Partial E.L tail)
    (hfuel : msgs.length < fuel) (hcalls : msgs.length < calls) :
    ∃ pre last, recvCalls E fuel vmid calls ⟨chunks.map ReadEv.data, true⟩ = pre ++ [last] ∧
      (∀ o ∈ pre, o.status = Status.ret 0) ∧ last.stream.pending = [] ∧
      (tail = [] → last.status = Status.ret 1) ∧
      (tail ≠ [] → last.status ≠ Status.ret 1 ∧ ∃ c : Int, c < 0 ∧ last.status = Status.ret c) := by
  obtain ⟨pre, last, h1, h2, h3, h4, _⟩ :=
    recvCalls_closed E vmid hL hmalloc fuel tail (htail.imp id (fun h => ⟨hno, h⟩)) calls msgs
      ⟨chunks.map ReadEv.data, true⟩ hcalls hfuel
      (fun m hm => ⟨(hmsgs m hm).1,
        dispatch_continues E vmid m hL hsend (hmsgs m hm).1.2 (hmsgs m hm).2⟩)
      (allData_map chunks hchunks) rfl (by rw [bytesOf_map, hsplit])
  refine ⟨pre, last, h1, h2, h4, ?_, ?_⟩
  · intro ht
    rw [h3, if_pos ht]
  · intro ht
    rw [h3, if_neg ht]
    refine ⟨?_, -E.ENODATA, by omega, rfl⟩
    intro h0
    have := Status.ret.inj h0
    omega

/-- Witness of C2: the peer closes ten bytes into `msgB`, after `msgA`. -/
theorem end_of_stream_result_witness :
    ∃ pre last, recvCalls sampleEnv 2 7 2 ⟨[msgA ++ msgB.take 10].map ReadEv.data, true⟩ =
        pre ++ [last] ∧
      (∀ o ∈ pre, o.status = Status.ret 0) ∧ last.stream.pending = [] ∧
      (msgB.take 10 = [] → last.status = Status.ret 1) ∧
      (msgB.take 10 ≠ [] →
        last.status ≠ Status.ret 1 ∧ ∃ c : Int, c < 0 ∧ last.status = Status.ret c) :=
  end_of_stream_result sampleEnv 7 [msgA] [msgA ++ msgB.take 10] (msgB.take 10) 2 2 (by decide)
    (fun _ => rfl) (fun _ _ => Int.le_refl 0) (by decide) (by decide) (by decide) (by decide)
    (Or.inr ⟨by decide, msgB.drop 10, by decide, by decide⟩) (by decide) (by decide)

/-! ## The automatic reply -/

/-- C3: for every dispatched message with non-zero sequence `s` received on the
connection of peer `vmid` whose handler returns a negative error code `c`, the
dispatch step calls `send_ipc_response` exactly once, with `(vmid, c, s)`, and that
call sends one `IPC_MSG_RESP` message addressed to `vmid` whose `seq` is `s` and
whose `retval` is `c` (`RESPONSE_CALLBACK` is not negative). -/
theorem failure_reply_sent (E : Env) (vmid : Nat) (msg : List Nat) (code : Nat) (c : Int)
    (evs : List Event) (s : Nat) (hrc : 0 ≤ E.RESPONSE_CALLBACK)
    (hsrc : readField msg E.L.srcOff E.L.idWidth = some vmid)
    (hcode : readField msg E.L.codeOff E.L.codeWidth = some code)
    (hlt : code < E.ARRAY_SIZE)
    (hcall : (ipc_callbacks E code).map (fun h => h msg vmid) = some (Status.ret c, evs))
    (hneg : c < 0) (hseq : readField msg E.L.seqOff 8 = some s) (hs : s ≠ 0) :
    (dispatch E vmid msg).2 = evs ++ [Event.callback code c, Event.response vmid c s,
        Event.send ⟨E.IPC_MSG_RESP, E.get_ipc_msg_size E.sizeof_shim_ipc_resp, vmid, s, some c⟩
          vmid] ∧
      responses (dispatch E vmid msg).2 = [(vmid, c, s)] := by
  have hne : ¬ c = E.RESPONSE_CALLBACK := by omega
  have h := dispatch_reply E vmid msg code c evs s hsrc hcode hlt hcall (Or.inl hneg) hseq hs
  rw [if_neg hne] at h
  obtain ⟨f, hf, hfr⟩ := callbacks_of_map E code msg vmid _ hcall
  have hq := responses_callbacks E code f msg vmid hf
  rw [hfr] at hq
  refine ⟨h, ?_⟩
  rw [h, responses_append, hq]
  rfl

/-- Witness of C3: `msgA`, whose callback returns -5, on the connection of peer 7. -/
theorem failure_reply_sent_witness :
    (dispatch sampleEnv 7 msgA).2 = [] ++ [Event.callback 2 (-5), Event.response 7 (-5) 42,
        Event.send ⟨sampleEnv.IPC_MSG_RESP,
          sampleEnv.get_ipc_msg_size sampleEnv.sizeof_shim_ipc_resp, 7, 42, some (-5)⟩ 7] ∧
      responses (dispatch sampleEnv 7 msgA).2 = [(7, -5, 42)] :=
  failure_reply_sent sampleEnv 7 msgA 2 (-5) [] 42 (by decide) (by decide) (by decide)
    (by decide) (by decide) (by decide) (by decide) (by decide)

/-- C4, counterexample: `msgZ` has sequence number 42 and its handler returns the
result code 0; the call that receives it returns 0 after the callback, without any
call of `send_ipc_response` and without sending anything. -/
theorem success_zero_reply_counterexample :
    readField msgZ sampleEnv.L.seqOff 8 = some 42 ∧
      receive_ipc_messages sampleEnv 1 7 ⟨[ReadEv.data msgZ], false⟩ =
        ⟨Status.ret 0, ⟨[], false⟩,
          [Event.streamRead 128 (ReadRes.bytes msgZ), Event.dispatch msgZ,
            Event.callback 2 0]⟩ := by
  decide

/-- C4, amended: for every dispatched message with non-zero sequence `s`, a handler
that returns `RESPONSE_CALLBACK` makes the dispatch step send a reply with sequence
`s` and `retval` 0 to the source peer; a handler that returns the plain result code 0
(`RESPONSE_CALLBACK` being another value) gets no automatic reply. -/
theorem response_callback_reply_sent (E : Env) (vmid : Nat) (msg : List Nat) (code : Nat)
    (evs : List Event) (s : Nat)
    (hsrc : readField msg E.L.srcOff E.L.idWidth = some vmid)
    (hcode : readField msg E.L.codeOff E.L.codeWidth = some code)
    (hlt : code < E.ARRAY_SIZE)
    (hseq : readField msg E.L.seqOff 8 = some s) (hs : s ≠ 0) :
    ((ipc_callbacks E code).map (fun h => h msg vmid) =
          some (Status.ret E.RESPONSE_CALLBACK, evs) →
        (dispatch E vmid msg).2 = evs ++ [Event.callback code E.RESPONSE_CALLBACK,
          Event.response vmid E.RESPONSE_CALLBACK s,
          Event.send ⟨E.IPC_MSG_RESP, E.get_ipc_msg_size E.sizeof_shim_ipc_resp, vmid, s,
            some 0⟩ vmid]) ∧
      (E.RESPONSE_CALLBACK ≠ 0 →
        (ipc_callbacks E code).map (fun h => h msg vmid) = some (Status.ret 0, evs) →
        dispatch E vmid msg = (none, evs ++ [Event.callback code 0])) := by
  constructor
  · intro hcall
    have h := dispatch_reply E vmid msg code _ evs s hsrc hcode hlt hcall (Or.inr rfl) hseq hs
    rwa [if_pos rfl] at h
  · intro hrc hcall
    exact dispatch_no_reply E vmid msg code 0 evs hsrc hcode hlt hcall (by omega)

/-- Witness of C4 as amended: `msgR`, whose callback returns `RESPONSE_CALLBACK`. -/
theorem response_callback_reply_sent_witness :
    (dispatch sampleEnv 7 msgR).2 = [] ++ [Event.callback 5 sampleEnv.RESPONSE_CALLBACK,
      Event.response 7 sampleEnv.RESPONSE_CALLBACK 42,
      Event.send ⟨sampleEnv.IPC_MSG_RESP,
        sampleEnv.get_ipc_msg_size sampleEnv.sizeof_shim_ipc_resp, 7, 42, some 0⟩ 7] :=
  (response_callback_reply_sent sampleEnv 7 msgR 5 [] 42 (by decide) (by decide) (by decide)
    (by decide) (by decide)).1 (by decide)

/-- C5: for every dispatched message whose `seq` field is 0, whatever its handler
returns and however the dispatch step ends, `send_ipc_response` is never called for
it. -/
theorem seq_zero_never_replied (E : Env) (vmid : Nat) (msg : List Nat)
    (hseq : readField msg E.L.seqOff 8 = some 0) :
    responses (dispatch E vmid msg).2 = [] :=
  responses_dispatch_seq_zero E vmid msg hseq

/-- Witness of C5: `msgB` has sequence number 0 and its callback returns
`RESPONSE_CALLBACK`. -/
theorem seq_zero_never_replied_witness : responses (dispatch sampleEnv 7 msgB).2 = [] :=
  seq_zero_never_replied sampleEnv 7 msgB (by decide)

/-- C6: for every dispatched message, with any sequence number, whose handler has
sent its reply itself and so returns a non-negative result other than
`RESPONSE_CALLBACK` (as `ipc_connect_back_callback` does when its own send succeeds),
the dispatch step goes on without calling `send_ipc_response`. -/
theorem handler_replied_no_auto_reply (E : Env) (vmid : Nat) (msg : List Nat) (code : Nat)
    (r : Int) (evs : List Event)
    (hsrc : readField msg E.L.srcOff E.L.idWidth = some vmid)
    (hcode : readField msg E.L.codeOff E.L.codeWidth = some code)
    (hlt : code < E.ARRAY_SIZE)
    (hcall : (ipc_callbacks E code).map (fun h => h msg vmid) = some (Status.ret r, evs))
    (hr : 0 ≤ r) (hne : r ≠ E.RESPONSE_CALLBACK) :
    dispatch E vmid msg = (none, evs ++ [Event.callback code r]) ∧
      responses (dispatch E vmid msg).2 = [] := by
  have h := dispatch_no_reply E vmid msg code r evs hsrc hcode hlt hcall (by omega)
  obtain ⟨f, hf, hfr⟩ := callbacks_of_map E code msg vmid _ hcall
  have hq := responses_callbacks E code f msg vmid hf
  rw [hfr] at hq
  refine ⟨h, ?_⟩
  rw [h, responses_append, hq]
  rfl

/-- Witness of C6: the connect-back request `msgC`; the callback sends its dummy
reply with sequence number 42 to peer 7 and returns the 0 of that send. -/
theorem handler_replied_no_auto_reply_witness :
    dispatch sampleEnv 7 msgC =
        (none, [Event.send ⟨sampleEnv.IPC_MSG_DUMMY, sampleEnv.get_ipc_msg_size 0, 7, 42, none⟩ 7]
          ++ [Event.callback 1 0]) ∧
      responses (dispatch sampleEnv 7 msgC).2 = [] :=
  handler_replied_no_auto_reply sampleEnv 7 msgC 1 0
    [Event.send ⟨sampleEnv.IPC_MSG_DUMMY, sampleEnv.get_ipc_msg_size 0, 7, 42, none⟩ 7]
    (by decide) (by decide) (by decide) (by decide) (by decide) (by decide)

/-! ## What the framer hands over, and when it returns -/

/-- C7, counterexample: the header of `shortMsg` declares a total size of 30, below
`IPC_MSG_MINIMAL_SIZE` = 48; once 48 bytes are buffered the framer slices those 30
bytes off and hands them to the callback of kind 2 as a message. -/
theorem minimal_size_counterexample :
    shortMsg.length = 30 ∧ sampleEnv.L.IPC_MSG_MINIMAL_SIZE = 48 ∧
      receive_ipc_messages sampleEnv 3 7 ⟨[ReadEv.data (shortMsg ++ msgA)], false⟩ =
        ⟨Status.ret 0, ⟨[], false⟩,
          [Event.streamRead 128 (ReadRes.bytes (shortMsg ++ msgA)), Event.dispatch shortMsg,
            Event.callback 2 0, Event.dispatch msgA, Event.callback 2 (-5),
            Event.response 7 (-5) 42, Event.send ⟨0, 48, 7, 42, some (-5)⟩ 7]⟩ := by
  decide

/-- C7, amended: for every input stream, every message `receive_ipc_messages` hands
to the dispatch step has exactly the total size its header declares, and when that
size is at least `IPC_MSG_MINIMAL_SIZE` the header fields `code`, `src` and `seq`
read at dispatch lie inside the assembled message. -/
theorem dispatched_size_is_declared (E : Env) (fuel vmid : Nat) (s : Stream) (m : List Nat)
    (hL : E.L.WF) (hm : m ∈ dispatched (receive_ipc_messages E fuel vmid s).trace) :
    DeclaredSize E.L m ∧
      (E.L.IPC_MSG_MINIMAL_SIZE ≤ m.length →
        (readField m E.L.codeOff E.L.codeWidth).isSome = true ∧
        (readField m E.L.srcOff E.L.idWidth).isSome = true ∧
        (readField m E.L.seqOff 8).isSome = true) := by
  obtain ⟨_, hc, hsz, hsr, hsq, _⟩ := hL
  refine ⟨(recvLoop_inv E vmid hsz fuel s []).1 m hm, ?_⟩
  intro hmin
  refine ⟨?_, ?_, ?_⟩
  · obtain ⟨v, hv⟩ := readField_isSome m E.L.codeOff E.L.codeWidth (by omega)
    rw [hv]; rfl
  · obtain ⟨v, hv⟩ := readField_isSome m E.L.srcOff E.L.idWidth (by omega)
    rw [hv]; rfl
  · obtain ⟨v, hv⟩ := readField_isSome m E.L.seqOff 8 (by omega)
    rw [hv]; rfl

/-- Witness of C7 as amended: `msgB`, received after `msgA` in two reads. -/
theorem dispatched_size_is_declared_witness :
    DeclaredSize sampleEnv.L msgB ∧
      (sampleEnv.L.IPC_MSG_MINIMAL_SIZE ≤ msgB.length →
        (readField msgB sampleEnv.L.codeOff sampleEnv.L.codeWidth).isSome = true ∧
        (readField msgB sampleEnv.L.srcOff sampleEnv.L.idWidth).isSome = true ∧
        (readField msgB sampleEnv.L.seqOff 8).isSome = true) :=
  dispatched_size_is_declared sampleEnv 3 7
    ⟨[ReadEv.data (msgA ++ msgB.take 10), ReadEv.data (msgB.drop 10)], false⟩ msgB
    (by decide) (by decide)

/-- C8, counterexample: after `msgA` only the first ten bytes of `msgB` are buffered,
a proper beginning of the next message; the framer does not return 0 but issues a
further stream read (for the 118 bytes of free buffer space) and waits in it. -/
theorem drained_with_leftover_counterexample :
    receive_ipc_messages sampleEnv 3 7 ⟨[ReadEv.data (msgA ++ msgB.take 10)], false⟩ =
      ⟨Status.blocked, ⟨[], false⟩,
        [Event.streamRead 128 (ReadRes.bytes (msgA ++ msgB.take 10)), Event.dispatch msgA,
          Event.callback 2 (-5), Event.response 7 (-5) 42,
          Event.send ⟨0, 48, 7, 42, some (-5)⟩ 7, Event.streamRead 118 ReadRes.block]⟩ := by
  decide

/-- C8, amended: a call of `receive_ipc_messages` returns 0 only with an empty
buffer: the bytes it has taken from the stream are exactly the messages it has
dispatched, so no leftover byte is kept for the next call; and when a pass of the
loop leaves a non-empty leftover shorter than a header, the same call goes on with a
further stream read for the free space of the buffer. -/
theorem drained_means_nothing_buffered (E : Env) (fuel vmid : Nat) (s : Stream)
    (hL : E.L.WF) (hE : E.ErrorsNegative) :
    ((receive_ipc_messages E fuel vmid s).status = Status.ret 0 →
        (dispatched (receive_ipc_messages E fuel vmid s).trace).flatten ++
          bytesOf (receive_ipc_messages E fuel vmid s).stream.pending = bytesOf s.pending) ∧
      ∀ (s0 : Stream) (buf0 : List Nat) (s1 : Stream) (buf1 : List Nat) (tr : List Event),
        recvPass E vmid s0 buf0 = Pass.next s1 buf1 tr → 0 < buf1.length →
        buf1.length < E.L.IPC_MSG_MINIMAL_SIZE →
        ∃ res rest, (recvLoop E vmid (fuel + 2) s0 buf0).trace =
          tr ++ Event.streamRead (E.L.bufSize - buf1.length) res :: rest := by
  constructor
  · intro h0
    have h := (recvLoop_inv E vmid hL.2.2.1 fuel s []).2 hE h0
    simpa [receive_ipc_messages] using h
  · intro s0 buf0 s1 buf1 tr hp hpos hlt
    obtain ⟨res, rest, hr⟩ := recvLoop_reads_on E vmid fuel s1 buf1 hlt
    refine ⟨res, rest, ?_⟩
    rw [recvLoop]
    simp only [hp, if_pos hpos, Out.after, hr]

/-- Witness of C8 as amended: the call that reads `msgA` and the first ten bytes of
`msgB` returns once `msgB` is complete, leaving the next message in the stream. -/
theorem drained_means_nothing_buffered_witness :
    (dispatched (receive_ipc_messages sampleEnv 3 7
          ⟨[ReadEv.data (msgA ++ msgB.take 10), ReadEv.data (msgB.drop 10 ++ msgZ)],
            false⟩).trace).flatten ++
        bytesOf (receive_ipc_messages sampleEnv 3 7
          ⟨[ReadEv.data (msgA ++ msgB.take 10), ReadEv.data (msgB.drop 10 ++ msgZ)],
            false⟩).stream.pending =
      bytesOf (Stream.mk [ReadEv.data (msgA ++ msgB.take 10),
        ReadEv.data (msgB.drop 10 ++ msgZ)] false).pending :=
  (drained_means_nothing_buffered sampleEnv 3 7
    ⟨[ReadEv.data (msgA ++ msgB.take 10), ReadEv.data (msgB.drop 10 ++ msgZ)], false⟩
    (by decide) ⟨by decide, by decide, fun c => by
      show (if c < 0 then c else -22) < 0
      split <;> omega⟩).1 (by decide)

/-! ## Unknown message kinds -/

/-- C9: for every framed message `u` from the peer whose kind `code` is outside the
callback table or maps to an empty slot, the dispatch step only logs the unknown
type (no callback is invoked, no reply is sent, whatever the sequence number) and
lets the loop go on; the calls on a stream that holds `u` among other framed
messages all return 0 and dispatch every message, those that follow `u` included. -/
theorem unknown_kind_ignored (E : Env) (vmid : Nat) (before after chunks : List (List Nat))
    (u : List Nat) (code fuel calls : Nat) (hL : E.L.WF)
    (hmalloc : ∀ n, E.malloc_ok n = true) (hsend : ∀ o d, 0 ≤ E.send_ipc_message o d)
    (hmsgs : ∀ m ∈ before ++ u :: after,
      Framed E.L m ∧ readField m E.L.srcOff E.L.idWidth = some vmid)
    (hcode : readField u E.L.codeOff E.L.codeWidth = some code)
    (hunk : E.ARRAY_SIZE ≤ code ∨ ipc_callbacks E code = none)
    (hchunks : ∀ c ∈ chunks, c ≠ []) (hsplit : chunks.flatten = (before ++ u :: after).flatten)
    (hfuel : (before ++ u :: after).length < fuel)
    (hcalls : (before ++ u :: after).length ≤ calls) :
    dispatch E vmid u = (none, [Event.unknownType code]) ∧
      (∀ o ∈ recvCalls E fuel vmid calls ⟨chunks.map ReadEv.data, false⟩,
        o.status = Status.ret 0) ∧
      dispatchedBy (recvCalls E fuel vmid calls ⟨chunks.map ReadEv.data, false⟩) =
        before ++ u :: after := by
  have hu := hmsgs u (by simp)
  refine ⟨dispatch_unknown E vmid u code hu.2 hcode hunk, ?_⟩
  exact recvCalls_open E vmid hL hmalloc fuel calls (before ++ u :: after)
    ⟨chunks.map ReadEv.data, false⟩ hcalls hfuel
    (fun m hm => ⟨(hmsgs m hm).1,
      dispatch_continues E vmid m hL hsend (hmsgs m hm).1.2 (hmsgs m hm).2⟩)
    (allData_map chunks hchunks) rfl (by rw [bytesOf_map, hsplit])

/-- Witness of C9: `msgU` of kind 200, with sequence number 42, followed by `msgA` in
the same read. -/
theorem unknown_kind_ignored_witness :
    dispatch sampleEnv 7 msgU = (none, [Event.unknownType 200]) ∧
      (∀ o ∈ recvCalls sampleEnv 3 7 2 ⟨[msgU ++ msgA].map ReadEv.data, false⟩,
        o.status = Status.ret 0) ∧
      dispatchedBy (recvCalls sampleEnv 3 7 2 ⟨[msgU ++ msgA].map ReadEv.data, false⟩) =
        [] ++ msgU :: [msgA] :=
  unknown_kind_ignored sampleEnv 7 [] [msgA] [msgU ++ msgA] msgU 200 3 2 (by decide)
    (fun _ => rfl) (fun _ _ => Int.le_refl 0) (by decide) (by decide) (Or.inl (by decide))
    (by decide) (by decide) (by decide) (by decide)

/-! ## The per-connection pass of the main loop -/

/-- C10: in a pass of the per-connection loop over `slots` (connections on distinct
handles, every call returning), for every connection `c` whose
`receive_ipc_messages` call returns 1 or a negative error: the pass ends with the
main loop going to its next iteration (not with the process exit);
`disconnect_callbacks` and then `del_ipc_connection` are each called exactly once for
`c`; `c` is no longer in the registry afterwards; and every registered connection
whose own slot does not end in a close is still registered. -/
theorem failed_connection_closed_alone (E : Env) (fuel : Nat) (w : Worker)
    (slots : List (Conn × Nat)) (c : Conn) (ev : Nat) (v : Int)
    (hh : (slots.map (fun p => p.1.handle)).Nodup) (hreg : w.g_ipc_connections.Nodup)
    (hret : ∀ p ∈ slots, p.2 &&& E.PAL_WAIT_READ ≠ 0 →
      ∃ r, (receive_ipc_messages E fuel p.1.vmid (w.streams p.1.handle)).status = Status.ret r)
    (hc : (c, ev) ∈ slots) (hread : ev &&& E.PAL_WAIT_READ ≠ 0)
    (hv : (receive_ipc_messages E fuel c.vmid (w.streams c.handle)).status = Status.ret v)
    (hbad : v = 1 ∨ v < 0) :
    (connLoop E fuel w slots).1 = LoopEnd.next ∧
      (∃ new, (connLoop E fuel w slots).2.log = w.log ++ new ∧
        marks c new = [WEvent.disconnect_callbacks c, WEvent.del_ipc_connection c]) ∧
      c ∉ (connLoop E fuel w slots).2.g_ipc_connections ∧
      ∀ x ∈ w.g_ipc_connections, (∀ ev1, (x, ev1) ∈ slots → ¬ slotCloses E fuel w x ev1) →
        x ∈ (connLoop E fuel w slots).2.g_ipc_connections := by
  obtain ⟨hnext, new, hlog, hx⟩ := connLoop_spec E fuel slots w hh hreg hret
  have hcl : slotCloses E fuel w c ev := by
    unfold slotCloses
    simp only [if_pos hread, hv]
    rcases hbad with h | h
    · exact Or.inl h
    · exact Or.inr (Or.inl h)
  obtain ⟨hm, hout⟩ := (hx c).1 ⟨ev, hc, hcl⟩
  exact ⟨hnext, ⟨new, hlog, hm⟩, hout, fun x hxin hall => ((hx x).2 hall).2.mpr hxin⟩

/-- Witness of C10: in `sampleWorker` both handles are readable; the call on `connA`
meets the end of the stream and returns 1, the call on `connB` dispatches `msgP` and
returns 0. -/
theorem failed_connection_closed_alone_witness :
    (connLoop sampleEnv 2 sampleWorker [(connB, 2), (connA, 2)]).1 = LoopEnd.next ∧
      (∃ new, (connLoop sampleEnv 2 sampleWorker [(connB, 2), (connA, 2)]).2.log =
          sampleWorker.log ++ new ∧
        marks connA new =
          [WEvent.disconnect_callbacks connA, WEvent.del_ipc_connection connA]) ∧
      connA ∉ (connLoop sampleEnv 2 sampleWorker [(connB, 2), (connA, 2)]).2.g_ipc_connections ∧
      ∀ x ∈ sampleWorker.g_ipc_connections,
        (∀ ev1, (x, ev1) ∈ [(connB, 2), (connA, 2)] → ¬ slotCloses sampleEnv 2 sampleWorker x ev1) →
        x ∈ (connLoop sampleEnv 2 sampleWorker [(connB, 2), (connA, 2)]).2.g_ipc_connections :=
  failed_connection_closed_alone sampleEnv 2 sampleWorker [(connB, 2), (connA, 2)] connA 2 1
    (by decide) (by decide)
    (fun p hp _ => by
      rcases List.mem_cons.mp hp with rfl | hp
      · exact ⟨0, by decide⟩
      · rcases List.mem_cons.mp hp with rfl | hp
        · exact ⟨1, by decide⟩
        · simp at hp)
    (by decide) (by decide) (by decide) (Or.inl rfl)

/-! ## A reply that cannot be sent -/

/-- C11: when the dispatched message `m` requires an automatic reply (its handler
returns a negative value or `RESPONSE_CALLBACK`, and its sequence number is not 0) and
sending that reply fails with the negative code `e`, the call of
`receive_ipc_messages` that dispatches `m` returns `e` at once: the calls dispatch the
messages `before` and `m` and none of the messages `after` buffered behind it; and in
the pass of the main loop that makes this call the connection is disconnected and
removed. -/
theorem reply_send_failure_ends_call (E : Env) (vmid : Nat)
    (before after chunks : List (List Nat)) (m : List Nat) (code : Nat) (r : Int)
    (evs : List Event) (s : Nat) (e : Int) (closed : Bool) (fuel calls : Nat)
    (hL : E.L.WF) (hmalloc : ∀ n, E.malloc_ok n = true)
    (hbefore : ∀ b ∈ before, Framed E.L b ∧ Continues E vmid b) (hm : Framed E.L m)
    (hsrc : readField m E.L.srcOff E.L.idWidth = some vmid)
    (hcode : readField m E.L.codeOff E.L.codeWidth = some code)
    (hlt : code < E.ARRAY_SIZE)
    (hcall : (ipc_callbacks E code).map (fun h => h m vmid) = some (Status.ret r, evs))
    (hcond : r < 0 ∨ r = E.RESPONSE_CALLBACK)
    (hseq : readField m E.L.seqOff 8 = some s) (hs : s ≠ 0)
    (hfail : E.send_ipc_message ⟨E.IPC_MSG_RESP, E.get_ipc_msg_size E.sizeof_shim_ipc_resp,
      vmid, s, some (if r = E.RESPONSE_CALLBACK then 0 else r)⟩ vmid = e)
    (he : e < 0) (hchunks : ∀ c ∈ chunks, c ≠ [])
    (hsplit : chunks.flatten = (before ++ m :: after).flatten)
    (hfuel : before.length < fuel) (hcalls : before.length < calls) :
    ∃ pre last,
      recvCalls E fuel vmid calls ⟨chunks.map ReadEv.data, closed⟩ =
        pre ++ [receive_ipc_messages E fuel vmid last] ∧
      (∀ o ∈ pre, o.status = Status.ret 0) ∧
      (receive_ipc_messages E fuel vmid last).status = Status.ret e ∧
      dispatchedBy (pre ++ [receive_ipc_messages E fuel vmid last]) = before ++ [m] ∧
      ∀ (w : Worker) (c : Conn) (ev : Nat), c.vmid = vmid → w.streams c.handle = last →
        ev &&& E.PAL_WAIT_READ ≠ 0 →
        (connSlot E fuel w c ev).1 = none ∧
        (connSlot E fuel w c ev).2.g_ipc_connections = w.g_ipc_connections.erase c ∧
        ∃ new, (connSlot E fuel w c ev).2.log = w.log ++ new ∧
          marks c new = [WEvent.disconnect_callbacks c, WEvent.del_ipc_connection c] := by
  have hst : (dispatch E vmid m).1 = some (Status.ret e) := by
    rw [dispatch_reply_status E vmid m code r evs s hsrc hcode hlt hcall hcond hseq hs]
    have hsend : (send_ipc_response E vmid r s).1 = e := hfail
    rw [hsend, if_pos he]
  obtain ⟨pre, last, h1, h2, h3, h4⟩ :=
    recvCalls_stops E vmid hL hmalloc fuel m after.flatten (Status.ret e) hm hst calls before
      ⟨chunks.map ReadEv.data, closed⟩ hcalls hfuel hbefore (allData_map chunks hchunks)
      (by rw [bytesOf_map, hsplit]; simp)
  refine ⟨pre, last, h1, h2, h3, h4, ?_⟩
  intro w c ev hv hlast hread
  obtain ⟨new, hlog, _, _, hcl, _, _⟩ := connSlot_spec E fuel w c ev
  have hcloses : slotCloses E fuel w c ev := by
    unfold slotCloses
    rw [hv, hlast]
    simp only [if_pos hread, h3]
    exact Or.inr (Or.inl he)
  obtain ⟨ha, hb, hc⟩ := hcl hcloses
  exact ⟨ha, hc, new, hlog, hb⟩

/-- Witness of C11: with every send failing with -32, `msgZ` (no reply), then `msgA`
(callback returns -5, sequence number 42), then `msgB`, all in one read. -/
theorem reply_send_failure_ends_call_witness :
    ∃ pre last,
      recvCalls failingEnv 3 7 2 ⟨[msgZ ++ msgA ++ msgB].map ReadEv.data, false⟩ =
        pre ++ [receive_ipc_messages failingEnv 3 7 last] ∧
      (∀ o ∈ pre, o.status = Status.ret 0) ∧
      (receive_ipc_messages failingEnv 3 7 last).status = Status.ret (-32) ∧
      dispatchedBy (pre ++ [receive_ipc_messages failingEnv 3 7 last]) = [msgZ] ++ [msgA] ∧
      ∀ (w : Worker) (c : Conn) (ev : Nat), c.vmid = 7 → w.streams c.handle = last →
        ev &&& failingEnv.PAL_WAIT_READ ≠ 0 →
        (connSlot failingEnv 3 w c ev).1 = none ∧
        (connSlot failingEnv 3 w c ev).2.g_ipc_connections = w.g_ipc_connections.erase c ∧
        ∃ new, (connSlot failingEnv 3 w c ev).2.log = w.log ++ new ∧
          marks c new = [WEvent.disconnect_callbacks c, WEvent.del_ipc_connection c] :=
  reply_send_failure_ends_call failingEnv 7 [msgZ] [msgB] [msgZ ++ msgA ++ msgB] msgA 2 (-5) []
    42 (-32) false 3 2 (by decide) (fun _ => rfl) (by decide) (by decide) (by decide)
    (by decide) (by decide) (by decide) (by decide) (by decide) (by decide) rfl (by decide)
    (by decide) (by decide) (by decide) (by decide)

/-! ## The registry -/

/-- C12, counterexample: two peers connect and both send the identification value 7.
After the two iterations that accept them the loop goes on with two connections of
the same `vmid` in `g_ipc_connections`: `add_ipc_connection` compares the new id with
nothing. -/
theorem same_vmid_twice_counterexample :
    (ipc_worker_main sampleEnv 2 twoAccepts (Worker.start twoPeers)).1 = LoopEnd.next ∧
      (ipc_worker_main sampleEnv 2 twoAccepts (Worker.start twoPeers)).2.w.g_ipc_connections =
        [⟨8192, 12, 7⟩, ⟨4096, 11, 7⟩] ∧
      ¬ ((ipc_worker_main sampleEnv 2 twoAccepts
        (Worker.start twoPeers)).2.w.g_ipc_connections.map Conn.vmid).Nodup := by
  decide

/-- C12, amended: in every state the worker loop reaches from the empty registry,
through any iterations (accepted connections with any identification values, removals)
in which `malloc` returns the address of no live object, the connections in
`g_ipc_connections` are pairwise distinct objects and `g_ipc_connections_cnt` is the
number of list entries; their `vmid`s need not differ. -/
theorem registry_objects_distinct (E : Env) (fuel : Nat) (streams : Nat → Stream)
    (envs : List IterEnv) (hfresh : FreshRun E fuel envs (Worker.start streams)) :
    ((ipc_worker_main E fuel envs (Worker.start streams)).2.w.g_ipc_connections.map
        Conn.addr).Nodup ∧
      (ipc_worker_main E fuel envs (Worker.start streams)).2.w.g_ipc_connections.Nodup ∧
      (ipc_worker_main E fuel envs (Worker.start streams)).2.w.g_ipc_connections_cnt =
        (ipc_worker_main E fuel envs (Worker.start streams)).2.w.g_ipc_connections.length := by
  have hstart : RegInv (Worker.start streams).w := by
    refine ⟨List.nodup_nil, rfl, ?_⟩
    rw [two_pow_64]
    show 0 + 2 < 18446744073709551616
    omega
  have h := main_regInv E fuel envs (Worker.start streams) hstart hfresh
  exact ⟨h.1, regInv_nodup _ h, h.2.1⟩

/-- Witness of C12 (amended): the two accepted peers of the counterexample. -/
theorem registry_objects_distinct_witness :
    FreshRun sampleEnv 2 twoAccepts (Worker.start twoPeers) ∧
      ((ipc_worker_main sampleEnv 2 twoAccepts (Worker.start twoPeers)).2.w.g_ipc_connections.map
        Conn.addr).Nodup ∧
      (ipc_worker_main sampleEnv 2 twoAccepts (Worker.start twoPeers)).2.w.g_ipc_connections.Nodup ∧
      (ipc_worker_main sampleEnv 2 twoAccepts (Worker.start twoPeers)).2.w.g_ipc_connections_cnt =
        (ipc_worker_main sampleEnv 2 twoAccepts
          (Worker.start twoPeers)).2.w.g_ipc_connections.length :=
  have hf : FreshRun sampleEnv 2 twoAccepts (Worker.start twoPeers) := by
    refine ⟨?_, ?_, trivial⟩
    · intro a _
      exact ⟨fun c hc => absurd hc (List.not_mem_nil c), by decide⟩
    · intro a ha
      cases ha
      exact ⟨by decide, by decide⟩
  ⟨hf, registry_objects_distinct sampleEnv 2 twoPeers twoAccepts hf⟩

/-- C13: for every registry state (the counter being a `size_t` value) and every
`(handle, id)`: a successful `add_ipc_connection` followed by `del_ipc_connection` of
the connection it added gives back the list and the counter as they were, and closes
the handle of that connection exactly once; a failed add (`malloc` returns `NULL`)
returns `-ENOMEM` and leaves the worker unchanged. -/
theorem add_then_del_restores (E : Env) (w : Worker) (a handle id : Nat)
    (hcnt : w.g_ipc_connections_cnt < 2 ^ 64) :
    (add_ipc_connection E w (some a) handle id).1 = 0 ∧
      (del_ipc_connection (add_ipc_connection E w (some a) handle id).2
        ⟨a, handle, id⟩).g_ipc_connections = w.g_ipc_connections ∧
      (del_ipc_connection (add_ipc_connection E w (some a) handle id).2
        ⟨a, handle, id⟩).g_ipc_connections_cnt = w.g_ipc_connections_cnt ∧
      (del_ipc_connection (add_ipc_connection E w (some a) handle id).2 ⟨a, handle, id⟩).log =
        w.log ++ [WEvent.add_ipc_connection ⟨a, handle, id⟩,
          WEvent.del_ipc_connection ⟨a, handle, id⟩, WEvent.DkObjectClose handle,
          WEvent.free a] ∧
      List.count (WEvent.DkObjectClose handle) [WEvent.add_ipc_connection ⟨a, handle, id⟩,
        WEvent.del_ipc_connection ⟨a, handle, id⟩, WEvent.DkObjectClose handle,
        WEvent.free a] = 1 ∧
      add_ipc_connection E w none handle id = (-E.ENOMEM, w) := by
  have hp := two_pow_64
  refine ⟨rfl, ?_, ?_, ?_, ?_, rfl⟩
  · simp only [add_ipc_connection, del_ipc_connection, List.erase_cons_head]
  · simp only [add_ipc_connection, del_ipc_connection]
    rw [hp] at hcnt ⊢
    omega
  · simp only [add_ipc_connection, del_ipc_connection, List.append_assoc, List.singleton_append]
  · simp [List.count_cons]

/-- Witness of C13: a connection for peer 9 on handle 13 added to `sampleWorker` and
deleted again. -/
theorem add_then_del_restores_witness :
    (add_ipc_connection sampleEnv sampleWorker (some 12288) 13 9).1 = 0 ∧
      (del_ipc_connection (add_ipc_connection sampleEnv sampleWorker (some 12288) 13 9).2
        ⟨12288, 13, 9⟩).g_ipc_connections = sampleWorker.g_ipc_connections ∧
      (del_ipc_connection (add_ipc_connection sampleEnv sampleWorker (some 12288) 13 9).2
        ⟨12288, 13, 9⟩).g_ipc_connections_cnt = sampleWorker.g_ipc_connections_cnt ∧
      (del_ipc_connection (add_ipc_connection sampleEnv sampleWorker (some 12288) 13 9).2
        ⟨12288, 13, 9⟩).log =
        sampleWorker.log ++ [WEvent.add_ipc_connection ⟨12288, 13, 9⟩,
          WEvent.del_ipc_connection ⟨12288, 13, 9⟩, WEvent.DkObjectClose 13,
          WEvent.free 12288] ∧
      List.count (WEvent.DkObjectClose 13) [WEvent.add_ipc_connection ⟨12288, 13, 9⟩,
        WEvent.del_ipc_connection ⟨12288, 13, 9⟩, WEvent.DkObjectClose 13,
        WEvent.free 12288] = 1 ∧
      add_ipc_connection sampleEnv sampleWorker none 13 9 = (-sampleEnv.ENOMEM, sampleWorker) :=
  add_then_del_restores sampleEnv sampleWorker 12288 13 9 (by decide)

/-! ## Retried reads -/

/-- C14: two streams whose read results differ only by results
`-PAL_ERROR_INTERRUPTED` or `-PAL_ERROR_TRYAGAIN` inserted anywhere (they are the same
once these are left out) make `receive_ipc_messages` return the same value, dispatch
the same messages and do the same things otherwise, the retried reads apart; in
particular the call returns what it returns on the stream without any such result,
so no return value comes from them. -/
theorem transient_reads_invisible (E : Env) (fuel vmid : Nat) (s s1 : Stream)
    (hc : s.closed = s1.closed) (hp : dropTransient s.pending = dropTransient s1.pending) :
    (receive_ipc_messages E fuel vmid s).status =
        (receive_ipc_messages E fuel vmid s1).status ∧
      dispatched (receive_ipc_messages E fuel vmid s).trace =
        dispatched (receive_ipc_messages E fuel vmid s1).trace ∧
      quiet (receive_ipc_messages E fuel vmid s).trace =
        quiet (receive_ipc_messages E fuel vmid s1).trace ∧
      (receive_ipc_messages E fuel vmid s).status =
        (receive_ipc_messages E fuel vmid ⟨dropTransient s.pending, s.closed⟩).status := by
  have hs : s.settled = s1.settled := by
    simp only [Stream.settled, hc, hp]
  have h1 := recvLoop_settled E vmid fuel s s1 [] hs
  have h2 := recvLoop_settled E vmid fuel s s.settled [] (settled_idem s).symm
  simp only [Out.settled, Out.mk.injEq] at h1 h2
  refine ⟨h1.1, ?_, h1.2.2, h2.1⟩
  have h3 := congrArg dispatched h1.2.2
  rw [dispatched_quiet, dispatched_quiet] at h3
  exact h3

/-- Witness of C14: `msgA` arriving in two chunks, read with and without retried
reads. -/
theorem transient_reads_invisible_witness :
    (receive_ipc_messages sampleEnv 3 7 calmStream).status =
        (receive_ipc_messages sampleEnv 3 7 bumpyStream).status ∧
      dispatched (receive_ipc_messages sampleEnv 3 7 calmStream).trace =
        dispatched (receive_ipc_messages sampleEnv 3 7 bumpyStream).trace ∧
      quiet (receive_ipc_messages sampleEnv 3 7 calmStream).trace =
        quiet (receive_ipc_messages sampleEnv 3 7 bumpyStream).trace ∧
      (receive_ipc_messages sampleEnv 3 7 calmStream).status =
        (receive_ipc_messages sampleEnv 3 7
          ⟨dropTransient calmStream.pending, calmStream.closed⟩).status :=
  transient_reads_invisible sampleEnv 3 7 calmStream bumpyStream rfl (by decide)

/-! ## The response callback -/

/-- C15: for every response message from the peer `vmid` with sequence number `s`
whose `retval` field holds the 32-bit signed value `r` (negative values included):
messages of the response kind go to `ipc_resp_callback`, which hands `(vmid, s, r)`
to the response correlator and returns 0; `set_request_retval`, called with a pending
request, stores exactly `r` in it and wakes its thread once; called with `NULL` it
stores nothing and wakes no one. -/
theorem response_resolves_pending (E : Env) (msg : List Nat) (vmid s : Nat) (r : Int)
    (req : MsgWithAck)
    (hsrc : readField msg E.L.srcOff E.L.idWidth = some vmid)
    (hseq : readField msg E.L.seqOff 8 = some s)
    (hlo : -2 ^ 31 ≤ r) (hhi : r < 2 ^ 31)
    (hrv : readField msg E.L.msgOff 4 = some (r % 2 ^ 32).toNat) :
    (ipc_callbacks E E.IPC_MSG_RESP).map (fun h => h msg vmid) =
        some (Status.ret 0, [Event.resolve vmid s r]) ∧
      ipc_resp_callback E msg vmid = (Status.ret 0, [Event.resolve vmid s r]) ∧
      set_request_retval (some req) r = (some ⟨req.thread, r⟩, [req.thread]) ∧
      set_request_retval none r = (none, []) := by
  have hcb : ipc_resp_callback E msg vmid = (Status.ret 0, [Event.resolve vmid s r]) := by
    unfold ipc_resp_callback
    simp only [hsrc, hseq, hrv, ne_eq, not_true_eq_false, if_false,
      toInt32_pattern r hlo hhi]
  refine ⟨?_, hcb, ?_, rfl⟩
  · simp only [ipc_callbacks, if_true, Option.map_some', hcb]
  · simp only [set_request_retval, intOfData_int r hlo hhi]

/-- Witness of C15: the response `{sequence = 42, retval = -11}` from peer 7, with a
request of thread 3 pending. -/
theorem response_resolves_pending_witness :
    (ipc_callbacks sampleEnv sampleEnv.IPC_MSG_RESP).map (fun h => h msgResp 7) =
        some (Status.ret 0, [Event.resolve 7 42 (-11)]) ∧
      ipc_resp_callback sampleEnv msgResp 7 = (Status.ret 0, [Event.resolve 7 42 (-11)]) ∧
      set_request_retval (some ⟨3, 0⟩) (-11) = (some ⟨3, -11⟩, [3]) ∧
      set_request_retval none (-11) = (none, []) :=
  response_resolves_pending sampleEnv msgResp 7 42 (-11) ⟨3, 0⟩ (by decide) (by decide)
    (by decide) (by decide) (by decide)

/-! ## The accept branch -/

/-- C16: in an iteration of the main loop that reaches the accept branch with the
listening handle signalled for read and a handle `h` accepted: when `read_exact` of
the identification value fails (returns a negative value), `h` is closed, the list
and `g_ipc_connections_cnt` are as before, the iteration goes on to the
per-connection loop and does not end in `out_die`, and every `disconnect_callbacks`
call of the iteration is for a connection registered before it; when the read
succeeds with the bytes `bs` and the connection object is allocated, exactly the
connection with handle `h` and `vmid = leNat bs` is added. -/
theorem id_read_decides_registration (E : Env) (fuel : Nat) (env : IterEnv) (st : MainState)
    (ret_events : List Nat) (h : Nat) (g : List (Option Conn) × List WaitHandle)
    (harr : ¬ ((st.w.g_ipc_connections_cnt + 2) % 2 ^ 64 ≠ st.prev_items_cnt ∧
      env.arrays_ok = false))
    (hg : gather st.w ((st.w.g_ipc_connections_cnt + 2) % 2 ^ 64) = some g)
    (hwait : env.wait = WaitRes.events ret_events)
    (h0 : ret_events.getD 0 0 = 0) (h1 : ret_events.getD 1 0 ≠ 0)
    (hrd : ret_events.getD 1 0 &&& E.PAL_WAIT_READ = ret_events.getD 1 0)
    (hacc : env.accepted = some h) :
    (∀ ret s2, read_exact E (st.w.streams h) E.L.idWidth = ExactRes.err ret s2 → ret < 0 →
      acceptBranch E env st.w (ret_events.getD 1 0) =
        (none, ⟨st.w.g_ipc_connections, st.w.g_ipc_connections_cnt,
          Function.update st.w.streams h s2,
          st.w.log ++ [WEvent.DkStreamWaitForClient h] ++ [WEvent.DkObjectClose h]⟩) ∧
      (ipc_worker_iter E fuel env st).1 ≠ LoopEnd.die ∧
      ∃ new, (ipc_worker_iter E fuel env st).2.w.log =
          st.w.log ++ [WEvent.DkStreamWaitForClient h] ++ [WEvent.DkObjectClose h] ++ new ∧
        ∀ x, WEvent.disconnect_callbacks x ∈ new → x ∈ st.w.g_ipc_connections) ∧
    (∀ bs s2 a, read_exact E (st.w.streams h) E.L.idWidth = ExactRes.ok bs s2 →
      env.conn_mem = some a →
      acceptBranch E env st.w (ret_events.getD 1 0) =
        (none, ⟨⟨a, h, leNat bs⟩ :: st.w.g_ipc_connections,
          (st.w.g_ipc_connections_cnt + 1) % 2 ^ 64, Function.update st.w.streams h s2,
          st.w.log ++ [WEvent.DkStreamWaitForClient h] ++
            [WEvent.add_ipc_connection ⟨a, h, leNat bs⟩]⟩) ∧
      (ipc_worker_iter E fuel env st).1 ≠ LoopEnd.die) := by
  have hnd : ¬ (ret_events.getD 1 0 &&& E.PAL_WAIT_READ ≠ ret_events.getD 1 0) := by
    simp only [ne_eq, hrd, not_true_eq_false, not_false_eq_true]
  have hz : ¬ (ret_events.getD 0 0 ≠ 0) := by
    simp only [ne_eq, h0, not_true_eq_false, not_false_eq_true]
  have hend : ∀ w1 slots, (connLoop E fuel w1 slots).1 ≠ LoopEnd.die := by
    intro w1 slots hd
    rcases connLoop_end E fuel slots w1 with h | ⟨s0, h⟩
    · rw [h] at hd; cases hd
    · rw [h] at hd; cases hd
  constructor
  · intro ret s2 hread hneg
    have hab : acceptBranch E env st.w (ret_events.getD 1 0) =
        (none, ⟨st.w.g_ipc_connections, st.w.g_ipc_connections_cnt,
          Function.update st.w.streams h s2,
          st.w.log ++ [WEvent.DkStreamWaitForClient h] ++ [WEvent.DkObjectClose h]⟩) := by
      unfold acceptBranch
      simp only [if_pos h1, if_neg hnd, hacc, hread, if_pos hneg, Worker.logged]
    have hit : ipc_worker_iter E fuel env st =
        ((connLoop E fuel ⟨st.w.g_ipc_connections, st.w.g_ipc_connections_cnt,
            Function.update st.w.streams h s2,
            st.w.log ++ [WEvent.DkStreamWaitForClient h] ++ [WEvent.DkObjectClose h]⟩
            (slotsFrom 2 st.w.g_ipc_connections ret_events)).1,
          ⟨(connLoop E fuel ⟨st.w.g_ipc_connections, st.w.g_ipc_connections_cnt,
            Function.update st.w.streams h s2,
            st.w.log ++ [WEvent.DkStreamWaitForClient h] ++ [WEvent.DkObjectClose h]⟩
            (slotsFrom 2 st.w.g_ipc_connections ret_events)).2,
            (st.w.g_ipc_connections_cnt + 2) % 2 ^ 64⟩) := by
      unfold ipc_worker_iter
      simp only [if_neg harr, hg, hwait, if_neg hz, hab]
    refine ⟨hab, ?_, ?_⟩
    · rw [hit]
      exact hend _ _
    · obtain ⟨new, hlog, hx⟩ := connLoop_log E fuel
        (slotsFrom 2 st.w.g_ipc_connections ret_events)
        ⟨st.w.g_ipc_connections, st.w.g_ipc_connections_cnt,
          Function.update st.w.streams h s2,
          st.w.log ++ [WEvent.DkStreamWaitForClient h] ++ [WEvent.DkObjectClose h]⟩
      refine ⟨new, ?_, ?_⟩
      · rw [hit]
        exact hlog
      · intro x hxm
        have := hx x hxm
        rw [slotsFrom_fst] at this
        exact this
  · intro bs s2 a hread hmem
    have hnot : ¬ (0 : Int) < 0 := by omega
    have hab : acceptBranch E env st.w (ret_events.getD 1 0) =
        (none, ⟨⟨a, h, leNat bs⟩ :: st.w.g_ipc_connections,
          (st.w.g_ipc_connections_cnt + 1) % 2 ^ 64, Function.update st.w.streams h s2,
          st.w.log ++ [WEvent.DkStreamWaitForClient h] ++
            [WEvent.add_ipc_connection ⟨a, h, leNat bs⟩]⟩) := by
      unfold acceptBranch
      simp only [if_pos h1, if_neg hnd, hacc, hread, hmem, add_ipc_connection, if_neg hnot]
    refine ⟨hab, ?_⟩
    unfold ipc_worker_iter
    simp only [if_neg harr, hg, hwait, if_neg hz, hab]
    exact hend _ _

/-- Witness of C16: from the start of the worker, a peer accepted on handle 11 that
closes without sending its id is discarded (`read_exact` returns `-ENODATA`), and one
that sends the id 7 is registered. -/
theorem id_read_decides_registration_witness :
    (acceptBranch sampleEnv oneAccept (Worker.start silentPeers).w 2 =
        (none, ⟨[], 0, Function.update silentPeers 11 ⟨[], true⟩,
          [] ++ [WEvent.DkStreamWaitForClient 11] ++ [WEvent.DkObjectClose 11]⟩) ∧
      (ipc_worker_iter sampleEnv 2 oneAccept (Worker.start silentPeers)).1 ≠ LoopEnd.die ∧
      ∃ new, (ipc_worker_iter sampleEnv 2 oneAccept (Worker.start silentPeers)).2.w.log =
          [] ++ [WEvent.DkStreamWaitForClient 11] ++ [WEvent.DkObjectClose 11] ++ new ∧
        ∀ x, WEvent.disconnect_callbacks x ∈ new → x ∈ ([] : List Conn)) ∧
    (acceptBranch sampleEnv oneAccept (Worker.start twoPeers).w 2 =
        (none, ⟨[⟨4096, 11, 7⟩], (0 + 1) % 2 ^ 64, Function.update twoPeers 11 ⟨[], false⟩,
          [] ++ [WEvent.DkStreamWaitForClient 11] ++
            [WEvent.add_ipc_connection ⟨4096, 11, 7⟩]⟩) ∧
      (ipc_worker_iter sampleEnv 2 oneAccept (Worker.start twoPeers)).1 ≠ LoopEnd.die) :=
  ⟨(id_read_decides_registration sampleEnv 2 oneAccept (Worker.start silentPeers) [0, 2] 11
      ([none, none], [WaitHandle.exit_event, WaitHandle.self_ipc])
      (by decide) (by decide) rfl (by decide) (by decide) (by decide) rfl).1
      (-61) ⟨[], true⟩ (by decide) (by decide),
    (id_read_decides_registration sampleEnv 2 oneAccept (Worker.start twoPeers) [0, 2] 11
      ([none, none], [WaitHandle.exit_event, WaitHandle.self_ipc])
      (by decide) (by decide) rfl (by decide) (by decide) (by decide) rfl).2
      [7, 0, 0, 0] ⟨[], false⟩ 4096 (by decide) rfl⟩

/-! ## The wait-set -/

/-- C17: for every registry state reached from the empty registry through
`add_ipc_connection` and `del_ipc_connection`, the arrays filled before the wait have
exactly `g_ipc_connections_cnt + 2` entries: slot 0 is the exit event, slot 1 the
listening handle, and the slots from 2 on hold every list entry once, each with its
own handle; `g_ipc_connections_cnt` is the number of list entries, so the fill index
stays inside the arrays. -/
theorem wait_set_covers_registry (E : Env) (streams : Nat → Stream) (ops : List RegOp)
    (hv : ValidOps E (Worker.start streams).w ops) :
    gather (applyOps E (Worker.start streams).w ops)
        (((applyOps E (Worker.start streams).w ops).g_ipc_connections_cnt + 2) % 2 ^ 64) =
      some (none :: none :: (applyOps E (Worker.start streams).w ops).g_ipc_connections.map some,
        WaitHandle.exit_event :: WaitHandle.self_ipc ::
          (applyOps E (Worker.start streams).w ops).g_ipc_connections.map
            (fun c => WaitHandle.conn c.handle)) ∧
      (WaitHandle.exit_event :: WaitHandle.self_ipc ::
          (applyOps E (Worker.start streams).w ops).g_ipc_connections.map
            (fun c => WaitHandle.conn c.handle)).length =
        (applyOps E (Worker.start streams).w ops).g_ipc_connections_cnt + 2 ∧
      ((applyOps E (Worker.start streams).w ops).g_ipc_connections_cnt + 2) % 2 ^ 64 =
        (applyOps E (Worker.start streams).w ops).g_ipc_connections_cnt + 2 ∧
      (applyOps E (Worker.start streams).w ops).g_ipc_connections.Nodup ∧
      (applyOps E (Worker.start streams).w ops).g_ipc_connections_cnt =
        (applyOps E (Worker.start streams).w ops).g_ipc_connections.length := by
  have hstart : RegInv (Worker.start streams).w := by
    refine ⟨List.nodup_nil, rfl, ?_⟩
    rw [two_pow_64]
    show 0 + 2 < 18446744073709551616
    omega
  have h := regInv_applyOps E ops (Worker.start streams).w hstart hv
  refine ⟨gather_of_regInv _ h, ?_, ?_, regInv_nodup _ h, h.2.1⟩
  · simp only [List.length_cons, List.length_map, h.2.1]
  · rw [h.2.1]
    exact Nat.mod_eq_of_lt h.2.2

/-- Witness of C17: two connections added, then the first one deleted. -/
theorem wait_set_covers_registry_witness :
    ValidOps sampleEnv (Worker.start twoPeers).w
        [RegOp.add 4096 11 7, RegOp.add 8192 12 8, RegOp.del ⟨4096, 11, 7⟩] ∧
      (applyOps sampleEnv (Worker.start twoPeers).w
        [RegOp.add 4096 11 7, RegOp.add 8192 12 8,
          RegOp.del ⟨4096, 11, 7⟩]).g_ipc_connections = [⟨8192, 12, 8⟩] ∧
      (gather (applyOps sampleEnv (Worker.start twoPeers).w
          [RegOp.add 4096 11 7, RegOp.add 8192 12 8, RegOp.del ⟨4096, 11, 7⟩])
          (((applyOps sampleEnv (Worker.start twoPeers).w
            [RegOp.add 4096 11 7, RegOp.add 8192 12 8,
              RegOp.del ⟨4096, 11, 7⟩]).g_ipc_connections_cnt + 2) % 2 ^ 64)).isSome = true :=
  have hv : ValidOps sampleEnv (Worker.start twoPeers).w
      [RegOp.add 4096 11 7, RegOp.add 8192 12 8, RegOp.del ⟨4096, 11, 7⟩] :=
    ⟨by decide, by decide, by decide, by decide, by decide, trivial⟩
  ⟨hv, by decide, by
    rw [(wait_set_covers_registry sampleEnv twoPeers _ hv).1]
    rfl⟩

/-! ## The exit branch -/

/-- C18: in an iteration in which the wait returns with the exit slot signalled for
read, whatever the other slots hold, the loop ends in this iteration (thread exit, or
`out_die`) and no later iteration runs; the list, the counter and the streams are
left as they were and at most the exit itself is recorded: no accept, no call of
`receive_ipc_messages`, no add and no removal. When only the read flag is set in the
exit slot the thread exits with `DkThreadExit`. -/
theorem exit_signal_stops_worker (E : Env) (fuel : Nat) (env : IterEnv) (rest : List IterEnv)
    (st : MainState) (ret_events : List Nat)
    (hwait : env.wait = WaitRes.events ret_events)
    (hexit : ret_events.getD 0 0 &&& E.PAL_WAIT_READ ≠ 0) :
    ipc_worker_main E fuel (env :: rest) st = ipc_worker_iter E fuel env st ∧
      (ipc_worker_iter E fuel env st).1 ≠ LoopEnd.next ∧
      (ipc_worker_iter E fuel env st).2.w.g_ipc_connections = st.w.g_ipc_connections ∧
      (ipc_worker_iter E fuel env st).2.w.g_ipc_connections_cnt = st.w.g_ipc_connections_cnt ∧
      (ipc_worker_iter E fuel env st).2.w.streams = st.w.streams ∧
      ((ipc_worker_iter E fuel env st).2.w.log = st.w.log ∨
        (ipc_worker_iter E fuel env st).2.w.log = st.w.log ++ [WEvent.DkThreadExit] ∨
        (ipc_worker_iter E fuel env st).2.w.log = st.w.log ++ [WEvent.DkProcessExit]) ∧
      (¬ ((st.w.g_ipc_connections_cnt + 2) % 2 ^ 64 ≠ st.prev_items_cnt ∧
            env.arrays_ok = false) →
        gather st.w ((st.w.g_ipc_connections_cnt + 2) % 2 ^ 64) ≠ none →
        ret_events.getD 0 0 &&& E.PAL_WAIT_READ = ret_events.getD 0 0 →
        (ipc_worker_iter E fuel env st).1 = LoopEnd.threadExit ∧
          (ipc_worker_iter E fuel env st).2.w.log = st.w.log ++ [WEvent.DkThreadExit]) := by
  have hne : ret_events.getD 0 0 ≠ 0 := by
    intro hz
    rw [hz] at hexit
    exact hexit (Nat.zero_and _)
  have key : (ipc_worker_iter E fuel env st).1 ≠ LoopEnd.next ∧
      (ipc_worker_iter E fuel env st).2.w.g_ipc_connections = st.w.g_ipc_connections ∧
      (ipc_worker_iter E fuel env st).2.w.g_ipc_connections_cnt = st.w.g_ipc_connections_cnt ∧
      (ipc_worker_iter E fuel env st).2.w.streams = st.w.streams ∧
      ((ipc_worker_iter E fuel env st).2.w.log = st.w.log ∨
        (ipc_worker_iter E fuel env st).2.w.log = st.w.log ++ [WEvent.DkThreadExit] ∨
        (ipc_worker_iter E fuel env st).2.w.log = st.w.log ++ [WEvent.DkProcessExit]) := by
    unfold ipc_worker_iter
    dsimp only
    split
    · exact ⟨(by intro h; cases h), rfl, rfl, rfl, Or.inr (Or.inr rfl)⟩
    · split
      · exact ⟨(by intro h; cases h), rfl, rfl, rfl, Or.inl rfl⟩
      · simp only [hwait, if_pos hne]
        split
        · exact ⟨(by intro h; cases h), rfl, rfl, rfl, Or.inr (Or.inr rfl)⟩
        · exact ⟨(by intro h; cases h), rfl, rfl, rfl, Or.inr (Or.inl rfl)⟩
  refine ⟨?_, key.1, key.2.1, key.2.2.1, key.2.2.2.1, key.2.2.2.2, ?_⟩
  · rw [ipc_worker_main]
    split
    · rename_i st1 hit
      exact absurd (congrArg Prod.fst hit) key.1
    · rfl
  · intro harr hg honly
    have hnd : ¬ (ret_events.getD 0 0 &&& E.PAL_WAIT_READ ≠ ret_events.getD 0 0) := by
      simp only [ne_eq, honly, not_true_eq_false, not_false_eq_true]
    cases hgg : gather st.w ((st.w.g_ipc_connections_cnt + 2) % 2 ^ 64) with
    | none => exact absurd hgg hg
    | some g =>
      unfold ipc_worker_iter
      simp only [if_neg harr, hgg, hwait, if_pos hne, if_neg hnd, Worker.logged]
      exact ⟨trivial, trivial⟩

/-- Witness of C18: with the connections of `sampleWorker`, the wait returns with the
exit slot, the listening slot and a connection slot all signalled for read; the
thread exits and the later iterations `twoAccepts` never run. -/
theorem exit_signal_stops_worker_witness :
    ipc_worker_main sampleEnv 2 (exitAndMore :: twoAccepts) ⟨sampleWorker, 4⟩ =
        ipc_worker_iter sampleEnv 2 exitAndMore ⟨sampleWorker, 4⟩ ∧
      (ipc_worker_iter sampleEnv 2 exitAndMore ⟨sampleWorker, 4⟩).1 = LoopEnd.threadExit ∧
      (ipc_worker_iter sampleEnv 2 exitAndMore ⟨sampleWorker, 4⟩).2.w.g_ipc_connections =
        [connB, connA] ∧
      (ipc_worker_iter sampleEnv 2 exitAndMore ⟨sampleWorker, 4⟩).2.w.log =
        [WEvent.DkThreadExit] :=
  have h := exit_signal_stops_worker sampleEnv 2 exitAndMore twoAccepts ⟨sampleWorker, 4⟩
    [2, 2, 2] rfl (by decide)
  ⟨h.1, (h.2.2.2.2.2.2 (by decide) (by decide) (by decide)).1, h.2.2.1,
    (h.2.2.2.2.2.2 (by decide) (by decide) (by decide)).2⟩

/-! ## Termination of `receive_ipc_messages` -/

/-- C19, counterexample: the peer sends 48 bytes whose header declares a total size of
0 and closes. The pass takes the empty message out of the 48 buffered bytes, so it
removes nothing, and the code goes on to read header fields of an object of 0 bytes:
the call does not return, whatever the number of passes allowed. -/
theorem zero_size_no_return_counterexample :
    readField zeroMsg sampleEnv.L.sizeOff 8 = some 0 ∧
      recvPass sampleEnv 7 ⟨[ReadEv.data zeroMsg], true⟩ [] =
        Pass.final ⟨Status.undef, ⟨[], true⟩,
          [Event.streamRead 128 (ReadRes.bytes zeroMsg), Event.dispatch []]⟩ ∧
      ∀ fuel v, (receive_ipc_messages sampleEnv fuel 7 ⟨[ReadEv.data zeroMsg], true⟩).status ≠
        Status.ret v := by
  have hp : recvPass sampleEnv 7 ⟨[ReadEv.data zeroMsg], true⟩ [] =
      Pass.final ⟨Status.undef, ⟨[], true⟩,
        [Event.streamRead 128 (ReadRes.bytes zeroMsg), Event.dispatch []]⟩ := by decide
  refine ⟨by decide, hp, ?_⟩
  intro fuel v
  cases fuel with
  | zero =>
    intro h
    simp only [receive_ipc_messages, recvLoop] at h
    cases h
  | succ n =>
    intro h
    simp only [receive_ipc_messages, recvLoop, hp] at h
    cases h

/-- C19, amended: `receive_ipc_messages` terminates when no header declares a total
size of 0. Every pass of the outer loop that goes on hands one message to the
dispatch step, of as many bytes as the `size` field of its header says, and removes
exactly these bytes from the bytes still to be processed. So a call in which every
message dispatched is non-empty, allowed more passes than there are bytes in the
stream, does not run out of passes; on a stream that ends (the peer closes after the
pending results) it does not wait forever either; and when every message dispatched
holds its header and comes from the peer of the connection, it returns. -/
theorem nonzero_sizes_terminate (E : Env) (fuel vmid : Nat) (s : Stream)
    (hfuel : (bytesOf s.pending).length < fuel)
    (hne : ∀ m ∈ dispatched (receive_ipc_messages E fuel vmid s).trace, m ≠ []) :
    (∀ (s0 : Stream) (buf0 : List Nat) (s1 : Stream) (buf1 : List Nat) (tr : List Event),
        recvPass E vmid s0 buf0 = Pass.next s1 buf1 tr →
        ∃ m, dispatched tr = [m] ∧
          m.length + (buf1.length + (bytesOf s1.pending).length) =
            buf0.length + (bytesOf s0.pending).length ∧
          ∃ sh bh th, recvHeader E s0 buf0 = HdrRes.done sh bh th ∧
            readField bh E.L.sizeOff 8 = some m.length) ∧
      (receive_ipc_messages E fuel vmid s).status ≠ Status.diverge ∧
      (s.closed = true → (receive_ipc_messages E fuel vmid s).status ≠ Status.blocked) ∧
      (E.L.WF → E.ErrorsNegative → s.closed = true →
        (∀ m ∈ dispatched (receive_ipc_messages E fuel vmid s).trace,
          E.L.IPC_MSG_MINIMAL_SIZE ≤ m.length ∧
            readField m E.L.srcOff E.L.idWidth = some vmid) →
        ∃ v, (receive_ipc_messages E fuel vmid s).status = Status.ret v) := by
  refine ⟨?_, ?_⟩
  · intro s0 buf0 s1 buf1 tr hp
    exact (recvPass_next_progress E vmid s0 buf0 s1 buf1 tr hp).2
  · exact recvLoop_ends E vmid fuel s [] (by simpa using hfuel) hne

/-- Witness of C19 (amended): `msgA` and `msgB` in one chunk from a peer that then
closes; the call, allowed 109 passes for 108 bytes, returns. -/
theorem nonzero_sizes_terminate_witness :
    (bytesOf (Stream.mk [ReadEv.data (msgA ++ msgB)] true).pending).length < 109 ∧
      (∀ m ∈ dispatched (receive_ipc_messages sampleEnv 109 7
        ⟨[ReadEv.data (msgA ++ msgB)], true⟩).trace, m ≠ []) ∧
      (receive_ipc_messages sampleEnv 109 7 ⟨[ReadEv.data (msgA ++ msgB)], true⟩).status ≠
        Status.diverge ∧
      ∃ v, (receive_ipc_messages sampleEnv 109 7
        ⟨[ReadEv.data (msgA ++ msgB)], true⟩).status = Status.ret v :=
  have h := nonzero_sizes_terminate sampleEnv 109 7 ⟨[ReadEv.data (msgA ++ msgB)], true⟩
    (by decide) (by decide)
  ⟨by decide, by decide, h.2.1,
    h.2.2.2 (by decide) ⟨by decide, by decide, fun c => by
      show (if c < 0 then c else -22) < 0
      split <;> omega⟩ rfl (by decide)⟩

/-! ## The scratch buffer -/

/-- C20: in every call of `receive_ipc_messages` (a stream read returns at most the
number of bytes asked, as `DkStreamRead` does) the checks on the scratch buffer pass
along the whole trace, from `size = 0`: `size` never exceeds `sizeof(buf)`, every
header read asks for a strictly positive length that fits in the free space, a
message sliced from the buffer has at most `size` bytes, and `read_exact` is asked
for a strictly positive length that completes the message exactly. The `size` the
checks track is the length of the buffer of the model after each pass; and with
`msg_size` read from a filled header, the slice and the remainder have `msg_size`
and `size - msg_size` bytes when `msg_size ≤ size`, and otherwise `read_exact`
delivers the `msg_size - size` missing bytes. -/
theorem scratch_buffer_in_bounds (E : Env) (fuel vmid : Nat) (s : Stream) :
    (∃ st, bufRun E.L.bufSize ⟨0, none⟩ (receive_ipc_messages E fuel vmid s).trace = some st ∧
        st.size ≤ E.L.bufSize) ∧
      (∀ (s0 : Stream) (req : Nat) (bs : List Nat) (s1 : Stream),
        DkStreamRead s0 req = (ReadRes.bytes bs, s1) → bs.length ≤ req) ∧
      (∀ (s0 : Stream) (buf0 : List Nat) (s1 : Stream) (buf1 : List Nat) (tr : List Event),
        buf0.length ≤ E.L.bufSize → recvPass E vmid s0 buf0 = Pass.next s1 buf1 tr →
        bufRun E.L.bufSize ⟨buf0.length, none⟩ tr = some ⟨buf1.length, none⟩ ∧
          buf1.length ≤ E.L.bufSize) ∧
      ∀ (s0 : Stream) (buf0 : List Nat) (s1 : Stream) (buf1 : List Nat) (tr : List Event)
        (msg_size : Nat),
        buf0.length ≤ E.L.bufSize → recvHeader E s0 buf0 = HdrRes.done s1 buf1 tr →
        readField buf1 E.L.sizeOff 8 = some msg_size →
        E.L.IPC_MSG_MINIMAL_SIZE ≤ buf1.length ∧ buf1.length ≤ E.L.bufSize ∧
          (msg_size ≤ buf1.length →
            (buf1.take msg_size).length = msg_size ∧
              (buf1.drop msg_size).length = buf1.length - msg_size) ∧
          (buf1.length < msg_size →
            0 < msg_size - buf1.length ∧
              ∀ bs s2, read_exact E s1 (msg_size - buf1.length) = ExactRes.ok bs s2 →
                bs.length = msg_size - buf1.length ∧ (buf1 ++ bs).length = msg_size) := by
  refine ⟨?_, ?_, ?_, ?_⟩
  · exact recvLoop_buf E vmid fuel s [] (Nat.zero_le _)
  · intro s0 req bs s1 h
    exact (DkStreamRead_bytes s0 s1 req bs h).1
  · intro s0 buf0 s1 buf1 tr hle hp
    exact (recvPass_buf E vmid s0 buf0 hle).2 s1 buf1 tr hp
  · intro s0 buf0 s1 buf1 tr msg_size hle hh _
    obtain ⟨k, _, hk2, hk3⟩ := recvHeaderLoop_buf E (s0.pending.length + 1) s0 buf0 hle
    have hkb : k = buf1.length := hk3 s1 buf1 tr hh
    obtain ⟨hmin, _, _⟩ := recvHeaderLoop_done_inv E _ _ _ _ _ _ hh
    refine ⟨hmin, by omega, ?_, ?_⟩
    · intro hms
      exact ⟨by rw [List.length_take]; exact Nat.min_eq_left hms, List.length_drop _ _⟩
    · intro hlt
      refine ⟨by omega, ?_⟩
      intro bs s2 hex
      obtain ⟨got, hb, hgl, _⟩ := read_exact_loop_ok_inv E _ _ _ _ _ _ hex
      have hbl : bs.length = msg_size - buf1.length := by
        rw [hb]
        simp only [List.nil_append, hgl]
      refine ⟨hbl, ?_⟩
      simp only [List.length_append, hbl]
      omega

/-- Witness of C20: the checks pass on the call that reads `msgA` and the first ten
bytes of `msgB` in one chunk and the rest of `msgB` with `msgZ` in the next, and
leave `size = 0`. -/
theorem scratch_buffer_in_bounds_witness :
    bufRun sampleEnv.L.bufSize ⟨0, none⟩ (receive_ipc_messages sampleEnv 4 7
        ⟨[ReadEv.data (msgA ++ msgB.take 10), ReadEv.data (msgB.drop 10 ++ msgZ)],
          true⟩).trace = some ⟨0, none⟩ ∧
      ∃ st, bufRun sampleEnv.L.bufSize ⟨0, none⟩ (receive_ipc_messages sampleEnv 4 7
          ⟨[ReadEv.data (msgA ++ msgB.take 10), ReadEv.data (msgB.drop 10 ++ msgZ)],
            true⟩).trace = some st ∧ st.size ≤ sampleEnv.L.bufSize :=
  ⟨by decide, (scratch_buffer_in_bounds sampleEnv 4 7
    ⟨[ReadEv.data (msgA ++ msgB.take 10), ReadEv.data (msgB.drop 10 ++ msgZ)], true⟩).1⟩

end IpcWorker
